import Mathlib

/-!
# cpp-simple-vector: `ArrayPtr<Type>` and `SimpleVector<Type>`

A shallow embedding of `src/simple-vector/array_ptr.h` and
`src/simple-vector/simple_vector.h`.

Modelling conventions.

* The free store is explicit: a `Heap T` is the list of all arrays ever obtained
  from `new Type[n]`; the address of an array is its position in that list and an
  entry `none` is an array that `delete[]` has released.  A raw pointer `Type*`
  to the first element of an array is an `Option Nat` (`none` is `nullptr`), and a
  pointer or reference to an element is a raw pointer together with an offset.
* Every access through a pointer that C++ leaves undefined (null or released
  array, offset outside the array) makes the embedded operation answer
  `Outcome.undefined`; a failed `assert` answers `Outcome.abort`; a C++ exception
  answers `Outcome.threw` together with the program state in which the exception
  leaves the call.
* `new Type[n]` default-initialises its elements.  What a default-initialised
  element holds depends on `Type` (the default-constructed value for a class
  type, an indeterminate value for a scalar type), so the contents of fresh
  storage are a parameter (`Allocator.fresh`), as is whether the allocation
  throws `std::bad_alloc` (`Allocator.fails`).  `Type()` is `default`.
* Moving an element (`std::make_move_iterator`, `std::move`) is modelled as
  copying it: the moved-from slot is never read again before it is overwritten
  or leaves the range `[0, size)`.
* `size_t` values are natural numbers, and the decrement of zero wraps to
  `SIZE_MAX`.  The members that compute a sum or a product of sizes (`Resize`:
  `new_size * 2`; `PushBack`: `size_ + 1`; `Insert`: `size_ * 2` and `++size_`) are
  embedded twice: with exact arithmetic (`Resize`, `PushBack`, `Insert`), and as
  the 64-bit machine computes them, modulo `2 ^ 64` (`Resize_u64`, `PushBack_u64`,
  `Insert_u64`).  The two agree whenever the call asks for fewer than `2 ^ 63`
  elements (`Resize_u64_eq`, `PushBack_u64_eq`, `Insert_u64_eq`), so a theorem
  about an exact member holds of the machine for every call in that range.
  Client programs are likewise run in both ways (`World.run`, `World.run_u64`).
* `assert` is active unless the flag `ndebug` of the call is set.
* An iterator argument is given by its offset from `begin()`; an iterator that a
  member returns is a `Ref` into the array the vector owns afterwards.
* The constructor from `std::initializer_list` is not embedded: its
  mem-initializer list is `size_(init.size(), capacity_(init.size()),
  p_data_(init.size()))`, which no instantiation compiles, so no object comes
  from it.

The file has two parts: all definitions (the embedding, then the small client
programs the theorems talk about), and after them the lemmas and theorems.
-/

namespace CppSimpleVector

/-! ## The free store -/

/-- The free store: entry `a` is the array living at address `a`, or `none` once
it has been released. -/
abbrev Heap (T : Type) := List (Option (List T))

/-- A value of type `Type*` pointing at the start of an array; `none` is `nullptr`. -/
abbrev RawPtr := Option Nat

/-- A pointer (or reference) to the element `base[offset]`. -/
abbrev Ref := RawPtr × Nat

/-- The largest `size_t` value. -/
def SIZE_MAX : Nat := 2 ^ 64 - 1

/-- The `size_t` computation `n - 1` (also `--n`): zero wraps around. -/
def size_t_dec (n : Nat) : Nat := if n = 0 then SIZE_MAX else n - 1

/-- Behaviour of `new Type[n]` for one call: whether it throws and what the
default-initialised slot `i` of the new array holds. -/
structure Allocator (T : Type) where
  fails : Nat → Bool
  fresh : Nat → T

/-- An allocator for an element type whose default-initialisation produces `d`
(a class type with a default constructor); it never throws. -/
def Allocator.ofDefault {T : Type} (d : T) : Allocator T :=
  { fails := fun _ => false, fresh := fun _ => d }

/-- The array a raw pointer designates: the empty range for `nullptr`, nothing for
a dangling pointer. -/
def Heap.array {T : Type} (h : Heap T) : RawPtr → Option (List T)
  | none => some []
  | some a =>
    match h[a]? with
    | some (some b) => some b
    | _ => none

/-- Reading `p[i]`. -/
def Heap.load {T : Type} (h : Heap T) (p : RawPtr) (i : Nat) : Option T :=
  match h.array p with
  | some b => b[i]?
  | none => none

/-- Writing `p[i] = v`. -/
def Heap.store {T : Type} (h : Heap T) (p : RawPtr) (i : Nat) (v : T) : Option (Heap T) :=
  match p with
  | none => none
  | some a =>
    match h.array (some a) with
    | some b => if i < b.length then some (h.set a (some (b.set i v))) else none
    | none => none

/-- The expression `new Type[n]`; `none` stands for `std::bad_alloc`. -/
def Heap.new_array {T : Type} (al : Allocator T) (h : Heap T) (n : Nat) :
    Option (Heap T × RawPtr) :=
  if al.fails n then none
  else some (h ++ [some ((List.range n).map al.fresh)], some h.length)

/-- The statement `delete[] p`; `none` stands for undefined behaviour. -/
def Heap.delete_array {T : Type} (h : Heap T) : RawPtr → Option (Heap T)
  | none => some h
  | some a =>
    match h.array (some a) with
    | some _ => some (h.set a none)
    | none => none

/-! ## Standard algorithms on raw pointers -/

/-- The loop of `std::copy`: `n` times `*d++ = *first++`. -/
def std_copy_loop {T : Type} (src dst : RawPtr) : Nat → Nat → Nat → Heap T → Option (Heap T)
  | 0, _, _, h => some h
  | n + 1, i, d, h =>
    match h.load src i with
    | none => none
    | some x =>
      match h.store dst d x with
      | none => none
      | some h1 => std_copy_loop src dst n (i + 1) (d + 1) h1

/-- The call `std::copy(src + first, src + last, dst + d_first)`. -/
def std_copy {T : Type} (h : Heap T) (src : RawPtr) (first last : Nat) (dst : RawPtr)
    (d_first : Nat) : Option (Heap T) :=
  if last < first then none else std_copy_loop src dst (last - first) first d_first h

/-- The loop of `std::copy_backward`: `n` times `*--d_last = *--last`, written with
the start offsets of both ranges. -/
def std_copy_backward_loop {T : Type} (src dst : RawPtr) (first d_first : Nat) :
    Nat → Heap T → Option (Heap T)
  | 0, h => some h
  | n + 1, h =>
    match h.load src (first + n) with
    | none => none
    | some x =>
      match h.store dst (d_first + n) x with
      | none => none
      | some h1 => std_copy_backward_loop src dst first d_first n h1

/-- The call `std::copy_backward(src + first, src + last, dst + d_last)`. -/
def std_copy_backward {T : Type} (h : Heap T) (src : RawPtr) (first last : Nat) (dst : RawPtr)
    (d_last : Nat) : Option (Heap T) :=
  if last < first ∨ d_last < last - first then none
  else std_copy_backward_loop src dst first (d_last - (last - first)) (last - first) h

/-- The loop of `std::fill`: `n` times `*first++ = value`. -/
def std_fill_loop {T : Type} (dst : RawPtr) (value : T) : Nat → Nat → Heap T → Option (Heap T)
  | 0, _, h => some h
  | n + 1, d, h =>
    match h.store dst d value with
    | none => none
    | some h1 => std_fill_loop dst value n (d + 1) h1

/-- The call `std::fill(dst + first, dst + last, value)`. -/
def std_fill {T : Type} (h : Heap T) (dst : RawPtr) (first last : Nat) (value : T) :
    Option (Heap T) :=
  if last < first then none else std_fill_loop dst value (last - first) first h

/-- The element loop of `std::equal` once both ranges are known to have `n` elements. -/
def std_equal_loop {T : Type} [DecidableEq T] (h : Heap T) (p1 p2 : RawPtr) :
    Nat → Nat → Nat → Option Bool
  | 0, _, _ => some true
  | n + 1, i, j =>
    match h.load p1 i, h.load p2 j with
    | some x, some y => if x = y then std_equal_loop h p1 p2 n (i + 1) (j + 1) else some false
    | _, _ => none

/-- The call `std::equal(p1 + first1, p1 + last1, p2 + first2, p2 + last2)` on
random-access iterators: ranges of different length are unequal without any
element being read. -/
def std_equal {T : Type} [DecidableEq T] (h : Heap T) (p1 : RawPtr) (first1 last1 : Nat)
    (p2 : RawPtr) (first2 last2 : Nat) : Option Bool :=
  if last1 < first1 ∨ last2 < first2 then none
  else if last1 - first1 ≠ last2 - first2 then some false
  else std_equal_loop h p1 p2 (last1 - first1) first1 first2

/-! ## Outcomes of calls -/

/-- The exceptions the code can raise. -/
inductive Exn where
  | out_of_range
  | bad_alloc
deriving DecidableEq

/-- How a call ends: it returns, an exception leaves it (with the state at that
moment), an `assert` fails, or behaviour is undefined. -/
inductive Outcome (ε α : Type) where
  | ok (a : α)
  | threw (e : Exn) (st : ε)
  | abort
  | undefined

/-! ## `ArrayPtr` -/

/-- The class `ArrayPtr<Type>`: its only member is `raw_ptr_`, initially `nullptr`. -/
structure ArrayPtr where
  raw_ptr_ : RawPtr := none
deriving DecidableEq

/-- The constructor `ArrayPtr(size_t size)`; `none` stands for `std::bad_alloc`. -/
def ArrayPtr.ofSize {T : Type} (al : Allocator T) (h : Heap T) (size : Nat) :
    Option (Heap T × ArrayPtr) :=
  if size = 0 then some (h, { raw_ptr_ := none })
  else
    match h.new_array al size with
    | none => none
    | some (h1, p) => some (h1, { raw_ptr_ := p })

/-- The constructor `ArrayPtr(Type* raw_ptr)`. -/
def ArrayPtr.ofRaw (raw_ptr : RawPtr) : ArrayPtr := { raw_ptr_ := raw_ptr }

/-- The member `swap(ArrayPtr& other)`: returns the new `*this` and the new `other`. -/
def ArrayPtr.swap (self other : ArrayPtr) : ArrayPtr × ArrayPtr :=
  let p_temp := other.raw_ptr_
  ({ raw_ptr_ := p_temp }, { raw_ptr_ := self.raw_ptr_ })

/-- The move constructor `ArrayPtr(ArrayPtr&& other)`: the new object starts from
the default member initialiser and swaps with `other`; returns the new object and
the new `other`. -/
def ArrayPtr.move_construct (other : ArrayPtr) : ArrayPtr × ArrayPtr :=
  ArrayPtr.swap { raw_ptr_ := none } other

/-- The move assignment `operator=(ArrayPtr&& other)`: returns the new `*this` and
the new `other`. -/
def ArrayPtr.move_assign (self other : ArrayPtr) : ArrayPtr × ArrayPtr :=
  ArrayPtr.swap self other

/-- The destructor `~ArrayPtr()`. -/
def ArrayPtr.destroy {T : Type} (self : ArrayPtr) (h : Heap T) : Option (Heap T) :=
  h.delete_array self.raw_ptr_

/-- The member `Release()`: returns the new `*this` and the released pointer. -/
def ArrayPtr.Release (self : ArrayPtr) : ArrayPtr × RawPtr :=
  let temp_p := self.raw_ptr_
  ({ raw_ptr_ := none }, temp_p)

/-- The member `operator[](size_t index)`: a reference to `raw_ptr_[index]`. -/
def ArrayPtr.index (self : ArrayPtr) (index : Nat) : Ref := (self.raw_ptr_, index)

/-- The conversion `explicit operator bool()`. -/
def ArrayPtr.toBool (self : ArrayPtr) : Bool := self.raw_ptr_ != none

/-- The member `Get()`. -/
def ArrayPtr.Get (self : ArrayPtr) : RawPtr := self.raw_ptr_

/-! ## `SimpleVector` -/

/-- The class `SimpleVector<Type>`: data members in declaration order, with their
default member initialisers. -/
structure SimpleVector where
  p_data_ : ArrayPtr := {}
  size_ : Nat := 0
  capacity_ : Nat := 0
deriving DecidableEq

/-- Program state seen by a member call: the free store and the object. -/
abbrev St (T : Type) := Heap T × SimpleVector

namespace SimpleVector

/-- The member `begin()` (also `cbegin()`): the base pointer; its offset is `0`. -/
def begin_ (s : SimpleVector) : Ref := (s.p_data_.Get, 0)

/-- The member `end()` (also `cend()`). -/
def end_ (s : SimpleVector) : Ref := (s.p_data_.Get, s.size_)

/-- The member `IsEmpty()`. -/
def IsEmpty (s : SimpleVector) : Bool := s.size_ == 0

/-- The member `GetSize()`. -/
def GetSize (s : SimpleVector) : Nat := s.size_

/-- The member `GetCapacity()`. -/
def GetCapacity (s : SimpleVector) : Nat := s.capacity_

/-- The member `operator[](size_t index)`, both overloads: a reference to
`p_data_[index]`, unchecked. -/
def index (s : SimpleVector) (index : Nat) : Ref := s.p_data_.index index

/-- The member `At(size_t index)`: throws when `index >= size_`, otherwise a
reference to `p_data_[index]`. -/
def At (s : SimpleVector) (index : Nat) : Except Exn Ref :=
  if index ≥ s.size_ then .error .out_of_range else .ok (s.p_data_.index index)

/-- The member `At(size_t index) const`, same body as `At`. -/
def At_const (s : SimpleVector) (index : Nat) : Except Exn Ref :=
  if index ≥ s.size_ then .error .out_of_range else .ok (s.p_data_.index index)

/-- The member `swap(SimpleVector& other)`: returns the new `*this` and the new
`other`. -/
def swap (self other : SimpleVector) : SimpleVector × SimpleVector :=
  let p := self.p_data_.swap other.p_data_
  ({ p_data_ := p.1, size_ := other.size_, capacity_ := other.capacity_ },
   { p_data_ := p.2, size_ := self.size_, capacity_ := self.capacity_ })

/-- The member `Clear()`. -/
def Clear (s : SimpleVector) : SimpleVector := { s with size_ := 0 }

/-- The member `Resize(size_t new_size)`. -/
def Resize {T : Type} (al : Allocator T) (h : Heap T) (s : SimpleVector) (new_size : Nat) :
    Outcome (St T) (St T) :=
  if new_size > s.size_ then
    match ArrayPtr.ofSize al h (new_size * 2) with
    | none => .threw .bad_alloc (h, s)
    | some (h1, p_temp_new_vec) =>
      match std_copy h1 s.begin_.1 s.begin_.2 s.end_.2 p_temp_new_vec.Get 0 with
      | none => .undefined
      | some h2 =>
        let p := s.p_data_.swap p_temp_new_vec
        match p.2.destroy h2 with
        | none => .undefined
        | some h3 => .ok (h3, { p_data_ := p.1, size_ := new_size, capacity_ := new_size * 2 })
  else .ok (h, { s with size_ := new_size })

/-- The member `PushBack(Type item)`.  In `this->At(size_++) = item` the increment
is complete before the body of `At` runs. -/
def PushBack {T : Type} (al : Allocator T) (h : Heap T) (s : SimpleVector) (item : T) :
    Outcome (St T) (St T) :=
  if s.size_ < s.capacity_ then
    let s1 : SimpleVector := { s with size_ := s.size_ + 1 }
    match s1.At s.size_ with
    | .error e => .threw e (h, s1)
    | .ok r =>
      match h.store r.1 r.2 item with
      | none => .undefined
      | some h1 => .ok (h1, s1)
  else
    match Resize al h s (s.size_ + 1) with
    | .ok (h1, s1) =>
      match s1.At (size_t_dec s1.size_) with
      | .error e => .threw e (h1, s1)
      | .ok r =>
        match h1.store r.1 r.2 item with
        | none => .undefined
        | some h2 => .ok (h2, s1)
    | .threw e st => .threw e st
    | .abort => .abort
    | .undefined => .undefined

/-- The member `Reserve(size_t new_capacity)`. -/
def Reserve {T : Type} (al : Allocator T) (h : Heap T) (s : SimpleVector) (new_capacity : Nat) :
    Outcome (St T) (St T) :=
  if new_capacity > s.capacity_ then
    match ArrayPtr.ofSize al h new_capacity with
    | none => .threw .bad_alloc (h, s)
    | some (h1, p_temp_new_vec) =>
      match std_copy h1 s.begin_.1 s.begin_.2 s.end_.2 p_temp_new_vec.Get 0 with
      | none => .undefined
      | some h2 =>
        let p := s.p_data_.swap p_temp_new_vec
        match p.2.destroy h2 with
        | none => .undefined
        | some h3 => .ok (h3, { p_data_ := p.1, size_ := s.size_, capacity_ := new_capacity })
  else .ok (h, s)

/-- The member `Insert(ConstIterator pos, Type value)` called with
`pos == begin() + pos`; returns the iterator it answers.  With `ndebug` the
`assert` is compiled out. -/
def Insert {T : Type} (al : Allocator T) (ndebug : Bool) (h : Heap T) (s : SimpleVector)
    (pos : Nat) (value : T) : Outcome (St T) (St T × Ref) :=
  if !ndebug && !decide (pos ≤ s.size_) then .abort
  else if s.size_ ≥ s.capacity_ then
    let s1 : SimpleVector := { s with capacity_ := max (s.size_ * 2) 1 }
    match ArrayPtr.ofSize al h s1.capacity_ with
    | none => .threw .bad_alloc (h, s1)
    | some (h1, p_temp_new_vec) =>
      match std_copy h1 s1.begin_.1 s1.begin_.2 pos p_temp_new_vec.Get 0 with
      | none => .undefined
      | some h2 =>
        let insert_iter : Ref := (p_temp_new_vec.Get, pos)
        match h2.store insert_iter.1 insert_iter.2 value with
        | none => .undefined
        | some h3 =>
          match std_copy h3 s1.begin_.1 pos s1.end_.2 insert_iter.1 (insert_iter.2 + 1) with
          | none => .undefined
          | some h4 =>
            let p := s1.p_data_.swap p_temp_new_vec
            match p.2.destroy h4 with
            | none => .undefined
            | some h5 =>
              .ok ((h5, { p_data_ := p.1, size_ := s1.size_ + 1, capacity_ := s1.capacity_ }),
                   insert_iter)
  else
    let s1 : SimpleVector := { s with size_ := s.size_ + 1 }
    match std_copy_backward h s1.begin_.1 pos (s1.end_.2 - 1) s1.end_.1 s1.end_.2 with
    | none => .undefined
    | some h1 =>
      match h1.store s1.begin_.1 pos value with
      | none => .undefined
      | some h2 => .ok ((h2, s1), (s1.begin_.1, pos))

/-- The member `PopBack()`.  With `ndebug` the `assert` is compiled out. -/
def PopBack (ndebug : Bool) (s : SimpleVector) : Outcome SimpleVector SimpleVector :=
  if !ndebug && !s.IsEmpty then .abort
  else .ok { s with size_ := size_t_dec s.size_ }

/-- The member `Erase(ConstIterator pos)` called with `pos == begin() + pos`;
returns the iterator it answers.  With `ndebug` the `assert` is compiled out. -/
def Erase {T : Type} (ndebug : Bool) (h : Heap T) (s : SimpleVector) (pos : Nat) :
    Outcome (St T) (St T × Ref) :=
  if !ndebug && !decide (pos < s.size_) then .abort
  else
    match std_copy h s.begin_.1 (pos + 1) s.end_.2 s.begin_.1 pos with
    | none => .undefined
    | some h1 => .ok ((h1, { s with size_ := size_t_dec s.size_ }), (s.begin_.1, pos))

/-- The constructor `SimpleVector(size_t size, const Type& value)`: members are
initialised in declaration order, `p_data_` first. -/
def ofSizeValue {T : Type} (al : Allocator T) (h : Heap T) (size : Nat) (value : T) :
    Outcome (Heap T) (St T) :=
  match ArrayPtr.ofSize al h size with
  | none => .threw .bad_alloc h
  | some (h1, p) =>
    let s : SimpleVector := { p_data_ := p, size_ := size, capacity_ := size }
    match std_fill h1 s.begin_.1 s.begin_.2 s.end_.2 value with
    | none => .undefined
    | some h2 => .ok (h2, s)

/-- The constructor `SimpleVector(size_t size)`, delegating with `Type()`. -/
def ofSize {T : Type} [Inhabited T] (al : Allocator T) (h : Heap T) (size : Nat) :
    Outcome (Heap T) (St T) :=
  ofSizeValue al h size default

/-- The implicit destructor: it destroys `p_data_`. -/
def destroy {T : Type} (s : SimpleVector) (h : Heap T) : Option (Heap T) :=
  s.p_data_.destroy h

/-- The copy constructor `SimpleVector(const SimpleVector& other)`. -/
def copy_construct {T : Type} [Inhabited T] (al : Allocator T) (h : Heap T)
    (other : SimpleVector) : Outcome (Heap T) (St T) :=
  let this : SimpleVector := {}
  match ofSize al h other.size_ with
  | .ok (h1, temp_copy) =>
    match std_copy h1 other.begin_.1 other.begin_.2 other.end_.2
        temp_copy.begin_.1 temp_copy.begin_.2 with
    | none => .undefined
    | some h2 =>
      let p := this.swap temp_copy
      match p.2.destroy h2 with
      | none => .undefined
      | some h3 => .ok (h3, p.1)
  | .threw e h1 => .threw e h1
  | .abort => .abort
  | .undefined => .undefined

/-- The move constructor `SimpleVector(SimpleVector&& other)`: returns the new
object and the new `other`. -/
def move_construct (other : SimpleVector) : SimpleVector × SimpleVector :=
  let p := ArrayPtr.move_construct other.p_data_
  ({ p_data_ := p.1, size_ := other.size_, capacity_ := other.capacity_ },
   { p_data_ := p.2, size_ := 0, capacity_ := 0 })

/-- The move assignment `operator=(SimpleVector&& other)`; `same` is the test
`&other == this`.  Returns the new `*this` and the new `other`.  The named
rvalue reference `other` is an lvalue, so `temp(other)` is a copy. -/
def move_assign {T : Type} [Inhabited T] (al : Allocator T) (h : Heap T) (same : Bool)
    (self other : SimpleVector) :
    Outcome (Heap T × SimpleVector × SimpleVector) (Heap T × SimpleVector × SimpleVector) :=
  if same then .ok (h, self, self)
  else
    match copy_construct al h other with
    | .ok (h1, temp) =>
      let p := self.swap other
      match temp.destroy h1 with
      | none => .undefined
      | some h2 => .ok (h2, p.1, p.2)
    | .threw e h1 => .threw e (h1, self, other)
    | .abort => .abort
    | .undefined => .undefined

/-- The copy assignment `operator=(const SimpleVector& rhs)`; `same` is the test
`&rhs == this`. -/
def copy_assign {T : Type} [Inhabited T] (al : Allocator T) (h : Heap T) (same : Bool)
    (self rhs : SimpleVector) : Outcome (St T) (St T) :=
  if same then .ok (h, self)
  else
    match copy_construct al h rhs with
    | .ok (h1, temp_copy) =>
      let p := self.swap temp_copy
      match p.2.destroy h1 with
      | none => .undefined
      | some h2 => .ok (h2, p.1)
    | .threw e h1 => .threw e (h1, self)
    | .abort => .abort
    | .undefined => .undefined

/-- The statement `v[index] = value` through the mutable `operator[]`. -/
def assign_index {T : Type} (h : Heap T) (s : SimpleVector) (index : Nat) (value : T) :
    Option (Heap T) :=
  h.store (s.index index).1 (s.index index).2 value

/-- The operator `lhs == rhs`; `none` stands for undefined behaviour. -/
def eq {T : Type} [DecidableEq T] (h : Heap T) (lhs rhs : SimpleVector) : Option Bool :=
  std_equal h lhs.begin_.1 lhs.begin_.2 lhs.end_.2 rhs.begin_.1 rhs.begin_.2 rhs.end_.2

/-- The operator `lhs != rhs`. -/
def ne {T : Type} [DecidableEq T] (h : Heap T) (lhs rhs : SimpleVector) : Option Bool :=
  (eq h lhs rhs).map (fun r => !r)

/-- The whole array owned by the vector, all `capacity` slots. -/
def buffer {T : Type} (h : Heap T) (s : SimpleVector) : List T :=
  (h.array s.p_data_.Get).getD []

/-- The sequence the vector stands for: slots `[0, size)` of its array. -/
def elems {T : Type} (h : Heap T) (s : SimpleVector) : List T :=
  (buffer h s).take s.size_

/-- Reading `v[index]`. -/
def read {T : Type} (h : Heap T) (s : SimpleVector) (index : Nat) : Option T :=
  h.load (s.index index).1 (s.index index).2

/-- The representation invariant: the object owns a live array of exactly
`capacity_` slots (no array when the pointer is null) and `size_ <= capacity_`. -/
def WF {T : Type} (h : Heap T) (s : SimpleVector) : Prop :=
  s.size_ ≤ s.capacity_ ∧ (h.array s.p_data_.Get).map List.length = some s.capacity_

instance WF_decidable {T : Type} (h : Heap T) (s : SimpleVector) : Decidable (WF h s) :=
  inferInstanceAs (Decidable (_ ∧ _))

end SimpleVector

/-- The class `ReserveProxyObj`. -/
structure ReserveProxyObj where
  capacity_ : Nat

/-- The member `ReserveProxyObj::GetCapacity()`. -/
def ReserveProxyObj.GetCapacity (r : ReserveProxyObj) : Nat := r.capacity_

/-- The free function `Reserve(size_t capacity_to_reserve)`. -/
def Reserve (capacity_to_reserve : Nat) : ReserveProxyObj :=
  { capacity_ := capacity_to_reserve }

/-- The constructor `SimpleVector(ReserveProxyObj)`: delegates to
`SimpleVector(size_t)`, then sets `size_ = 0`. -/
def SimpleVector.ofReserve {T : Type} [Inhabited T] (al : Allocator T) (h : Heap T)
    (reserveProxyObj : ReserveProxyObj) : Outcome (Heap T) (St T) :=
  match SimpleVector.ofSize al h reserveProxyObj.GetCapacity with
  | .ok (h1, s) => .ok (h1, { s with size_ := 0 })
  | .threw e h1 => .threw e h1
  | .abort => .abort
  | .undefined => .undefined

/-! ## Ordering operators -/

/-- The loop of `std::lexicographical_compare` with `n1` elements left in the first
range and `n2` in the second: it stops at the first position where `operator<`
tells the elements apart; when a range runs out, the answer is
`first1 == last1 && first2 != last2`. -/
def std_lexicographical_compare_loop {T : Type} [LT T] [∀ a b : T, Decidable (a < b)]
    (h : Heap T) (p1 p2 : RawPtr) : Nat → Nat → Nat → Nat → Option Bool
  | 0, n2, _, _ => some (decide (n2 ≠ 0))
  | _ + 1, 0, _, _ => some false
  | n1 + 1, n2 + 1, i, j =>
    match h.load p1 i, h.load p2 j with
    | some x, some y =>
      if x < y then some true
      else if y < x then some false
      else std_lexicographical_compare_loop h p1 p2 n1 n2 (i + 1) (j + 1)
    | _, _ => none

/-- The call `std::lexicographical_compare(p1 + first1, p1 + last1, p2 + first2,
p2 + last2)`. -/
def std_lexicographical_compare {T : Type} [LT T] [∀ a b : T, Decidable (a < b)]
    (h : Heap T) (p1 : RawPtr) (first1 last1 : Nat) (p2 : RawPtr) (first2 last2 : Nat) :
    Option Bool :=
  if last1 < first1 ∨ last2 < first2 then none
  else std_lexicographical_compare_loop h p1 p2 (last1 - first1) (last2 - first2) first1 first2

/-- The operator `lhs < rhs`; `none` stands for undefined behaviour. -/
def SimpleVector.lt {T : Type} [LT T] [∀ a b : T, Decidable (a < b)] (h : Heap T)
    (lhs rhs : SimpleVector) : Option Bool :=
  std_lexicographical_compare h lhs.begin_.1 lhs.begin_.2 lhs.end_.2
    rhs.begin_.1 rhs.begin_.2 rhs.end_.2

/-- The operator `lhs <= rhs`, written `!(rhs < lhs)`. -/
def SimpleVector.le {T : Type} [LT T] [∀ a b : T, Decidable (a < b)] (h : Heap T)
    (lhs rhs : SimpleVector) : Option Bool :=
  (SimpleVector.lt h rhs lhs).map (fun r => !r)

/-- The operator `lhs > rhs`, written `rhs < lhs`. -/
def SimpleVector.gt {T : Type} [LT T] [∀ a b : T, Decidable (a < b)] (h : Heap T)
    (lhs rhs : SimpleVector) : Option Bool :=
  SimpleVector.lt h rhs lhs

/-- The operator `lhs >= rhs`, written `!(lhs < rhs)`. -/
def SimpleVector.ge {T : Type} [LT T] [∀ a b : T, Decidable (a < b)] (h : Heap T)
    (lhs rhs : SimpleVector) : Option Bool :=
  (SimpleVector.lt h lhs rhs).map (fun r => !r)

/-- The comparison of `std::lexicographical_compare` carried out on two lists of
elements instead of two ranges of the free store. -/
def lex_lt {T : Type} [LT T] [∀ a b : T, Decidable (a < b)] : List T → List T → Bool
  | [], [] => false
  | [], _ :: _ => true
  | _ :: _, [] => false
  | x :: xs, y :: ys => if x < y then true else if y < x then false else lex_lt xs ys

/-! ## `size_t` as a 64-bit machine integer -/

/-- The `size_t` product `a * b`: unsigned 64-bit arithmetic wraps around. -/
def size_t_mul (a b : Nat) : Nat := (a * b) % 2 ^ 64

/-- The member `Resize(size_t new_size)` with the product `new_size * 2` computed as
the machine computes it, modulo `2 ^ 64`; everything else is as in `Resize`. -/
def SimpleVector.Resize_u64 {T : Type} (al : Allocator T) (h : Heap T) (s : SimpleVector)
    (new_size : Nat) : Outcome (St T) (St T) :=
  if new_size > s.size_ then
    match ArrayPtr.ofSize al h (size_t_mul new_size 2) with
    | none => .threw .bad_alloc (h, s)
    | some (h1, p_temp_new_vec) =>
      match std_copy h1 s.begin_.1 s.begin_.2 s.end_.2 p_temp_new_vec.Get 0 with
      | none => .undefined
      | some h2 =>
        let p := s.p_data_.swap p_temp_new_vec
        match p.2.destroy h2 with
        | none => .undefined
        | some h3 =>
          .ok (h3, { p_data_ := p.1, size_ := new_size, capacity_ := size_t_mul new_size 2 })
  else .ok (h, { s with size_ := new_size })

/-- The `size_t` sum `a + b`: unsigned 64-bit arithmetic wraps around. -/
def size_t_add (a b : Nat) : Nat := (a + b) % 2 ^ 64

/-- The member `PushBack(Type item)` with `size_++` and `size_ + 1` computed as the
machine computes them and with `Resize` as the machine runs it; everything else is
as in `PushBack`. -/
def SimpleVector.PushBack_u64 {T : Type} (al : Allocator T) (h : Heap T) (s : SimpleVector)
    (item : T) : Outcome (St T) (St T) :=
  if s.size_ < s.capacity_ then
    let s1 : SimpleVector := { s with size_ := size_t_add s.size_ 1 }
    match s1.At s.size_ with
    | .error e => .threw e (h, s1)
    | .ok r =>
      match h.store r.1 r.2 item with
      | none => .undefined
      | some h1 => .ok (h1, s1)
  else
    match SimpleVector.Resize_u64 al h s (size_t_add s.size_ 1) with
    | .ok (h1, s1) =>
      match s1.At (size_t_dec s1.size_) with
      | .error e => .threw e (h1, s1)
      | .ok r =>
        match h1.store r.1 r.2 item with
        | none => .undefined
        | some h2 => .ok (h2, s1)
    | .threw e st => .threw e st
    | .abort => .abort
    | .undefined => .undefined

/-- The member `Insert(ConstIterator pos, Type value)` with `size_ * 2` and `++size_`
computed as the machine computes them; everything else is as in `Insert`. -/
def SimpleVector.Insert_u64 {T : Type} (al : Allocator T) (ndebug : Bool) (h : Heap T)
    (s : SimpleVector) (pos : Nat) (value : T) : Outcome (St T) (St T × Ref) :=
  if !ndebug && !decide (pos ≤ s.size_) then .abort
  else if s.size_ ≥ s.capacity_ then
    let s1 : SimpleVector := { s with capacity_ := max (size_t_mul s.size_ 2) 1 }
    match ArrayPtr.ofSize al h s1.capacity_ with
    | none => .threw .bad_alloc (h, s1)
    | some (h1, p_temp_new_vec) =>
      match std_copy h1 s1.begin_.1 s1.begin_.2 pos p_temp_new_vec.Get 0 with
      | none => .undefined
      | some h2 =>
        let insert_iter : Ref := (p_temp_new_vec.Get, pos)
        match h2.store insert_iter.1 insert_iter.2 value with
        | none => .undefined
        | some h3 =>
          match std_copy h3 s1.begin_.1 pos s1.end_.2 insert_iter.1 (insert_iter.2 + 1) with
          | none => .undefined
          | some h4 =>
            let p := s1.p_data_.swap p_temp_new_vec
            match p.2.destroy h4 with
            | none => .undefined
            | some h5 =>
              .ok ((h5, { p_data_ := p.1, size_ := size_t_add s1.size_ 1,
                          capacity_ := s1.capacity_ }),
                   insert_iter)
  else
    let s1 : SimpleVector := { s with size_ := size_t_add s.size_ 1 }
    match std_copy_backward h s1.begin_.1 pos (s1.end_.2 - 1) s1.end_.1 s1.end_.2 with
    | none => .undefined
    | some h1 =>
      match h1.store s1.begin_.1 pos value with
      | none => .undefined
      | some h2 => .ok ((h2, s1), (s1.begin_.1, pos))

/-! ## Allocation failure -/

/-- An allocator whose every `new Type[n]` throws `std::bad_alloc`. -/
def Allocator.exhausted {T : Type} (d : T) : Allocator T :=
  { fails := fun _ => true, fresh := fun _ => d }

/-! ## Sequences of calls -/

/-- The calls `v.PushBack(x)` for the values `x` of `items`, in order; it stops at
the first call that does not return. -/
def SimpleVector.PushBack_all {T : Type} (al : Allocator T) :
    Heap T → SimpleVector → List T → Outcome (St T) (St T)
  | h, s, [] => .ok (h, s)
  | h, s, x :: xs =>
    match SimpleVector.PushBack al h s x with
    | .ok (h1, s1) => SimpleVector.PushBack_all al h1 s1 xs
    | .threw e st => .threw e st
    | .abort => .abort
    | .undefined => .undefined

/-- The program state in which execution goes on after a call: the state returned,
or the state at the throw when the caller catches the exception; there is none
after a failed `assert` or undefined behaviour. -/
def Outcome.continues {σ α : Type} (proj : α → σ) : Outcome σ α → Option σ
  | .ok a => some (proj a)
  | .threw _ st => some st
  | .abort => none
  | .undefined => none

/-- A call of a mutating public member on one vector, with its arguments. -/
inductive Mutation (T : Type) where
  | assign_index (index : Nat) (value : T)
  | PushBack (al : Allocator T) (item : T)
  | Insert (al : Allocator T) (ndebug : Bool) (pos : Nat) (value : T)
  | Erase (ndebug : Bool) (pos : Nat)
  | PopBack (ndebug : Bool)
  | Resize (al : Allocator T) (new_size : Nat)
  | Reserve (al : Allocator T) (new_capacity : Nat)
  | Clear

/-- The documented precondition of a member call: `index < size` for `v[index]`,
`pos` in `[begin(), end()]` for `Insert`, `pos` in `[begin(), end())` for `Erase`,
a non-empty vector for `PopBack`. -/
def Mutation.pre {T : Type} (c : SimpleVector) : Mutation T → Bool
  | .assign_index index _ => decide (index < c.size_)
  | .Insert _ _ pos _ => decide (pos ≤ c.size_)
  | .Erase _ pos => decide (pos < c.size_)
  | .PopBack _ => decide (c.size_ ≠ 0)
  | _ => true

/-- Running one member call on the vector `c`. -/
def SimpleVector.mutate {T : Type} (h : Heap T) (c : SimpleVector) : Mutation T → Option (St T)
  | .assign_index index value => (c.assign_index h index value).map (fun h1 => (h1, c))
  | .PushBack al item => (SimpleVector.PushBack al h c item).continues id
  | .Insert al ndebug pos value => (SimpleVector.Insert al ndebug h c pos value).continues Prod.fst
  | .Erase ndebug pos => (SimpleVector.Erase ndebug h c pos).continues Prod.fst
  | .PopBack ndebug => ((SimpleVector.PopBack ndebug c).continues id).map (fun c1 => (h, c1))
  | .Resize al new_size => (SimpleVector.Resize al h c new_size).continues id
  | .Reserve al new_capacity => (SimpleVector.Reserve al h c new_capacity).continues id
  | .Clear => some (h, c.Clear)

/-- Running member calls on the vector `c` one after the other. -/
def SimpleVector.mutate_all {T : Type} : Heap T → SimpleVector → List (Mutation T) → Option (St T)
  | h, c, [] => some (h, c)
  | h, c, m :: ms =>
    match c.mutate h m with
    | some (h1, c1) => SimpleVector.mutate_all h1 c1 ms
    | none => none

/-- A program state: the free store and the vector objects that exist, numbered in
order of construction. -/
structure World (T : Type) where
  heap : Heap T
  vars : List SimpleVector

/-- One step of a client program: a constructor call creating a new object, an
assignment or `swap` between two objects, or a member call on one object.  Objects
are named by their number. -/
inductive Call (T : Type) where
  | construct_default
  | construct_size_value (al : Allocator T) (size : Nat) (value : T)
  | construct_size (al : Allocator T) (size : Nat)
  | construct_reserve (al : Allocator T) (capacity_to_reserve : Nat)
  | construct_copy (al : Allocator T) (other : Nat)
  | construct_move (other : Nat)
  | assign_copy (al : Allocator T) (self rhs : Nat)
  | assign_move (al : Allocator T) (self other : Nat)
  | swap (self other : Nat)
  | member (self : Nat) (m : Mutation T)

/-- The state before any object exists. -/
def World.initial {T : Type} : World T := { heap := [], vars := [] }

/-- Executing one step.  `none`: the program does not go on (an object number that
does not exist, a member called outside its precondition, a failed `assert`,
undefined behaviour).  A thrown exception is caught by the client. -/
def World.step {T : Type} [Inhabited T] (w : World T) : Call T → Option (World T)
  | .construct_default => some { heap := w.heap, vars := w.vars ++ [{}] }
  | .construct_size_value al size value =>
    match SimpleVector.ofSizeValue al w.heap size value with
    | .ok (h, s) => some { heap := h, vars := w.vars ++ [s] }
    | .threw _ h => some { heap := h, vars := w.vars }
    | _ => none
  | .construct_size al size =>
    match SimpleVector.ofSize al w.heap size with
    | .ok (h, s) => some { heap := h, vars := w.vars ++ [s] }
    | .threw _ h => some { heap := h, vars := w.vars }
    | _ => none
  | .construct_reserve al capacity_to_reserve =>
    match SimpleVector.ofReserve al w.heap (Reserve capacity_to_reserve) with
    | .ok (h, s) => some { heap := h, vars := w.vars ++ [s] }
    | .threw _ h => some { heap := h, vars := w.vars }
    | _ => none
  | .construct_copy al other =>
    match w.vars[other]? with
    | none => none
    | some o =>
      match SimpleVector.copy_construct al w.heap o with
      | .ok (h, s) => some { heap := h, vars := w.vars ++ [s] }
      | .threw _ h => some { heap := h, vars := w.vars }
      | _ => none
  | .construct_move other =>
    match w.vars[other]? with
    | none => none
    | some o =>
      some { heap := w.heap,
             vars := w.vars.set other (SimpleVector.move_construct o).2
                      ++ [(SimpleVector.move_construct o).1] }
  | .assign_copy al self rhs =>
    match w.vars[self]?, w.vars[rhs]? with
    | some a, some b =>
      match SimpleVector.copy_assign al w.heap (self == rhs) a b with
      | .ok (h, a1) => some { heap := h, vars := w.vars.set self a1 }
      | .threw _ (h, a1) => some { heap := h, vars := w.vars.set self a1 }
      | _ => none
    | _, _ => none
  | .assign_move al self other =>
    match w.vars[self]?, w.vars[other]? with
    | some a, some b =>
      match SimpleVector.move_assign al w.heap (self == other) a b with
      | .ok (h, a1, b1) => some { heap := h, vars := (w.vars.set other b1).set self a1 }
      | .threw _ (h, a1, b1) => some { heap := h, vars := (w.vars.set other b1).set self a1 }
      | _ => none
    | _, _ => none
  | .swap self other =>
    match w.vars[self]?, w.vars[other]? with
    | some a, some b =>
      if self = other then some w
      else some { heap := w.heap,
                  vars := (w.vars.set other (a.swap b).2).set self (a.swap b).1 }
    | _, _ => none
  | .member self m =>
    match w.vars[self]? with
    | none => none
    | some c =>
      if m.pre c then
        match c.mutate w.heap m with
        | some (h, c1) => some { heap := h, vars := w.vars.set self c1 }
        | none => none
      else none

/-- Executing a client program from a given state. -/
def World.run {T : Type} [Inhabited T] : World T → List (Call T) → Option (World T)
  | w, [] => some w
  | w, c :: cs =>
    match w.step c with
    | some w1 => World.run w1 cs
    | none => none

/-- Running one member call on the vector `c` as the 64-bit machine runs it: the
three members that compute a sum or a product of sizes are taken in their 64-bit
form, the others involve no such arithmetic. -/
def SimpleVector.mutate_u64 {T : Type} (h : Heap T) (c : SimpleVector) :
    Mutation T → Option (St T)
  | .PushBack al item => (SimpleVector.PushBack_u64 al h c item).continues id
  | .Insert al ndebug pos value =>
    (SimpleVector.Insert_u64 al ndebug h c pos value).continues Prod.fst
  | .Resize al new_size => (SimpleVector.Resize_u64 al h c new_size).continues id
  | m => c.mutate h m

/-- Executing one step as the 64-bit machine executes it.  Constructors, assignments
and `swap` compute no sum or product of sizes, so only member calls differ from
`World.step`. -/
def World.step_u64 {T : Type} [Inhabited T] (w : World T) : Call T → Option (World T)
  | .member self m =>
    match w.vars[self]? with
    | none => none
    | some c =>
      if m.pre c then
        match c.mutate_u64 w.heap m with
        | some (h, c1) => some { heap := h, vars := w.vars.set self c1 }
        | none => none
      else none
  | c => w.step c

/-- Executing a client program from a given state on the 64-bit machine. -/
def World.run_u64 {T : Type} [Inhabited T] : World T → List (Call T) → Option (World T)
  | w, [] => some w
  | w, c :: cs =>
    match w.step_u64 c with
    | some w1 => World.run_u64 w1 cs
    | none => none

/-- The member call `m` on the vector `c` asks for fewer than `2 ^ 63` elements:
`Resize(new_size)` with `new_size < 2 ^ 63`, and `PushBack` or `Insert` on a vector
with `size + 1 < 2 ^ 63`.  Then no sum or product the call computes wraps around. -/
def Mutation.fits {T : Type} (c : SimpleVector) : Mutation T → Bool
  | .PushBack _ _ => decide ((c.size_ + 1) * 2 < 2 ^ 64)
  | .Insert _ _ _ _ => decide ((c.size_ + 1) * 2 < 2 ^ 64)
  | .Resize _ new_size => decide (new_size * 2 < 2 ^ 64)
  | _ => true

/-- The step `c`, taken in the state `w`, asks for fewer than `2 ^ 63` elements. -/
def Call.fits {T : Type} (w : World T) : Call T → Bool
  | .member self m =>
    match w.vars[self]? with
    | some c => m.fits c
    | none => true
  | _ => true

/-- Every step of the program, taken in the state the 64-bit machine has reached
by then, asks for fewer than `2 ^ 63` elements. -/
def World.run_fits {T : Type} [Inhabited T] : World T → List (Call T) → Bool
  | _, [] => true
  | w, c :: cs =>
    c.fits w &&
      match w.step_u64 c with
      | some w1 => World.run_fits w1 cs
      | none => true

/-- The free store `h1` still holds, unchanged, every array that was live in `h`
and whose address is not in `D`. -/
def Heap.Agree {T : Type} (h h1 : Heap T) (D : RawPtr → Prop) : Prop :=
  ∀ q b, h.array q = some b → ¬ D q → h1.array q = some b

/-- What a call on the vector `c` may do to the free store: it leaves every live
array other than `c`'s own alone, and the array `c` owns afterwards is its old
one, none, or one that was not live before the call. -/
def SimpleVector.FrameOK {T : Type} (h : Heap T) (c : SimpleVector) (h1 : Heap T)
    (c1 : SimpleVector) : Prop :=
  Heap.Agree h h1 (fun q => q = c.p_data_.Get) ∧
  (c1.p_data_ = c.p_data_ ∨ c1.p_data_.Get = none ∨ h.array c1.p_data_.Get = none)

/-- A client program over `SimpleVector<int>` that uses every kind of step:
objects 0 to 4 are created, filled, copied, swapped, shrunk, grown, assigned and
moved from. -/
def sample_program : List (Call Int) :=
  [.construct_default,
   .member 0 (.PushBack (Allocator.ofDefault 0) 1),
   .member 0 (.PushBack (Allocator.ofDefault 0) 2),
   .construct_copy (Allocator.ofDefault 0) 0,
   .member 1 (.Insert (Allocator.ofDefault 0) false 1 7),
   .swap 0 1,
   .member 0 (.Erase false 0),
   .member 0 (.assign_index 0 5),
   .member 1 (.PopBack true),
   .member 0 (.Resize (Allocator.ofDefault 0) 5),
   .assign_move (Allocator.ofDefault 0) 0 1,
   .construct_move 0,
   .member 2 (.Reserve (Allocator.ofDefault 0) 10),
   .construct_size_value (Allocator.ofDefault 0) 3 8,
   .assign_copy (Allocator.ofDefault 0) 0 3,
   .member 3 .Clear,
   .construct_reserve (Allocator.ofDefault 0) 4]

/-- An allocator for the scalar element type `int`: it never throws, and the
storage it hands out still holds the bit pattern `-1` in every slot
(default-initialisation of an `int` writes nothing). -/
def stale_int_storage : Allocator Int :=
  { fails := fun _ => false, fresh := fun _ => -1 }

/-! ## End of definitions -/

/-! ## The free store: basic facts -/

section HeapFacts

variable {T : Type}

theorem Heap.array_some_iff {h : Heap T} {a : Nat} {b : List T} :
    h.array (some a) = some b ↔ h[a]? = some (some b) := by
  simp only [Heap.array]
  cases h[a]? with
  | none => simp
  | some o =>
    cases o with
    | none => simp
    | some b1 => simp

theorem Heap.array_some_lt {h : Heap T} {a : Nat} {b : List T}
    (hb : h.array (some a) = some b) : a < h.length := by
  rw [Heap.array_some_iff] at hb
  by_contra hlt
  rw [List.getElem?_eq_none (Nat.le_of_not_lt hlt)] at hb
  cases hb

theorem Heap.array_none (h : Heap T) : h.array none = some [] := rfl

theorem Heap.array_set_self {h : Heap T} {a : Nat} (ha : a < h.length) (b : List T) :
    Heap.array (h.set a (some b)) (some a) = some b := by
  rw [Heap.array_some_iff, List.getElem?_set]
  simp [ha]

theorem Heap.array_set_other {h : Heap T} {a : Nat} (x : Option (List T)) {q : RawPtr}
    (hq : q ≠ some a) : Heap.array (h.set a x) q = h.array q := by
  cases q with
  | none => rfl
  | some c =>
    have hne : a ≠ c := fun hc => hq (by rw [hc])
    simp only [Heap.array, List.getElem?_set_ne hne]

theorem Heap.array_append_old {h : Heap T} (x : Option (List T)) {q : RawPtr} {b : List T}
    (hb : h.array q = some b) : Heap.array (h ++ [x]) q = some b := by
  cases q with
  | none => exact hb
  | some c =>
    have hlt := Heap.array_some_lt hb
    rw [Heap.array_some_iff] at hb ⊢
    rw [List.getElem?_append_left hlt]
    exact hb

theorem Heap.array_append_new (h : Heap T) (b : List T) :
    Heap.array (h ++ [some b]) (some h.length) = some b := by
  rw [Heap.array_some_iff, List.getElem?_append_right (Nat.le_refl _)]
  simp

theorem Heap.load_of_array {h : Heap T} {p : RawPtr} {b : List T} (hb : h.array p = some b)
    (i : Nat) : h.load p i = b[i]? := by
  unfold Heap.load
  rw [hb]

/-- A store inside the designated array succeeds, changes that one slot and
nothing else. -/
theorem Heap.store_spec {h : Heap T} {p : RawPtr} {b : List T} (hb : h.array p = some b)
    {i : Nat} (hi : i < b.length) (v : T) :
    ∃ h1, h.store p i v = some h1 ∧ h1.array p = some (b.set i v) ∧
      (∀ q, q ≠ p → h1.array q = h.array q) ∧ h1.length = h.length := by
  cases p with
  | none =>
    rw [Heap.array_none] at hb
    cases hb
    simp at hi
  | some a =>
    refine ⟨h.set a (some (b.set i v)), ?_, ?_, ?_, ?_⟩
    · unfold Heap.store
      simp only [hb, hi, if_true]
    · exact Heap.array_set_self (Heap.array_some_lt hb) _
    · intro q hq
      exact Heap.array_set_other _ hq
    · simp

/-- Releasing a live array (or `nullptr`) succeeds and leaves every other array alone. -/
theorem Heap.delete_spec {h : Heap T} {p : RawPtr} {b : List T} (hb : h.array p = some b) :
    ∃ h1, h.delete_array p = some h1 ∧ (∀ q, q ≠ p → h1.array q = h.array q) ∧
      h1.length = h.length := by
  cases p with
  | none => exact ⟨h, rfl, fun _ _ => rfl, rfl⟩
  | some a =>
    refine ⟨h.set a none, ?_, ?_, ?_⟩
    · unfold Heap.delete_array
      simp only [hb]
    · intro q hq
      exact Heap.array_set_other _ hq
    · simp

/-- A successful `ArrayPtr(size)` yields an array of `size` default-initialised
slots that is distinct from every array live before, all of which are kept. -/
theorem ArrayPtr.ofSize_spec (al : Allocator T) (h : Heap T) (size : Nat)
    (hal : al.fails size = false) :
    ∃ h1 p, ArrayPtr.ofSize al h size = some (h1, p) ∧
      h1.array p.Get = some ((List.range size).map al.fresh) ∧
      (∀ q b, h.array q = some b → h1.array q = some b) ∧
      (size ≠ 0 → h.array p.Get = none) ∧ (size = 0 → p.Get = none ∧ h1 = h) := by
  by_cases hs : size = 0
  · subst hs
    refine ⟨h, { raw_ptr_ := none }, ?_, ?_, ?_, ?_, ?_⟩
    · simp [ArrayPtr.ofSize]
    · rfl
    · intro q b hq
      exact hq
    · intro hc
      exact absurd rfl hc
    · intro _
      exact ⟨rfl, rfl⟩
  · refine ⟨h ++ [some ((List.range size).map al.fresh)], { raw_ptr_ := some h.length },
      ?_, ?_, ?_, ?_, ?_⟩
    · simp [ArrayPtr.ofSize, Heap.new_array, hs, hal]
    · exact Heap.array_append_new h _
    · intro q b hq
      exact Heap.array_append_old _ hq
    · intro _
      cases hc : h.array (some h.length) with
      | none => exact hc
      | some b => exact absurd (Heap.array_some_lt hc) (Nat.lt_irrefl _)
    · intro hc
      exact absurd hc hs

theorem SimpleVector.WF.unpack {h : Heap T} {s : SimpleVector} (hwf : SimpleVector.WF h s) :
    s.size_ ≤ s.capacity_ ∧ ∃ b, h.array s.p_data_.Get = some b ∧ b.length = s.capacity_ := by
  have hle : s.size_ ≤ s.capacity_ := hwf.1
  have hmap : (h.array s.p_data_.Get).map List.length = some s.capacity_ := hwf.2
  cases hb : h.array s.p_data_.Get with
  | none =>
    rw [hb] at hmap
    cases hmap
  | some b =>
    rw [hb] at hmap
    exact ⟨hle, b, rfl, Option.some.inj hmap⟩

theorem SimpleVector.WF.pack {h : Heap T} {s : SimpleVector}
    (hp : s.size_ ≤ s.capacity_ ∧ ∃ b, h.array s.p_data_.Get = some b ∧ b.length = s.capacity_) :
    SimpleVector.WF h s := by
  obtain ⟨hle, b, hb, hlen⟩ := hp
  refine ⟨hle, ?_⟩
  rw [hb]
  exact congrArg some hlen

end HeapFacts

/-! ## The standard algorithms: what the loops compute -/

section Algorithms

variable {T : Type}

/-- Copying `n` elements between two different arrays: slots `[k, k + n)` of the
destination receive slots `[i, i + n)` of the source, nothing else changes. -/
theorem std_copy_loop_spec {src dst : RawPtr} (hne : src ≠ dst) (bs : List T) (n : Nat) :
    ∀ (i k : Nat) (h : Heap T) (bd : List T), h.array src = some bs → h.array dst = some bd →
      i + n ≤ bs.length → k + n ≤ bd.length →
      ∃ h1 bd1, std_copy_loop src dst n i k h = some h1 ∧ h1.array dst = some bd1 ∧
        bd1.length = bd.length ∧
        (∀ j, bd1[j]? = if k ≤ j ∧ j < k + n then bs[i + (j - k)]? else bd[j]?) ∧
        (∀ q, q ≠ dst → h1.array q = h.array q) ∧ h1.length = h.length := by
  induction n with
  | zero =>
    intro i k h bd _ hd _ _
    refine ⟨h, bd, rfl, hd, rfl, ?_, fun _ _ => rfl, rfl⟩
    intro j
    have hf : ¬ (k ≤ j ∧ j < k + 0) := by omega
    simp only [hf, if_false]
  | succ n ih =>
    intro i k h bd hs hd hi hk
    have hlt : i < bs.length := by omega
    have hload : h.load src i = some bs[i] := by
      rw [Heap.load_of_array hs, List.getElem?_eq_getElem hlt]
    obtain ⟨h1, hst, ha1, hfr1, hl1⟩ := Heap.store_spec hd (show k < bd.length by omega) bs[i]
    have hs1 : h1.array src = some bs := by rw [hfr1 src hne, hs]
    obtain ⟨h2, bd2, hrun, ha2, hlen2, hget2, hfr2, hl2⟩ :=
      ih (i + 1) (k + 1) h1 (bd.set k bs[i]) hs1 ha1 (by omega) (by simp; omega)
    refine ⟨h2, bd2, ?_, ha2, ?_, ?_, ?_, ?_⟩
    · simp only [std_copy_loop, hload, hst, hrun]
    · rw [hlen2, List.length_set]
    · intro j
      rw [hget2 j, List.getElem?_set]
      by_cases hjk : k = j
      · subst hjk
        rw [if_neg (show ¬ (k + 1 ≤ k ∧ k < k + 1 + n) by omega),
          if_pos (show k ≤ k ∧ k < k + (n + 1) by omega), if_pos (rfl : k = k),
          if_pos (show k < bd.length by omega), Nat.sub_self, Nat.add_zero,
          List.getElem?_eq_getElem hlt]
      · by_cases hin : k + 1 ≤ j ∧ j < k + 1 + n
        · rw [if_pos hin, if_pos (show k ≤ j ∧ j < k + (n + 1) by omega),
            show i + 1 + (j - (k + 1)) = i + (j - k) by omega]
        · rw [if_neg hin, if_neg hjk, if_neg (show ¬ (k ≤ j ∧ j < k + (n + 1)) by omega)]
    · intro q hq
      rw [hfr2 q hq, hfr1 q hq]
    · rw [hl2, hl1]

/-- The call `std::copy` between two different arrays. -/
theorem std_copy_spec {src dst : RawPtr} (hne : src ≠ dst) {h : Heap T} {bs bd : List T}
    (hs : h.array src = some bs) (hd : h.array dst = some bd) (first last d : Nat)
    (hfl : first ≤ last) (hl : last ≤ bs.length) (hdl : d + (last - first) ≤ bd.length) :
    ∃ h1 bd1, std_copy h src first last dst d = some h1 ∧ h1.array dst = some bd1 ∧
      bd1.length = bd.length ∧
      (∀ j, bd1[j]? = if d ≤ j ∧ j < d + (last - first) then bs[first + (j - d)]? else bd[j]?) ∧
      (∀ q, q ≠ dst → h1.array q = h.array q) ∧ h1.length = h.length := by
  unfold std_copy
  rw [if_neg (show ¬ last < first by omega)]
  exact std_copy_loop_spec hne bs (last - first) first d h bd hs hd (by omega) hdl

/-- A `std::copy` of an empty range does nothing. -/
theorem std_copy_empty (h : Heap T) (src dst : RawPtr) (first d : Nat) :
    std_copy h src first first dst d = some h := by
  unfold std_copy
  rw [if_neg (Nat.lt_irrefl first), Nat.sub_self]
  rfl

/-- Copying `[d + 1, d + 1 + n)` onto `[d, d + n)` inside one array (the forward
copy of `Erase`) shifts those elements one slot to the left. -/
theorem std_copy_loop_shift_left {p : RawPtr} (n : Nat) :
    ∀ (d : Nat) (h : Heap T) (b : List T), h.array p = some b → d + 1 + n ≤ b.length →
      ∃ h1 b1, std_copy_loop p p n (d + 1) d h = some h1 ∧ h1.array p = some b1 ∧
        b1.length = b.length ∧
        (∀ j, b1[j]? = if d ≤ j ∧ j < d + n then b[j + 1]? else b[j]?) ∧
        (∀ q, q ≠ p → h1.array q = h.array q) ∧ h1.length = h.length := by
  induction n with
  | zero =>
    intro d h b hb _
    refine ⟨h, b, rfl, hb, rfl, ?_, fun _ _ => rfl, rfl⟩
    intro j
    rw [if_neg (show ¬ (d ≤ j ∧ j < d + 0) by omega)]
  | succ n ih =>
    intro d h b hb hd
    have hlt : d + 1 < b.length := by omega
    have hload : h.load p (d + 1) = some b[d + 1] := by
      rw [Heap.load_of_array hb, List.getElem?_eq_getElem hlt]
    obtain ⟨h1, hst, ha1, hfr1, hl1⟩ := Heap.store_spec hb (show d < b.length by omega) b[d + 1]
    obtain ⟨h2, b2, hrun, ha2, hlen2, hget2, hfr2, hl2⟩ :=
      ih (d + 1) h1 (b.set d b[d + 1]) ha1 (by simp; omega)
    refine ⟨h2, b2, ?_, ha2, ?_, ?_, ?_, ?_⟩
    · simp only [std_copy_loop, hload, hst, hrun]
    · rw [hlen2, List.length_set]
    · intro j
      rw [hget2 j, List.getElem?_set, List.getElem?_set]
      by_cases hjd : d = j
      · subst hjd
        rw [if_neg (show ¬ (d + 1 ≤ d ∧ d < d + 1 + n) by omega),
          if_pos (show d ≤ d ∧ d < d + (n + 1) by omega), if_pos (rfl : d = d),
          if_pos (show d < b.length by omega), List.getElem?_eq_getElem hlt]
      · by_cases hin : d + 1 ≤ j ∧ j < d + 1 + n
        · rw [if_pos hin, if_pos (show d ≤ j ∧ j < d + (n + 1) by omega),
            if_neg (show ¬ d = j + 1 by omega)]
        · rw [if_neg hin, if_neg hjd, if_neg (show ¬ (d ≤ j ∧ j < d + (n + 1)) by omega)]
    · intro q hq
      rw [hfr2 q hq, hfr1 q hq]
    · rw [hl2, hl1]

/-- Copying `[first, first + n)` backward onto `[first + 1, first + 1 + n)` inside
one array (the `std::copy_backward` of `Insert`) shifts those elements one slot to
the right. -/
theorem std_copy_backward_loop_shift_right {p : RawPtr} (first : Nat) (n : Nat) :
    ∀ (h : Heap T) (b : List T), h.array p = some b → first + 1 + n ≤ b.length →
      ∃ h1 b1, std_copy_backward_loop p p first (first + 1) n h = some h1 ∧
        h1.array p = some b1 ∧ b1.length = b.length ∧
        (∀ j, b1[j]? = if first + 1 ≤ j ∧ j < first + 1 + n then b[j - 1]? else b[j]?) ∧
        (∀ q, q ≠ p → h1.array q = h.array q) ∧ h1.length = h.length := by
  induction n with
  | zero =>
    intro h b hb _
    refine ⟨h, b, rfl, hb, rfl, ?_, fun _ _ => rfl, rfl⟩
    intro j
    rw [if_neg (show ¬ (first + 1 ≤ j ∧ j < first + 1 + 0) by omega)]
  | succ n ih =>
    intro h b hb hd
    have hlt : first + n < b.length := by omega
    have hload : h.load p (first + n) = some b[first + n] := by
      rw [Heap.load_of_array hb, List.getElem?_eq_getElem hlt]
    obtain ⟨h1, hst, ha1, hfr1, hl1⟩ :=
      Heap.store_spec hb (show first + 1 + n < b.length by omega) b[first + n]
    obtain ⟨h2, b2, hrun, ha2, hlen2, hget2, hfr2, hl2⟩ :=
      ih h1 (b.set (first + 1 + n) b[first + n]) ha1 (by simp; omega)
    refine ⟨h2, b2, ?_, ha2, ?_, ?_, ?_, ?_⟩
    · simp only [std_copy_backward_loop, hload, hst, hrun]
    · rw [hlen2, List.length_set]
    · intro j
      rw [hget2 j, List.getElem?_set, List.getElem?_set]
      by_cases hjd : first + 1 + n = j
      · subst hjd
        rw [if_neg (show ¬ (first + 1 ≤ first + 1 + n ∧ first + 1 + n < first + 1 + n) by omega),
          if_pos (show first + 1 ≤ first + 1 + n ∧ first + 1 + n < first + 1 + (n + 1) by omega),
          if_pos (rfl : first + 1 + n = first + 1 + n),
          if_pos (show first + 1 + n < b.length by omega),
          show first + 1 + n - 1 = first + n by omega, List.getElem?_eq_getElem hlt]
      · by_cases hin : first + 1 ≤ j ∧ j < first + 1 + n
        · rw [if_pos hin, if_pos (show first + 1 ≤ j ∧ j < first + 1 + (n + 1) by omega),
            if_neg (show ¬ first + 1 + n = j - 1 by omega)]
        · rw [if_neg hin, if_neg hjd,
            if_neg (show ¬ (first + 1 ≤ j ∧ j < first + 1 + (n + 1)) by omega)]
    · intro q hq
      rw [hfr2 q hq, hfr1 q hq]
    · rw [hl2, hl1]

/-- Filling `[d, d + n)` of an array with one value. -/
theorem std_fill_loop_spec {p : RawPtr} (v : T) (n : Nat) :
    ∀ (d : Nat) (h : Heap T) (b : List T), h.array p = some b → d + n ≤ b.length →
      ∃ h1 b1, std_fill_loop p v n d h = some h1 ∧ h1.array p = some b1 ∧
        b1.length = b.length ∧
        (∀ j, b1[j]? = if d ≤ j ∧ j < d + n then some v else b[j]?) ∧
        (∀ q, q ≠ p → h1.array q = h.array q) ∧ h1.length = h.length := by
  induction n with
  | zero =>
    intro d h b hb _
    refine ⟨h, b, rfl, hb, rfl, ?_, fun _ _ => rfl, rfl⟩
    intro j
    rw [if_neg (show ¬ (d ≤ j ∧ j < d + 0) by omega)]
  | succ n ih =>
    intro d h b hb hd
    obtain ⟨h1, hst, ha1, hfr1, hl1⟩ := Heap.store_spec hb (show d < b.length by omega) v
    obtain ⟨h2, b2, hrun, ha2, hlen2, hget2, hfr2, hl2⟩ :=
      ih (d + 1) h1 (b.set d v) ha1 (by simp; omega)
    refine ⟨h2, b2, ?_, ha2, ?_, ?_, ?_, ?_⟩
    · simp only [std_fill_loop, hst, hrun]
    · rw [hlen2, List.length_set]
    · intro j
      rw [hget2 j, List.getElem?_set]
      by_cases hjd : d = j
      · subst hjd
        rw [if_neg (show ¬ (d + 1 ≤ d ∧ d < d + 1 + n) by omega),
          if_pos (show d ≤ d ∧ d < d + (n + 1) by omega), if_pos (rfl : d = d),
          if_pos (show d < b.length by omega)]
      · by_cases hin : d + 1 ≤ j ∧ j < d + 1 + n
        · rw [if_pos hin, if_pos (show d ≤ j ∧ j < d + (n + 1) by omega)]
        · rw [if_neg hin, if_neg hjd, if_neg (show ¬ (d ≤ j ∧ j < d + (n + 1)) by omega)]
    · intro q hq
      rw [hfr2 q hq, hfr1 q hq]
    · rw [hl2, hl1]

end Algorithms

/-! ## Growing the array -/

section Growth

variable {T : Type}

theorem fresh_getElem? (al : Allocator T) (n j : Nat) :
    ((List.range n).map al.fresh)[j]? = if j < n then some (al.fresh j) else none := by
  by_cases hj : j < n
  · rw [if_pos hj, List.getElem?_map, List.getElem?_range hj]
    rfl
  · rw [if_neg hj, List.getElem?_eq_none]
    simp
    omega

/-- The steps shared by every reallocation (`Resize`, `Reserve`): allocate `n`
slots, copy the first `size` elements over, release the old array. -/
theorem realloc_steps (al : Allocator T) {h : Heap T} {ptr : RawPtr} {b : List T}
    (hb : h.array ptr = some b) {size n : Nat} (hsz : size ≤ b.length) (hn : size ≤ n)
    (hn0 : n ≠ 0) (hal : al.fails n = false) :
    ∃ h1 p h2 h3 bd, ArrayPtr.ofSize al h n = some (h1, p) ∧
      std_copy h1 ptr 0 size p.Get 0 = some h2 ∧ h2.delete_array ptr = some h3 ∧
      h3.array p.Get = some bd ∧ bd.length = n ∧
      (∀ j, bd[j]? = if j < size then b[j]? else if j < n then some (al.fresh j) else none) ∧
      (∀ q c, h.array q = some c → q ≠ ptr → h3.array q = some c) ∧ h.array p.Get = none := by
  obtain ⟨h1, p, hof, hp, hold, hnew, _⟩ := ArrayPtr.ofSize_spec al h n hal
  have hpne : ptr ≠ p.Get := by
    intro hc
    rw [← hc, hb] at hnew
    exact absurd (hnew hn0) (by simp)
  have hb1 : h1.array ptr = some b := hold ptr b hb
  obtain ⟨h2, bd, hcp, hbd, hlen, hget, hfr2, _⟩ :=
    std_copy_spec hpne hb1 hp 0 size 0 (Nat.zero_le size) hsz (by simp; omega)
  have hb2 : h2.array ptr = some b := by rw [hfr2 ptr hpne, hb1]
  obtain ⟨h3, hdel, hfr3, _⟩ := Heap.delete_spec hb2
  refine ⟨h1, p, h2, h3, bd, hof, hcp, hdel, ?_, ?_, ?_, ?_, hnew hn0⟩
  · rw [hfr3 _ (fun hc => hpne hc.symm), hbd]
  · rw [hlen]
    simp
  · intro j
    rw [hget j, fresh_getElem?]
    by_cases hj : j < size
    · rw [if_pos (show 0 ≤ j ∧ j < 0 + (size - 0) by omega), if_pos hj,
        show 0 + (j - 0) = j by omega]
    · rw [if_neg (show ¬ (0 ≤ j ∧ j < 0 + (size - 0)) by omega), if_neg hj]
  · intro q c hq hqp
    by_cases hqd : q = p.Get
    · subst hqd
      rw [hq] at hnew
      exact absurd (hnew hn0) (by simp)
    · rw [hfr3 q hqp, hfr2 q hqd]
      exact hold q c hq

theorem SimpleVector.buffer_of_array (s : SimpleVector) {h : Heap T} {b : List T}
    (hb : h.array s.p_data_.Get = some b) : SimpleVector.buffer h s = b := by
  unfold SimpleVector.buffer
  rw [hb]
  rfl

/-- Growing `Resize`: it returns, the size is `new_size`, the capacity `new_size * 2`,
the old elements are kept and the remaining slots are what the allocation produced;
no other live array is touched. -/
theorem SimpleVector.Resize_grow_spec (al : Allocator T) {h : Heap T} {s : SimpleVector}
    (hwf : SimpleVector.WF h s) {new_size : Nat} (hgt : new_size > s.size_)
    (hal : al.fails (new_size * 2) = false) :
    ∃ h1 s1, SimpleVector.Resize al h s new_size = .ok (h1, s1) ∧ s1.size_ = new_size ∧
      s1.capacity_ = new_size * 2 ∧ SimpleVector.WF h1 s1 ∧
      (∀ j, (SimpleVector.buffer h1 s1)[j]? =
        if j < s.size_ then (SimpleVector.buffer h s)[j]?
        else if j < new_size * 2 then some (al.fresh j) else none) ∧
      (∀ q c, h.array q = some c → q ≠ s.p_data_.Get → h1.array q = some c) ∧
      h.array s1.p_data_.Get = none := by
  obtain ⟨hle, b, hb, hlen⟩ := SimpleVector.WF.unpack hwf
  obtain ⟨h1, p, h2, h3, bd, hof, hcp, hdel, hbd, hbdlen, hget, hfr, hfresh⟩ :=
    realloc_steps al hb (show s.size_ ≤ b.length by omega)
      (show s.size_ ≤ new_size * 2 by omega) (show new_size * 2 ≠ 0 by omega) hal
  refine ⟨h3, SimpleVector.mk p new_size (new_size * 2), ?_, rfl, rfl, ?_, ?_, hfr, hfresh⟩
  · simp only [ArrayPtr.Get] at hcp hdel
    simp only [SimpleVector.Resize, hgt, if_true, hof, SimpleVector.begin_, SimpleVector.end_,
      ArrayPtr.Get, hcp, ArrayPtr.swap, ArrayPtr.destroy, hdel]
  · exact SimpleVector.WF.pack ⟨by show new_size ≤ new_size * 2; omega, bd, hbd, hbdlen⟩
  · intro j
    rw [SimpleVector.buffer_of_array s hb,
      SimpleVector.buffer_of_array (SimpleVector.mk p new_size (new_size * 2)) hbd]
    exact hget j

end Growth

/-! ## `PushBack` -/

section PushBackFacts

variable {T : Type}

theorem SimpleVector.elems_getElem? (h : Heap T) (s : SimpleVector) (j : Nat) :
    (SimpleVector.elems h s)[j]? = if j < s.size_ then (SimpleVector.buffer h s)[j]? else none := by
  unfold SimpleVector.elems
  rw [List.getElem?_take]

theorem SimpleVector.elems_length {h : Heap T} {s : SimpleVector} (hwf : SimpleVector.WF h s) :
    (SimpleVector.elems h s).length = s.size_ := by
  obtain ⟨hle, b, hb, hlen⟩ := SimpleVector.WF.unpack hwf
  unfold SimpleVector.elems
  rw [SimpleVector.buffer_of_array s hb, List.length_take]
  omega

/-- One `PushBack` on a well-formed vector, when the allocation it may need
succeeds: it returns, and the sequence is the old one with `item` appended. -/
theorem SimpleVector.PushBack_spec (al : Allocator T) {h : Heap T} {s : SimpleVector}
    (hwf : SimpleVector.WF h s) (item : T)
    (hal : s.size_ < s.capacity_ ∨ al.fails ((s.size_ + 1) * 2) = false) :
    ∃ h1 s1, SimpleVector.PushBack al h s item = .ok (h1, s1) ∧ s1.size_ = s.size_ + 1 ∧
      SimpleVector.elems h1 s1 = SimpleVector.elems h s ++ [item] ∧ SimpleVector.WF h1 s1 ∧
      (∀ q c, h.array q = some c → q ≠ s.p_data_.Get → h1.array q = some c) := by
  have hlen0 := SimpleVector.elems_length hwf
  by_cases hlt : s.size_ < s.capacity_
  · obtain ⟨hle, b, hb, hlen⟩ := SimpleVector.WF.unpack hwf
    obtain ⟨h1, hst, hb1, hfr1, _⟩ := Heap.store_spec hb (show s.size_ < b.length by omega) item
    refine ⟨h1, { s with size_ := s.size_ + 1 }, ?_, rfl, ?_, ?_, ?_⟩
    · simp only [ArrayPtr.Get] at hst
      simp only [SimpleVector.PushBack, hlt, if_true, SimpleVector.At, ArrayPtr.index, ge_iff_le,
        show ¬ (s.size_ + 1 ≤ s.size_) by omega, if_false, hst]
    · apply List.ext_getElem?
      intro j
      rw [SimpleVector.elems_getElem?, List.getElem?_append, hlen0, SimpleVector.elems_getElem?,
        SimpleVector.buffer_of_array { s with size_ := s.size_ + 1 } hb1,
        SimpleVector.buffer_of_array s hb, List.getElem?_set]
      by_cases hj : j < s.size_
      · rw [if_pos (show j < s.size_ + 1 by omega), if_neg (show ¬ s.size_ = j by omega),
          if_pos hj, if_pos hj]
      · rw [if_neg hj]
        by_cases hj2 : s.size_ = j
        · subst hj2
          rw [if_pos (show s.size_ < s.size_ + 1 by omega), if_pos rfl,
            if_pos (show s.size_ < b.length by omega), Nat.sub_self]
          rfl
        · rw [if_neg (show ¬ j < s.size_ + 1 by omega), List.getElem?_eq_none]
          simp
          omega
    · exact SimpleVector.WF.pack
        ⟨by show s.size_ + 1 ≤ s.capacity_; omega, b.set s.size_ item, hb1, by simp [hlen]⟩
    · intro q c hq hne
      rw [hfr1 q hne]
      exact hq
  · have hfail : al.fails ((s.size_ + 1) * 2) = false := by
      cases hal with
      | inl hc => exact absurd hc hlt
      | inr hc => exact hc
    obtain ⟨h1, s1, hrs, hsz1, hcap1, hwf1, hget1, hfr1, hfresh⟩ :=
      SimpleVector.Resize_grow_spec al hwf (show s.size_ + 1 > s.size_ by omega) hfail
    obtain ⟨_, b1, hb1, hlen1⟩ := SimpleVector.WF.unpack hwf1
    obtain ⟨h2, hst, hb2, hfr2, _⟩ :=
      Heap.store_spec hb1 (show s.size_ < b1.length by omega) item
    refine ⟨h2, s1, ?_, hsz1, ?_, ?_, ?_⟩
    · simp only [ArrayPtr.Get] at hst
      simp only [SimpleVector.PushBack, hlt, if_false, hrs, SimpleVector.At, ArrayPtr.index,
        ge_iff_le, hsz1, size_t_dec, Nat.add_sub_cancel,
        show ¬ (s.size_ + 1 = 0) by omega,
        show ¬ (s.size_ + 1 ≤ s.size_) by omega, hst]
    · apply List.ext_getElem?
      intro j
      have hg := hget1 j
      rw [SimpleVector.buffer_of_array s1 hb1] at hg
      rw [SimpleVector.elems_getElem?, List.getElem?_append, hlen0, SimpleVector.elems_getElem?,
        SimpleVector.buffer_of_array s1 hb2, List.getElem?_set, hsz1]
      by_cases hj : j < s.size_
      · rw [if_pos (show j < s.size_ + 1 by omega), if_neg (show ¬ s.size_ = j by omega),
          if_pos hj, if_pos hj, hg, if_pos hj]
      · rw [if_neg hj]
        by_cases hj2 : s.size_ = j
        · subst hj2
          rw [if_pos (show s.size_ < s.size_ + 1 by omega), if_pos rfl,
            if_pos (show s.size_ < b1.length by omega), Nat.sub_self]
          rfl
        · rw [if_neg (show ¬ j < s.size_ + 1 by omega), List.getElem?_eq_none]
          simp
          omega
    · exact SimpleVector.WF.pack ⟨by omega, b1.set s.size_ item, hb2, by simp [hlen1]⟩
    · intro q c hq hne
      have hq1 := hfr1 q c hq hne
      by_cases hqe : q = s1.p_data_.Get
      · rw [hqe, hfresh] at hq
        cases hq
      · rw [hfr2 q hqe]
        exact hq1

theorem SimpleVector.read_eq_elems {h : Heap T} {s : SimpleVector}
    (hwf : SimpleVector.WF h s) {i : Nat} (hi : i < s.size_) :
    SimpleVector.read h s i = (SimpleVector.elems h s)[i]? := by
  obtain ⟨hle, b, hb, hlen⟩ := SimpleVector.WF.unpack hwf
  rw [SimpleVector.elems_getElem?, if_pos hi, SimpleVector.buffer_of_array s hb]
  exact Heap.load_of_array hb i

theorem SimpleVector.WF_default (h : Heap T) : SimpleVector.WF h {} :=
  ⟨Nat.le_refl _, rfl⟩

theorem SimpleVector.PushBack_all_spec (al : Allocator T) (hal : ∀ n, al.fails n = false)
    (items : List T) :
    ∀ (h : Heap T) (s : SimpleVector), SimpleVector.WF h s →
      ∃ h1 s1, SimpleVector.PushBack_all al h s items = .ok (h1, s1) ∧
        SimpleVector.WF h1 s1 ∧ SimpleVector.elems h1 s1 = SimpleVector.elems h s ++ items := by
  induction items with
  | nil =>
    intro h s hwf
    exact ⟨h, s, rfl, hwf, by simp⟩
  | cons x xs ih =>
    intro h s hwf
    obtain ⟨h1, s1, hpb, _, hel1, hwf1, _⟩ :=
      SimpleVector.PushBack_spec al hwf x (Or.inr (hal _))
    obtain ⟨h2, s2, hall, hwf2, hel2⟩ := ih h1 s1 hwf1
    refine ⟨h2, s2, ?_, hwf2, ?_⟩
    · simp only [SimpleVector.PushBack_all, hpb, hall]
    · rw [hel2, hel1, List.append_assoc]
      rfl

/-- C2. `PushBack(v)` on any well-formed vector (whatever its size and capacity,
capacity zero and a full vector included) returns a vector of size `size + 1`
whose elements at `[0, size)` are the old ones and whose last element is `v`;
hence pushing `items` one by one onto an empty vector and reading the indices
`[0, N)` gives back `items` in order.  Allocation is assumed to succeed. -/
theorem PushBack_appends_in_order {T : Type} (al : Allocator T)
    (hal : ∀ n, al.fails n = false) :
    (∀ (h : Heap T) (s : SimpleVector) (v : T), SimpleVector.WF h s →
      ∃ h1 s1, SimpleVector.PushBack al h s v = .ok (h1, s1) ∧
        s1.GetSize = s.GetSize + 1 ∧
        (∀ i, i < s.GetSize → SimpleVector.read h1 s1 i = SimpleVector.read h s i) ∧
        SimpleVector.read h1 s1 s.GetSize = some v ∧
        SimpleVector.elems h1 s1 = SimpleVector.elems h s ++ [v]) ∧
    (∀ (h : Heap T) (s : SimpleVector) (items : List T), SimpleVector.WF h s →
      s.GetSize = 0 →
      ∃ h1 s1, SimpleVector.PushBack_all al h s items = .ok (h1, s1) ∧
        s1.GetSize = items.length ∧
        (∀ i, i < items.length → SimpleVector.read h1 s1 i = items[i]?) ∧
        SimpleVector.elems h1 s1 = items) := by
  constructor
  · intro h s v hwf
    obtain ⟨h1, s1, hpb, hsz, hel, hwf1, _⟩ :=
      SimpleVector.PushBack_spec al hwf v (Or.inr (hal _))
    have hlen := SimpleVector.elems_length hwf
    refine ⟨h1, s1, hpb, hsz, ?_, ?_, hel⟩
    · intro i hi
      have hi0 : i < s.size_ := hi
      rw [SimpleVector.read_eq_elems hwf1 (show i < s1.size_ by omega),
        SimpleVector.read_eq_elems hwf hi0, hel,
        List.getElem?_append_left (show i < (SimpleVector.elems h s).length by omega)]
    · show SimpleVector.read h1 s1 s.size_ = some v
      rw [SimpleVector.read_eq_elems hwf1 (show s.size_ < s1.size_ by omega), hel,
        List.getElem?_append_right (show (SimpleVector.elems h s).length ≤ s.size_ by omega),
        hlen, Nat.sub_self]
      rfl
  · intro h s items hwf hs0
    obtain ⟨h1, s1, hall, hwf1, hel⟩ := SimpleVector.PushBack_all_spec al hal items h s hwf
    have hnil : SimpleVector.elems h s = [] := by
      apply List.eq_nil_of_length_eq_zero
      rw [SimpleVector.elems_length hwf]
      exact hs0
    rw [hnil, List.nil_append] at hel
    have hsz : s1.size_ = items.length := by
      rw [← SimpleVector.elems_length hwf1, hel]
    refine ⟨h1, s1, hall, hsz, ?_, hel⟩
    intro i hi
    rw [SimpleVector.read_eq_elems hwf1 (show i < s1.size_ by omega), hel]

/-- C2, at a concrete input: pushing `1, 2, 3` onto a default-constructed vector. -/
theorem PushBack_appends_in_order_witness :
    SimpleVector.WF ([] : Heap Int) {} ∧
    (∃ h1 s1, SimpleVector.PushBack_all (Allocator.ofDefault (0 : Int)) [] {} [1, 2, 3]
        = .ok (h1, s1) ∧ s1.GetSize = 3 ∧ SimpleVector.elems h1 s1 = [1, 2, 3]) := by
  refine ⟨SimpleVector.WF_default [], ?_⟩
  obtain ⟨h1, s1, hall, hsz, _, hel⟩ :=
    (PushBack_appends_in_order (Allocator.ofDefault (0 : Int)) (fun _ => rfl)).2
      [] {} [1, 2, 3] (SimpleVector.WF_default []) rfl
  exact ⟨h1, s1, hall, hsz, hel⟩

end PushBackFacts

/-! ## `Insert` and `Erase` -/

section InsertErase

variable {T : Type}

theorem insert_list_getElem? (l : List T) (v : T) {pos : Nat} (hpos : pos ≤ l.length) (j : Nat) :
    (l.take pos ++ [v] ++ l.drop pos)[j]? =
      if j < pos then l[j]? else if j = pos then some v else l[j - 1]? := by
  have hlt : (l.take pos).length = pos := by
    rw [List.length_take]
    omega
  have hlt1 : (l.take pos ++ [v]).length = pos + 1 := by
    rw [List.length_append, hlt]
    rfl
  rw [List.getElem?_append, hlt1]
  by_cases hj : j < pos
  · rw [if_pos (show j < pos + 1 by omega), if_pos hj, List.getElem?_append, hlt, if_pos hj,
      List.getElem?_take, if_pos hj]
  · rw [if_neg hj]
    by_cases hj2 : j = pos
    · subst hj2
      rw [if_pos (show j < j + 1 by omega), if_pos rfl, List.getElem?_append, hlt,
        if_neg (Nat.lt_irrefl j), Nat.sub_self]
      rfl
    · rw [if_neg (show ¬ j < pos + 1 by omega), if_neg hj2, List.getElem?_drop,
        show pos + (j - (pos + 1)) = j - 1 by omega]

theorem erase_list_getElem? (l : List T) {pos : Nat} (hpos : pos ≤ l.length) (j : Nat) :
    (l.take pos ++ l.drop (pos + 1))[j]? = if j < pos then l[j]? else l[j + 1]? := by
  have hlt : (l.take pos).length = pos := by
    rw [List.length_take]
    omega
  rw [List.getElem?_append, hlt]
  by_cases hj : j < pos
  · rw [if_pos hj, if_pos hj, List.getElem?_take, if_pos hj]
  · rw [if_neg hj, if_neg hj, List.getElem?_drop, show pos + 1 + (j - pos) = j + 1 by omega]

/-- The `std::copy_backward` call of `Insert`, for `pos <= size`. -/
theorem std_copy_backward_insert (h : Heap T) (p : RawPtr) {pos size : Nat} (hpos : pos ≤ size) :
    std_copy_backward h p pos (size + 1 - 1) p (size + 1) =
      std_copy_backward_loop p p pos (pos + 1) (size - pos) h := by
  unfold std_copy_backward
  rw [if_neg (show ¬ (size + 1 - 1 < pos ∨ size + 1 < size + 1 - 1 - pos) by omega),
    show size + 1 - (size + 1 - 1 - pos) = pos + 1 by omega,
    show size + 1 - 1 - pos = size - pos by omega]

/-- `Erase` at a valid position: the forward copy stays inside the array, the
element at `pos` disappears, the capacity and the array are kept, and the iterator
returned is `begin() + pos`. -/
theorem SimpleVector.Erase_spec (ndebug : Bool) {h : Heap T} {s : SimpleVector}
    (hwf : SimpleVector.WF h s) {pos : Nat} (hpos : pos < s.size_) :
    ∃ h1 s1, SimpleVector.Erase ndebug h s pos = .ok ((h1, s1), s1.index pos) ∧
      s1.size_ = s.size_ - 1 ∧ s1.capacity_ = s.capacity_ ∧ s1.p_data_ = s.p_data_ ∧
      SimpleVector.elems h1 s1 =
        (SimpleVector.elems h s).take pos ++ (SimpleVector.elems h s).drop (pos + 1) ∧
      SimpleVector.WF h1 s1 ∧ (∀ q, q ≠ s.p_data_.Get → h1.array q = h.array q) := by
  have hlen0 := SimpleVector.elems_length hwf
  obtain ⟨hle, b, hb, hlen⟩ := SimpleVector.WF.unpack hwf
  obtain ⟨h1, b1, hrun, hb1, hlen1, hget1, hfr1, _⟩ :=
    std_copy_loop_shift_left (s.size_ - (pos + 1)) pos h b hb (by omega)
  refine ⟨h1, { s with size_ := s.size_ - 1 }, ?_, rfl, rfl, rfl, ?_, ?_, hfr1⟩
  · simp only [ArrayPtr.Get] at hrun
    simp only [SimpleVector.Erase, hpos, decide_True, Bool.not_true, Bool.and_false,
      Bool.false_eq_true, if_false, std_copy, SimpleVector.begin_, SimpleVector.end_,
      ArrayPtr.Get, show ¬ (s.size_ < pos + 1) by omega, hrun, size_t_dec,
      show ¬ (s.size_ = 0) by omega, SimpleVector.index, ArrayPtr.index]
  · apply List.ext_getElem?
    intro j
    rw [erase_list_getElem? _ (show pos ≤ (SimpleVector.elems h s).length by omega),
      SimpleVector.elems_getElem?, SimpleVector.elems_getElem?, SimpleVector.elems_getElem?,
      SimpleVector.buffer_of_array { s with size_ := s.size_ - 1 } hb1,
      SimpleVector.buffer_of_array s hb, hget1 j]
    show (if j < s.size_ - 1 then _ else _) = _
    by_cases hj : j < pos
    · rw [if_pos (show j < s.size_ - 1 by omega), if_pos hj, if_pos (show j < s.size_ by omega),
        if_neg (show ¬ (pos ≤ j ∧ j < pos + (s.size_ - (pos + 1))) by omega)]
    · rw [if_neg hj]
      by_cases hj2 : j < s.size_ - 1
      · rw [if_pos hj2, if_pos (show j + 1 < s.size_ by omega),
          if_pos (show pos ≤ j ∧ j < pos + (s.size_ - (pos + 1)) by omega)]
      · rw [if_neg hj2, if_neg (show ¬ j + 1 < s.size_ by omega)]
  · exact SimpleVector.WF.pack ⟨by show s.size_ - 1 ≤ s.capacity_; omega, b1, hb1,
      by show b1.length = s.capacity_; omega⟩

/-- `Insert` at a valid position, when the allocation it may need succeeds: it
returns `begin() + pos` of the resulting vector, whose sequence is the old one with
`value` put in at `pos`; the capacity is kept when there was room and is
`max(size * 2, 1)` otherwise.  The resulting vector is well-formed, so its array
has exactly `capacity` slots; that array is the old one when there was room and
one that was not live before the call otherwise. -/
theorem SimpleVector.Insert_spec (al : Allocator T) (ndebug : Bool) {h : Heap T}
    {s : SimpleVector} (hwf : SimpleVector.WF h s) {pos : Nat} (hpos : pos ≤ s.size_) (value : T)
    (hal : s.size_ < s.capacity_ ∨ al.fails (max (s.size_ * 2) 1) = false) :
    ∃ h1 s1, SimpleVector.Insert al ndebug h s pos value = .ok ((h1, s1), s1.index pos) ∧
      s1.size_ = s.size_ + 1 ∧
      s1.capacity_ = (if s.size_ < s.capacity_ then s.capacity_ else max (s.size_ * 2) 1) ∧
      SimpleVector.elems h1 s1 =
        (SimpleVector.elems h s).take pos ++ [value] ++ (SimpleVector.elems h s).drop pos ∧
      SimpleVector.WF h1 s1 ∧
      (∀ q c, h.array q = some c → q ≠ s.p_data_.Get → h1.array q = some c) ∧
      (s.size_ < s.capacity_ → s1.p_data_ = s.p_data_) ∧
      (¬ s.size_ < s.capacity_ → h.array s1.p_data_.Get = none) := by
  have hlen0 := SimpleVector.elems_length hwf
  have hposl : pos ≤ (SimpleVector.elems h s).length := by omega
  obtain ⟨hle, b, hb, hlen⟩ := SimpleVector.WF.unpack hwf
  by_cases hlt : s.size_ < s.capacity_
  · obtain ⟨h1, b1, hrun, hb1, hlen1, hget1, hfr1, _⟩ :=
      std_copy_backward_loop_shift_right pos (s.size_ - pos) h b hb (by omega)
    obtain ⟨h2, hst, hb2, hfr2, _⟩ :=
      Heap.store_spec hb1 (show pos < b1.length by omega) value
    refine ⟨h2, { s with size_ := s.size_ + 1 }, ?_, rfl, ?_, ?_, ?_, ?_, fun _ => rfl,
      fun hc => absurd hlt hc⟩
    · rw [← std_copy_backward_insert h _ hpos] at hrun
      simp only [ArrayPtr.Get] at hrun hst
      simp only [SimpleVector.Insert, hpos, decide_True, Bool.not_true, Bool.and_false,
        Bool.false_eq_true, if_false, ge_iff_le, show ¬ (s.capacity_ ≤ s.size_) by omega,
        SimpleVector.begin_, SimpleVector.end_, ArrayPtr.Get, hrun, hst, SimpleVector.index,
        ArrayPtr.index]
    · show s.capacity_ = _
      rw [if_pos hlt]
    · apply List.ext_getElem?
      intro j
      rw [insert_list_getElem? _ value hposl, SimpleVector.elems_getElem?,
        SimpleVector.elems_getElem?, SimpleVector.elems_getElem?,
        SimpleVector.buffer_of_array { s with size_ := s.size_ + 1 } hb2,
        SimpleVector.buffer_of_array s hb, List.getElem?_set, hget1 j]
      show (if j < s.size_ + 1 then _ else _) = _
      by_cases hj : j < pos
      · rw [if_pos (show j < s.size_ + 1 by omega), if_neg (show ¬ pos = j by omega),
          if_neg (show ¬ (pos + 1 ≤ j ∧ j < pos + 1 + (s.size_ - pos)) by omega), if_pos hj,
          if_pos (show j < s.size_ by omega)]
      · rw [if_neg hj]
        by_cases hj2 : j = pos
        · subst hj2
          rw [if_pos (show j < s.size_ + 1 by omega), if_pos rfl,
            if_pos (show j < b1.length by omega), if_pos rfl]
        · rw [if_neg hj2, if_neg (show ¬ pos = j from fun hc => hj2 hc.symm)]
          by_cases hj3 : j < s.size_ + 1
          · rw [if_pos hj3, if_pos (show j - 1 < s.size_ by omega),
              if_pos (show pos + 1 ≤ j ∧ j < pos + 1 + (s.size_ - pos) by omega)]
          · rw [if_neg hj3, if_neg (show ¬ j - 1 < s.size_ by omega)]
    · exact SimpleVector.WF.pack ⟨by show s.size_ + 1 ≤ s.capacity_; omega, b1.set pos value, hb2,
        by show (b1.set pos value).length = s.capacity_; rw [List.length_set]; omega⟩
    · intro q c hq hne
      rw [hfr2 q hne, hfr1 q hne]
      exact hq
  · have hfail : al.fails (max (s.size_ * 2) 1) = false := by
      cases hal with
      | inl hc => exact absurd hc hlt
      | inr hc => exact hc
    have hn1 : s.size_ + 1 ≤ max (s.size_ * 2) 1 := by omega
    obtain ⟨h1, p, hof, hp, hold, hnew, _⟩ :=
      ArrayPtr.ofSize_spec al h (max (s.size_ * 2) 1) hfail
    have hfresh : h.array p.Get = none := hnew (by omega)
    have hpne : s.p_data_.Get ≠ p.Get := by
      intro hc
      rw [← hc, hb] at hfresh
      cases hfresh
    have hbo1 : h1.array s.p_data_.Get = some b := hold _ b hb
    obtain ⟨h2, bd2, hcp2, hbd2, hlen2, hget2, hfr2, _⟩ :=
      std_copy_spec hpne hbo1 hp 0 pos 0 (Nat.zero_le pos) (by omega) (by simp; omega)
    have hlenf : bd2.length = max (s.size_ * 2) 1 := by
      rw [hlen2]
      simp
    obtain ⟨h3, hst3, hbd3, hfr3, _⟩ :=
      Heap.store_spec hbd2 (show pos < bd2.length by omega) value
    have hbo3 : h3.array s.p_data_.Get = some b := by
      rw [hfr3 _ hpne, hfr2 _ hpne, hbo1]
    obtain ⟨h4, bd4, hcp4, hbd4, hlen4, hget4, hfr4, _⟩ :=
      std_copy_spec hpne hbo3 hbd3 pos s.size_ (pos + 1) hpos (by omega)
        (by rw [List.length_set]; omega)
    have hbo4 : h4.array s.p_data_.Get = some b := by
      rw [hfr4 _ hpne, hbo3]
    obtain ⟨h5, hdel, hfr5, _⟩ := Heap.delete_spec hbo4
    have hbd5 : h5.array p.Get = some bd4 := by
      rw [hfr5 _ (fun hc => hpne hc.symm), hbd4]
    refine ⟨h5, SimpleVector.mk p (s.size_ + 1) (max (s.size_ * 2) 1), ?_, rfl, ?_, ?_, ?_, ?_,
      fun hc => absurd hc hlt, fun _ => hfresh⟩
    · simp only [ArrayPtr.Get] at hcp2 hst3 hcp4 hdel
      simp only [SimpleVector.Insert, hpos, decide_True, Bool.not_true, Bool.and_false,
        Bool.false_eq_true, if_false, ge_iff_le, show s.capacity_ ≤ s.size_ by omega, if_true,
        hof, SimpleVector.begin_, SimpleVector.end_, ArrayPtr.Get, hcp2, hst3, hcp4,
        ArrayPtr.swap, ArrayPtr.destroy, hdel, SimpleVector.index, ArrayPtr.index]
    · show max (s.size_ * 2) 1 = _
      rw [if_neg hlt]
    · apply List.ext_getElem?
      intro j
      rw [insert_list_getElem? _ value hposl, SimpleVector.elems_getElem?,
        SimpleVector.elems_getElem?, SimpleVector.elems_getElem?,
        SimpleVector.buffer_of_array (SimpleVector.mk p (s.size_ + 1) (max (s.size_ * 2) 1)) hbd5,
        SimpleVector.buffer_of_array s hb, hget4 j, List.getElem?_set, hget2 j]
      show (if j < s.size_ + 1 then _ else _) = _
      by_cases hj : j < pos
      · rw [if_pos (show j < s.size_ + 1 by omega),
          if_neg (show ¬ (pos + 1 ≤ j ∧ j < pos + 1 + (s.size_ - pos)) by omega),
          if_neg (show ¬ pos = j by omega),
          if_pos (show 0 ≤ j ∧ j < 0 + (pos - 0) by omega), if_pos hj,
          if_pos (show j < s.size_ by omega), show 0 + (j - 0) = j by omega]
      · rw [if_neg hj]
        by_cases hj2 : j = pos
        · subst hj2
          rw [if_pos (show j < s.size_ + 1 by omega),
            if_neg (show ¬ (j + 1 ≤ j ∧ j < j + 1 + (s.size_ - j)) by omega), if_pos rfl,
            if_pos (show j < bd2.length by omega), if_pos rfl]
        · rw [if_neg hj2]
          by_cases hj3 : j < s.size_ + 1
          · rw [if_pos hj3, if_pos (show j - 1 < s.size_ by omega),
              if_pos (show pos + 1 ≤ j ∧ j < pos + 1 + (s.size_ - pos) by omega),
              show pos + (j - (pos + 1)) = j - 1 by omega]
          · rw [if_neg hj3, if_neg (show ¬ j - 1 < s.size_ by omega)]
    · exact SimpleVector.WF.pack ⟨hn1, bd4, hbd5, by
        show bd4.length = max (s.size_ * 2) 1
        rw [hlen4, List.length_set, hlenf]⟩
    · intro q c hq hne
      have hqp : q ≠ p.Get := by
        intro hc
        rw [hc, hfresh] at hq
        cases hq
      rw [hfr5 q hne, hfr4 q hqp, hfr3 q hqp, hfr2 q hqp]
      exact hold q c hq

/-- C3. `Insert` at any position `i` with `0 <= i <= size` returns; the resulting
sequence is `s[0..i) ++ [v] ++ s[i..size)`, of size `size + 1`, and the iterator
returned is `begin() + i` of the resulting vector, the slot that holds `v`.  Both
branches (capacity exhausted or not) are covered; allocation is assumed to
succeed. -/
theorem Insert_places_value {T : Type} (al : Allocator T) (hal : ∀ n, al.fails n = false)
    (ndebug : Bool) (h : Heap T) (s : SimpleVector) (i : Nat) (v : T)
    (hwf : SimpleVector.WF h s) (hi : i ≤ s.GetSize) :
    ∃ h1 s1, SimpleVector.Insert al ndebug h s i v = .ok ((h1, s1), s1.index i) ∧
      s1.GetSize = s.GetSize + 1 ∧
      SimpleVector.elems h1 s1 =
        (SimpleVector.elems h s).take i ++ [v] ++ (SimpleVector.elems h s).drop i ∧
      h1.load (s1.index i).1 (s1.index i).2 = some v := by
  obtain ⟨h1, s1, hins, hsz, _, hel, hwf1, _⟩ :=
    SimpleVector.Insert_spec al ndebug hwf hi v (Or.inr (hal _))
  refine ⟨h1, s1, hins, hsz, hel, ?_⟩
  have hi0 : i ≤ s.size_ := hi
  have hlen := SimpleVector.elems_length hwf
  have hr := SimpleVector.read_eq_elems hwf1 (show i < s1.size_ by omega)
  rw [hel, insert_list_getElem? _ v (show i ≤ (SimpleVector.elems h s).length by omega),
    if_neg (Nat.lt_irrefl i), if_pos rfl] at hr
  exact hr

/-- C3, at a concrete input: inserting `1` at index 1 of the full vector `[2, 3]`. -/
theorem Insert_places_value_witness :
    SimpleVector.WF ([some [2, 3]] : Heap Int) (SimpleVector.mk (ArrayPtr.mk (some 0)) 2 2) ∧
    1 ≤ (SimpleVector.mk (ArrayPtr.mk (some 0)) 2 2).GetSize ∧
    (∃ h1 s1, SimpleVector.Insert (Allocator.ofDefault (0 : Int)) false [some [2, 3]]
        (SimpleVector.mk (ArrayPtr.mk (some 0)) 2 2) 1 1 = .ok ((h1, s1), s1.index 1) ∧
      s1.GetSize = 3 ∧ SimpleVector.elems h1 s1 = [2, 1, 3]) := by
  have hwf : SimpleVector.WF ([some [2, 3]] : Heap Int)
      (SimpleVector.mk (ArrayPtr.mk (some 0)) 2 2) := by decide
  have hle : 1 ≤ (SimpleVector.mk (ArrayPtr.mk (some 0)) 2 2).GetSize := by decide
  obtain ⟨h1, s1, hins, hsz, hel, _⟩ :=
    Insert_places_value (Allocator.ofDefault (0 : Int)) (fun _ => rfl) false [some [2, 3]]
      (SimpleVector.mk (ArrayPtr.mk (some 0)) 2 2) 1 1 hwf hle
  exact ⟨hwf, hle, h1, s1, hins, hsz, hel⟩

/-- C4. `Erase` at any position `i` with `0 <= i < size` returns; the resulting
sequence is `s[0..i) ++ s[i+1..size)`, of size `size - 1`, the capacity is
unchanged, and the iterator returned is `begin() + i`, which is `end()` when the
erased element was the last one. -/
theorem Erase_removes_element {T : Type} (ndebug : Bool) (h : Heap T) (s : SimpleVector)
    (i : Nat) (hwf : SimpleVector.WF h s) (hi : i < s.GetSize) :
    ∃ h1 s1, SimpleVector.Erase ndebug h s i = .ok ((h1, s1), s1.index i) ∧
      SimpleVector.elems h1 s1 =
        (SimpleVector.elems h s).take i ++ (SimpleVector.elems h s).drop (i + 1) ∧
      s1.GetSize = s.GetSize - 1 ∧ s1.GetCapacity = s.GetCapacity ∧
      (i = s.GetSize - 1 → s1.index i = s1.end_) := by
  obtain ⟨h1, s1, her, hsz, hcap, _, hel, _, _⟩ := SimpleVector.Erase_spec ndebug hwf hi
  refine ⟨h1, s1, her, hel, hsz, hcap, ?_⟩
  intro hlast
  show (s1.p_data_.raw_ptr_, i) = (s1.p_data_.raw_ptr_, s1.size_)
  rw [hsz, hlast]
  rfl

/-- C4, at a concrete input: erasing index 1 of `[1, 2, 3]`. -/
theorem Erase_removes_element_witness :
    SimpleVector.WF ([some [1, 2, 3]] : Heap Int) (SimpleVector.mk (ArrayPtr.mk (some 0)) 3 3) ∧
    1 < (SimpleVector.mk (ArrayPtr.mk (some 0)) 3 3).GetSize ∧
    (∃ h1 s1, SimpleVector.Erase false ([some [1, 2, 3]] : Heap Int)
        (SimpleVector.mk (ArrayPtr.mk (some 0)) 3 3) 1 = .ok ((h1, s1), s1.index 1) ∧
      SimpleVector.elems h1 s1 = [1, 3] ∧ s1.GetSize = 2 ∧ s1.GetCapacity = 3) := by
  have hwf : SimpleVector.WF ([some [1, 2, 3]] : Heap Int)
      (SimpleVector.mk (ArrayPtr.mk (some 0)) 3 3) := by decide
  have hlt : 1 < (SimpleVector.mk (ArrayPtr.mk (some 0)) 3 3).GetSize := by decide
  obtain ⟨h1, s1, her, hel, hsz, hcap, _⟩ :=
    Erase_removes_element false ([some [1, 2, 3]] : Heap Int)
      (SimpleVector.mk (ArrayPtr.mk (some 0)) 3 3) 1 hwf hlt
  exact ⟨hwf, hlt, h1, s1, her, hel, hsz, hcap⟩

end InsertErase

/-! ## `Resize` and `Reserve` -/

section ResizeReserve

variable {T : Type}

/-- `Reserve`, when the allocation it may need succeeds: it returns, size and
elements are kept, and the capacity is `new_capacity` exactly when that is larger
than the old capacity. -/
theorem SimpleVector.Reserve_spec (al : Allocator T) {h : Heap T} {s : SimpleVector}
    (hwf : SimpleVector.WF h s) (new_capacity : Nat)
    (hal : new_capacity ≤ s.capacity_ ∨ al.fails new_capacity = false) :
    ∃ h1 s1, SimpleVector.Reserve al h s new_capacity = .ok (h1, s1) ∧ s1.size_ = s.size_ ∧
      s1.capacity_ = (if new_capacity > s.capacity_ then new_capacity else s.capacity_) ∧
      SimpleVector.elems h1 s1 = SimpleVector.elems h s ∧ SimpleVector.WF h1 s1 ∧
      (∀ q c, h.array q = some c → q ≠ s.p_data_.Get → h1.array q = some c) := by
  by_cases hgt : new_capacity > s.capacity_
  · have hfail : al.fails new_capacity = false := by
      cases hal with
      | inl hc => omega
      | inr hc => exact hc
    obtain ⟨hle, b, hb, hlen⟩ := SimpleVector.WF.unpack hwf
    obtain ⟨h1, p, h2, h3, bd, hof, hcp, hdel, hbd, hbdlen, hget, hfr, _⟩ :=
      realloc_steps al hb (show s.size_ ≤ b.length by omega)
        (show s.size_ ≤ new_capacity by omega) (show new_capacity ≠ 0 by omega) hfail
    refine ⟨h3, SimpleVector.mk p s.size_ new_capacity, ?_, rfl, ?_, ?_, ?_, hfr⟩
    · simp only [ArrayPtr.Get] at hcp hdel
      simp only [SimpleVector.Reserve, hgt, if_true, hof, SimpleVector.begin_,
        SimpleVector.end_, ArrayPtr.Get, hcp, ArrayPtr.swap, ArrayPtr.destroy, hdel]
    · show new_capacity = _
      rw [if_pos hgt]
    · apply List.ext_getElem?
      intro j
      rw [SimpleVector.elems_getElem?, SimpleVector.elems_getElem?,
        SimpleVector.buffer_of_array (SimpleVector.mk p s.size_ new_capacity) hbd,
        SimpleVector.buffer_of_array s hb, hget j]
      show (if j < s.size_ then _ else _) = _
      by_cases hj : j < s.size_
      · rw [if_pos hj, if_pos hj, if_pos hj]
      · rw [if_neg hj, if_neg hj]
    · exact SimpleVector.WF.pack ⟨by show s.size_ ≤ new_capacity; omega, bd, hbd, hbdlen⟩
  · refine ⟨h, s, ?_, rfl, ?_, rfl, hwf, fun q c hq _ => hq⟩
    · simp only [SimpleVector.Reserve, hgt, if_false]
    · rw [if_neg hgt]

/-- C6. `Reserve(new_capacity)` returns and keeps the size and every element; the
capacity becomes exactly `new_capacity` if that exceeds the old capacity and stays
as it was otherwise.  Allocation is assumed to succeed. -/
theorem Reserve_keeps_contents {T : Type} (al : Allocator T) (hal : ∀ n, al.fails n = false)
    (h : Heap T) (s : SimpleVector) (new_capacity : Nat) (hwf : SimpleVector.WF h s) :
    ∃ h1 s1, SimpleVector.Reserve al h s new_capacity = .ok (h1, s1) ∧
      s1.GetSize = s.GetSize ∧ SimpleVector.elems h1 s1 = SimpleVector.elems h s ∧
      (new_capacity > s.GetCapacity → s1.GetCapacity = new_capacity) ∧
      (new_capacity ≤ s.GetCapacity → s1.GetCapacity = s.GetCapacity) ∧
      SimpleVector.WF h1 s1 := by
  obtain ⟨h1, s1, hrs, hsz, hcap, hel, hwf1, _⟩ :=
    SimpleVector.Reserve_spec al hwf new_capacity (Or.inr (hal _))
  refine ⟨h1, s1, hrs, hsz, hel, ?_, ?_, hwf1⟩
  · intro hgt
    have hgt0 : new_capacity > s.capacity_ := hgt
    rw [if_pos hgt0] at hcap
    exact hcap
  · intro hle
    have hle0 : ¬ new_capacity > s.capacity_ := Nat.not_lt.mpr hle
    rw [if_neg hle0] at hcap
    exact hcap

/-- C6, at a concrete input: `Reserve(10)` then `Reserve(5)` on a default-constructed
vector leaves size 0 and capacity 10. -/
theorem Reserve_keeps_contents_witness :
    SimpleVector.WF ([] : Heap Int) {} ∧
    (∃ h1 s1 h2 s2, SimpleVector.Reserve (Allocator.ofDefault (0 : Int)) [] {} 10 = .ok (h1, s1) ∧
      s1.GetSize = 0 ∧ s1.GetCapacity = 10 ∧
      SimpleVector.Reserve (Allocator.ofDefault (0 : Int)) h1 s1 5 = .ok (h2, s2) ∧
      s2.GetSize = 0 ∧ s2.GetCapacity = 10) := by
  refine ⟨SimpleVector.WF_default [], ?_⟩
  obtain ⟨h1, s1, hr1, hsz1, _, hgt1, _, hwf1⟩ :=
    Reserve_keeps_contents (Allocator.ofDefault (0 : Int)) (fun _ => rfl) [] {} 10
      (SimpleVector.WF_default [])
  have hcap1 : s1.GetCapacity = 10 := hgt1 (by decide)
  obtain ⟨h2, s2, hr2, hsz2, _, _, hle2, _⟩ :=
    Reserve_keeps_contents (Allocator.ofDefault (0 : Int)) (fun _ => rfl) h1 s1 5 hwf1
  have hcap2 : s2.GetCapacity = s1.GetCapacity := hle2 (by rw [hcap1]; decide)
  exact ⟨h1, s1, h2, s2, hr1, hsz1, hcap1, hr2, by rw [hsz2, hsz1]; rfl, by rw [hcap2, hcap1]⟩

/-- `Resize` to a larger size for an element type whose default-initialisation
yields `Type()`: size `new_size`, capacity `new_size * 2` whatever the old
capacity, old elements kept, new elements equal to `Type()`. -/
theorem SimpleVector.Resize_grow_class_type [Inhabited T] (al : Allocator T)
    (hclass : ∀ i, al.fresh i = default) {h : Heap T} {s : SimpleVector}
    (hwf : SimpleVector.WF h s) {new_size : Nat} (hgt : new_size > s.size_)
    (hal : al.fails (new_size * 2) = false) :
    ∃ h1 s1, SimpleVector.Resize al h s new_size = .ok (h1, s1) ∧ s1.GetSize = new_size ∧
      s1.GetCapacity = 2 * new_size ∧
      SimpleVector.elems h1 s1 =
        SimpleVector.elems h s ++ List.replicate (new_size - s.size_) default := by
  have hlen0 := SimpleVector.elems_length hwf
  obtain ⟨h1, s1, hrs, hsz, hcap, hwf1, hget, _, _⟩ :=
    SimpleVector.Resize_grow_spec al hwf hgt hal
  refine ⟨h1, s1, hrs, hsz, by show s1.capacity_ = 2 * new_size; omega, ?_⟩
  apply List.ext_getElem?
  intro j
  rw [SimpleVector.elems_getElem?, hget j, List.getElem?_append, hlen0,
    SimpleVector.elems_getElem?, List.getElem?_replicate, hsz, hclass j]
  by_cases hj : j < s.size_
  · rw [if_pos (show j < new_size by omega), if_pos hj, if_pos hj, if_pos hj]
  · rw [if_neg hj]
    by_cases hj2 : j < new_size
    · rw [if_pos hj2, if_neg hj, if_pos (show j < new_size * 2 by omega),
        if_pos (show j - s.size_ < new_size - s.size_ by omega)]
    · rw [if_neg hj2, if_neg hj, if_neg (show ¬ j - s.size_ < new_size - s.size_ by omega)]

/-- C5, evaluated at `SimpleVector<int> v; v.Resize(5);` on storage that is not
zeroed: the call returns with size 5 and capacity 10, but the five new elements
hold what the storage held (here `-1`), not `int()`, which is `0`. -/
theorem Resize_scalar_slots_not_default :
    ∃ h1 s1, SimpleVector.Resize stale_int_storage [] {} 5 = .ok (h1, s1) ∧
      s1.GetSize = 5 ∧ s1.GetCapacity = 10 ∧
      SimpleVector.elems h1 s1 = [-1, -1, -1, -1, -1] ∧
      SimpleVector.elems h1 s1 ≠ List.replicate 5 (default : Int) :=
  ⟨_, _, rfl, rfl, rfl, rfl, by decide⟩

end ResizeReserve

/-! ## Element access, moves and comparison -/

section AccessMoveCompare

variable {T : Type}

/-- C7. `At(index)`, in both overloads, throws `out_of_range` exactly when
`index >= size` and otherwise returns a reference to `p_data_[index]`, through
which the element stored at that index is read; `At(size)` throws for every vector,
whatever its capacity. -/
theorem At_checks_range {T : Type} (h : Heap T) (s : SimpleVector) (index : Nat) :
    (s.At index = .error .out_of_range ↔ index ≥ s.GetSize) ∧
    (s.At_const index = .error .out_of_range ↔ index ≥ s.GetSize) ∧
    (index < s.GetSize → s.At index = .ok (s.index index) ∧
      s.At_const index = .ok (s.index index)) ∧
    (SimpleVector.WF h s → index < s.GetSize →
      ∃ x, h.load (s.index index).1 (s.index index).2 = some x ∧
        (SimpleVector.elems h s)[index]? = some x) ∧
    s.At s.GetSize = .error .out_of_range ∧ s.At_const s.GetSize = .error .out_of_range := by
  refine ⟨?_, ?_, ?_, ?_, ?_, ?_⟩
  · by_cases hge : index ≥ s.size_
    · simp [SimpleVector.At, SimpleVector.GetSize, hge]
    · simp [SimpleVector.At, SimpleVector.GetSize, hge]
  · by_cases hge : index ≥ s.size_
    · simp [SimpleVector.At_const, SimpleVector.GetSize, hge]
    · simp [SimpleVector.At_const, SimpleVector.GetSize, hge]
  · intro hlt
    have hge : ¬ index ≥ s.size_ := Nat.not_le.mpr hlt
    simp [SimpleVector.At, SimpleVector.At_const, SimpleVector.index, hge]
  · intro hwf hlt
    have hlt0 : index < s.size_ := hlt
    have hr := SimpleVector.read_eq_elems hwf hlt0
    have hlen := SimpleVector.elems_length hwf
    have hsome : (SimpleVector.elems h s)[index]? =
        some ((SimpleVector.elems h s)[index]) :=
      List.getElem?_eq_getElem (show index < (SimpleVector.elems h s).length by omega)
    exact ⟨_, hr.trans hsome, hsome⟩
  · simp [SimpleVector.At, SimpleVector.GetSize]
  · simp [SimpleVector.At_const, SimpleVector.GetSize]

/-- C7, at a concrete input: `[7, 8]` stored with capacity 4; `At(1)` reads `8`,
`At(2)` throws although slot 2 exists. -/
theorem At_checks_range_witness :
    SimpleVector.WF ([some [7, 8, 0, 0]] : Heap Int) (SimpleVector.mk (ArrayPtr.mk (some 0)) 2 4) ∧
    1 < (SimpleVector.mk (ArrayPtr.mk (some 0)) 2 4).GetSize ∧
    (∃ x, Heap.load ([some [7, 8, 0, 0]] : Heap Int) (some 0) 1 = some x ∧
      (SimpleVector.elems ([some [7, 8, 0, 0]] : Heap Int)
        (SimpleVector.mk (ArrayPtr.mk (some 0)) 2 4))[1]? = some x) ∧
    (SimpleVector.mk (ArrayPtr.mk (some 0)) 2 4).At 2 = .error .out_of_range := by
  have hwf : SimpleVector.WF ([some [7, 8, 0, 0]] : Heap Int)
      (SimpleVector.mk (ArrayPtr.mk (some 0)) 2 4) := by decide
  have hlt : 1 < (SimpleVector.mk (ArrayPtr.mk (some 0)) 2 4).GetSize := by decide
  have hall := At_checks_range ([some [7, 8, 0, 0]] : Heap Int)
    (SimpleVector.mk (ArrayPtr.mk (some 0)) 2 4) 1
  exact ⟨hwf, hlt, hall.2.2.2.1 hwf hlt, hall.2.2.2.2.1⟩

/-- C9. Move construction gives the new object the array, size and capacity (hence
the elements) of the source and leaves the source with a null array, size 0 and
capacity 0; the free store is not touched. -/
theorem move_construct_transfers {T : Type} (h : Heap T) (s : SimpleVector) :
    (SimpleVector.move_construct s).1.GetSize = s.GetSize ∧
    (SimpleVector.move_construct s).1.GetCapacity = s.GetCapacity ∧
    (SimpleVector.move_construct s).1.p_data_ = s.p_data_ ∧
    SimpleVector.elems h (SimpleVector.move_construct s).1 = SimpleVector.elems h s ∧
    (SimpleVector.move_construct s).2.GetSize = 0 ∧
    (SimpleVector.move_construct s).2.GetCapacity = 0 ∧
    (SimpleVector.move_construct s).2.p_data_.Get = none ∧
    (SimpleVector.move_construct s).2.p_data_.toBool = false ∧
    SimpleVector.elems h (SimpleVector.move_construct s).2 = [] :=
  ⟨rfl, rfl, rfl, rfl, rfl, rfl, rfl, rfl, rfl⟩

/-- The element loop of `std::equal` on two live arrays compares the two ranges. -/
theorem std_equal_loop_spec [DecidableEq T] {h : Heap T} {p1 p2 : RawPtr} {b1 b2 : List T}
    (h1 : h.array p1 = some b1) (h2 : h.array p2 = some b2) (n : Nat) :
    ∀ i j, i + n ≤ b1.length → j + n ≤ b2.length →
      std_equal_loop h p1 p2 n i j = some (decide ((b1.drop i).take n = (b2.drop j).take n)) := by
  induction n with
  | zero =>
    intro i j _ _
    simp [std_equal_loop]
  | succ n ih =>
    intro i j hi hj
    have hi1 : i < b1.length := by omega
    have hj1 : j < b2.length := by omega
    have hl1 : h.load p1 i = some b1[i] := by
      rw [Heap.load_of_array h1, List.getElem?_eq_getElem hi1]
    have hl2 : h.load p2 j = some b2[j] := by
      rw [Heap.load_of_array h2, List.getElem?_eq_getElem hj1]
    simp only [std_equal_loop, hl1, hl2]
    rw [List.drop_eq_getElem_cons hi1, List.drop_eq_getElem_cons hj1, List.take_succ_cons,
      List.take_succ_cons]
    by_cases hxy : b1[i] = b2[j]
    · rw [if_pos hxy, ih (i + 1) (j + 1) (by omega) (by omega)]
      simp [hxy]
    · rw [if_neg hxy]
      simp [hxy]

/-- The operator `==` on well-formed vectors decides equality of the two sequences. -/
theorem SimpleVector.eq_spec [DecidableEq T] {h : Heap T} {a b : SimpleVector}
    (hwa : SimpleVector.WF h a) (hwb : SimpleVector.WF h b) :
    SimpleVector.eq h a b = some (decide (SimpleVector.elems h a = SimpleVector.elems h b)) := by
  have hla := SimpleVector.elems_length hwa
  have hlb := SimpleVector.elems_length hwb
  obtain ⟨hlea, ba, hba, hlena⟩ := SimpleVector.WF.unpack hwa
  obtain ⟨hleb, bb, hbb, hlenb⟩ := SimpleVector.WF.unpack hwb
  unfold SimpleVector.eq std_equal
  simp only [SimpleVector.begin_, SimpleVector.end_, Nat.not_lt_zero, or_self, if_false,
    Nat.sub_zero]
  by_cases hsz : a.size_ = b.size_
  · rw [if_neg (show ¬ a.size_ ≠ b.size_ from fun hc => hc hsz),
      std_equal_loop_spec hba hbb a.size_ 0 0 (by omega) (by omega)]
    simp only [SimpleVector.elems, SimpleVector.buffer_of_array a hba,
      SimpleVector.buffer_of_array b hbb, List.drop_zero, hsz]
  · rw [if_pos hsz]
    have hne : SimpleVector.elems h a ≠ SimpleVector.elems h b := by
      intro hc
      rw [hc, hlb] at hla
      exact hsz hla.symm
    simp [hne]

/-- C10. On well-formed vectors `a == b` returns, and it is true exactly when the
sizes agree and `a[i] == b[i]` for every `i < size`; the answer is a function of
the two sequences `[0, size)` alone (capacities and slots at or beyond `size` do
not matter), and `a != b` is its negation. -/
theorem eq_compares_sequences {T : Type} [DecidableEq T] (h : Heap T) (a b : SimpleVector)
    (hwa : SimpleVector.WF h a) (hwb : SimpleVector.WF h b) :
    ∃ r, SimpleVector.eq h a b = some r ∧
      (r = true ↔ (a.GetSize = b.GetSize ∧
        ∀ i, i < a.GetSize → SimpleVector.read h a i = SimpleVector.read h b i)) ∧
      r = decide (SimpleVector.elems h a = SimpleVector.elems h b) ∧
      SimpleVector.ne h a b = some (!r) := by
  have hla := SimpleVector.elems_length hwa
  have hlb := SimpleVector.elems_length hwb
  refine ⟨_, SimpleVector.eq_spec hwa hwb, ?_, rfl, ?_⟩
  · rw [decide_eq_true_iff]
    constructor
    · intro hel
      have hsz : a.size_ = b.size_ := by rw [← hla, ← hlb, hel]
      refine ⟨hsz, ?_⟩
      intro i hi
      have hi0 : i < a.size_ := hi
      rw [SimpleVector.read_eq_elems hwa hi0,
        SimpleVector.read_eq_elems hwb (show i < b.size_ by omega), hel]
    · intro hc
      obtain ⟨hsz, hrd⟩ := hc
      have hsz0 : a.size_ = b.size_ := hsz
      apply List.ext_getElem?
      intro i
      by_cases hi : i < a.size_
      · rw [← SimpleVector.read_eq_elems hwa hi,
          ← SimpleVector.read_eq_elems hwb (show i < b.size_ by omega)]
        exact hrd i hi
      · rw [List.getElem?_eq_none (show (SimpleVector.elems h a).length ≤ i by omega),
          List.getElem?_eq_none (show (SimpleVector.elems h b).length ≤ i by omega)]
  · unfold SimpleVector.ne
    rw [SimpleVector.eq_spec hwa hwb]
    rfl

/-- C10, at a concrete input: `[1, 2, 3]` stored with capacity 3 and `[1, 2, 3]`
stored with capacity 5 and different spare slots compare equal. -/
theorem eq_compares_sequences_witness :
    SimpleVector.WF ([some [1, 2, 3], some [1, 2, 3, 9, 9]] : Heap Int)
      (SimpleVector.mk (ArrayPtr.mk (some 0)) 3 3) ∧
    SimpleVector.WF ([some [1, 2, 3], some [1, 2, 3, 9, 9]] : Heap Int)
      (SimpleVector.mk (ArrayPtr.mk (some 1)) 3 5) ∧
    SimpleVector.eq ([some [1, 2, 3], some [1, 2, 3, 9, 9]] : Heap Int)
      (SimpleVector.mk (ArrayPtr.mk (some 0)) 3 3) (SimpleVector.mk (ArrayPtr.mk (some 1)) 3 5)
      = some true := by
  have hwa : SimpleVector.WF ([some [1, 2, 3], some [1, 2, 3, 9, 9]] : Heap Int)
      (SimpleVector.mk (ArrayPtr.mk (some 0)) 3 3) := by decide
  have hwb : SimpleVector.WF ([some [1, 2, 3], some [1, 2, 3, 9, 9]] : Heap Int)
      (SimpleVector.mk (ArrayPtr.mk (some 1)) 3 5) := by decide
  obtain ⟨r, hr, _, hdec, _⟩ := eq_compares_sequences _ _ _ hwa hwb
  refine ⟨hwa, hwb, ?_⟩
  rw [hr, hdec]
  rfl

end AccessMoveCompare

/-! ## What a call can touch -/

section Frames

variable {T : Type}

theorem Heap.array_none_eq {h : Heap T} {b : List T} (hb : h.array none = some b) :
    b = [] := by
  rw [Heap.array_none] at hb
  cases hb
  rfl

theorem Heap.Agree.refl (h : Heap T) (D : RawPtr → Prop) : Heap.Agree h h D :=
  fun _ _ hq _ => hq

theorem Heap.Agree.trans {h h1 h2 : Heap T} {D : RawPtr → Prop} (h01 : Heap.Agree h h1 D)
    (h12 : Heap.Agree h1 h2 D) : Heap.Agree h h2 D :=
  fun q b hq hD => h12 q b (h01 q b hq hD) hD

theorem Heap.Agree.mono {h h1 : Heap T} {D E : RawPtr → Prop} (h01 : Heap.Agree h h1 D)
    (hDE : ∀ q, D q → E q) : Heap.Agree h h1 E :=
  fun q b hq hE => h01 q b hq (fun hD => hE (hDE q hD))

/-- An address that was null or not live before the call need not be listed. -/
theorem Heap.Agree.drop_fresh {h h1 : Heap T} {D : RawPtr → Prop} {p : RawPtr}
    (h01 : Heap.Agree h h1 (fun q => D q ∨ q = p)) (hp : p = none ∨ h.array p = none) :
    Heap.Agree h h1 D := by
  intro q b hq hD
  by_cases hqp : q = p
  · cases hp with
    | inl hn =>
      rw [hqp, hn] at hq ⊢
      rw [Heap.array_none_eq hq]
      rfl
    | inr hf =>
      rw [hqp, hf] at hq
      cases hq
  · exact h01 q b hq (fun hc => hc.elim hD hqp)

theorem Heap.store_frame {h h1 : Heap T} {p : RawPtr} {i : Nat} {v : T}
    (hs : h.store p i v = some h1) : Heap.Agree h h1 (fun q => q = p) := by
  intro q b hq hne
  cases p with
  | none => cases hs
  | some a =>
    unfold Heap.store at hs
    cases harr : h.array (some a) with
    | none =>
      simp only [harr] at hs
      cases hs
    | some c =>
      simp only [harr] at hs
      by_cases hi : i < c.length
      · rw [if_pos hi] at hs
        cases hs
        rw [Heap.array_set_other _ hne]
        exact hq
      · rw [if_neg hi] at hs
        cases hs

theorem Heap.delete_frame {h h1 : Heap T} {p : RawPtr} (hd : h.delete_array p = some h1) :
    Heap.Agree h h1 (fun q => q = p) := by
  intro q b hq hne
  cases p with
  | none =>
    cases hd
    exact hq
  | some a =>
    unfold Heap.delete_array at hd
    cases harr : h.array (some a) with
    | none =>
      simp only [harr] at hd
      cases hd
    | some c =>
      simp only [harr] at hd
      cases hd
      rw [Heap.array_set_other _ hne]
      exact hq

theorem ArrayPtr.ofSize_frame {al : Allocator T} {h h1 : Heap T} {n : Nat} {p : ArrayPtr}
    (hof : ArrayPtr.ofSize al h n = some (h1, p)) :
    Heap.Agree h h1 (fun _ => False) ∧ (p.Get = none ∨ h.array p.Get = none) := by
  unfold ArrayPtr.ofSize at hof
  by_cases hn : n = 0
  · rw [if_pos hn] at hof
    cases hof
    exact ⟨Heap.Agree.refl h _, Or.inl rfl⟩
  · rw [if_neg hn] at hof
    unfold Heap.new_array at hof
    by_cases hf : al.fails n = true
    · simp only [hf, if_true] at hof
      cases hof
    · simp only [hf, Bool.false_eq_true, if_false] at hof
      cases hof
      refine ⟨fun q b hq _ => Heap.array_append_old _ hq, Or.inr ?_⟩
      show h.array (some h.length) = none
      cases hc : h.array (some h.length) with
      | none => rfl
      | some b => exact absurd (Heap.array_some_lt hc) (Nat.lt_irrefl _)

theorem std_copy_loop_frame {src dst : RawPtr} (n : Nat) :
    ∀ (i d : Nat) (h h1 : Heap T), std_copy_loop src dst n i d h = some h1 →
      Heap.Agree h h1 (fun q => q = dst) := by
  induction n with
  | zero =>
    intro i d h h1 hrun
    cases hrun
    exact Heap.Agree.refl h _
  | succ n ih =>
    intro i d h h1 hrun
    unfold std_copy_loop at hrun
    cases hl : h.load src i with
    | none =>
      simp only [hl] at hrun
      cases hrun
    | some x =>
      simp only [hl] at hrun
      cases hst : h.store dst d x with
      | none =>
        simp only [hst] at hrun
        cases hrun
      | some h2 =>
        simp only [hst] at hrun
        exact (Heap.store_frame hst).trans (ih _ _ _ _ hrun)

theorem std_copy_frame {h h1 : Heap T} {src dst : RawPtr} {first last d : Nat}
    (hc : std_copy h src first last dst d = some h1) : Heap.Agree h h1 (fun q => q = dst) := by
  unfold std_copy at hc
  by_cases hlt : last < first
  · rw [if_pos hlt] at hc
    cases hc
  · rw [if_neg hlt] at hc
    exact std_copy_loop_frame _ _ _ _ _ hc

theorem std_copy_backward_loop_frame {src dst : RawPtr} {first d_first : Nat} (n : Nat) :
    ∀ (h h1 : Heap T), std_copy_backward_loop src dst first d_first n h = some h1 →
      Heap.Agree h h1 (fun q => q = dst) := by
  induction n with
  | zero =>
    intro h h1 hrun
    cases hrun
    exact Heap.Agree.refl h _
  | succ n ih =>
    intro h h1 hrun
    unfold std_copy_backward_loop at hrun
    cases hl : h.load src (first + n) with
    | none =>
      simp only [hl] at hrun
      cases hrun
    | some x =>
      simp only [hl] at hrun
      cases hst : h.store dst (d_first + n) x with
      | none =>
        simp only [hst] at hrun
        cases hrun
      | some h2 =>
        simp only [hst] at hrun
        exact (Heap.store_frame hst).trans (ih _ _ hrun)

theorem std_copy_backward_frame {h h1 : Heap T} {src dst : RawPtr} {first last d : Nat}
    (hc : std_copy_backward h src first last dst d = some h1) :
    Heap.Agree h h1 (fun q => q = dst) := by
  unfold std_copy_backward at hc
  by_cases hlt : last < first ∨ d < last - first
  · rw [if_pos hlt] at hc
    cases hc
  · rw [if_neg hlt] at hc
    exact std_copy_backward_loop_frame _ _ _ hc

theorem std_fill_loop_frame {dst : RawPtr} {v : T} (n : Nat) :
    ∀ (d : Nat) (h h1 : Heap T), std_fill_loop dst v n d h = some h1 →
      Heap.Agree h h1 (fun q => q = dst) := by
  induction n with
  | zero =>
    intro d h h1 hrun
    cases hrun
    exact Heap.Agree.refl h _
  | succ n ih =>
    intro d h h1 hrun
    unfold std_fill_loop at hrun
    cases hst : h.store dst d v with
    | none =>
      simp only [hst] at hrun
      cases hrun
    | some h2 =>
      simp only [hst] at hrun
      exact (Heap.store_frame hst).trans (ih _ _ _ hrun)

theorem std_fill_frame {h h1 : Heap T} {dst : RawPtr} {first last : Nat} {v : T}
    (hc : std_fill h dst first last v = some h1) : Heap.Agree h h1 (fun q => q = dst) := by
  unfold std_fill at hc
  by_cases hlt : last < first
  · rw [if_pos hlt] at hc
    cases hc
  · rw [if_neg hlt] at hc
    exact std_fill_loop_frame _ _ _ _ hc

theorem SimpleVector.FrameOK.same {h : Heap T} {c c1 : SimpleVector}
    (hp : c1.p_data_ = c.p_data_) : SimpleVector.FrameOK h c h c1 :=
  ⟨Heap.Agree.refl h _, Or.inl hp⟩

/-- The steps shared by the reallocating members, read backwards: if allocation,
copy into the new array and release of the old array all succeeded, only the old
array of `c` is gone and the new array was not live before. -/
theorem realloc_frame {al : Allocator T} {h h1 h2 h3 : Heap T} {n first last d : Nat}
    {p : ArrayPtr} {old : RawPtr}
    (hof : ArrayPtr.ofSize al h n = some (h1, p))
    (hcp : std_copy h1 old first last p.Get d = some h2)
    (hdel : h2.delete_array old = some h3) :
    Heap.Agree h h3 (fun q => q = old) ∧ (p.Get = none ∨ h.array p.Get = none) := by
  obtain ⟨hA1, hfresh⟩ := ArrayPtr.ofSize_frame hof
  refine ⟨?_, hfresh⟩
  apply Heap.Agree.drop_fresh _ hfresh
  have hA1' : Heap.Agree h h1 (fun q => q = old ∨ q = p.Get) :=
    hA1.mono (fun _ hf => hf.elim)
  have hA2 : Heap.Agree h1 h2 (fun q => q = old ∨ q = p.Get) :=
    (std_copy_frame hcp).mono (fun _ hq => Or.inr hq)
  have hA3 : Heap.Agree h2 h3 (fun q => q = old ∨ q = p.Get) :=
    (Heap.delete_frame hdel).mono (fun _ hq => Or.inl hq)
  exact (hA1'.trans hA2).trans hA3

theorem SimpleVector.Resize_inv {al : Allocator T} {h h1 : Heap T} {c c1 : SimpleVector}
    {n : Nat} (hres : (SimpleVector.Resize al h c n).continues id = some (h1, c1)) :
    SimpleVector.FrameOK h c h1 c1 ∧ (c.size_ ≤ c.capacity_ → c1.size_ ≤ c1.capacity_) ∧
      (c1.size_ = n ∨ c1 = c) := by
  unfold SimpleVector.Resize at hres
  by_cases hgt : n > c.size_
  · rw [if_pos hgt] at hres
    cases hof : ArrayPtr.ofSize al h (n * 2) with
    | none =>
      simp only [hof, Outcome.continues, Option.some.injEq, Prod.mk.injEq] at hres
      obtain ⟨rfl, rfl⟩ := hres
      exact ⟨SimpleVector.FrameOK.same rfl, id, Or.inr rfl⟩
    | some r =>
      obtain ⟨h2, p⟩ := r
      simp only [hof] at hres
      cases hcp : std_copy h2 c.begin_.1 c.begin_.2 c.end_.2 p.Get 0 with
      | none => simp [hcp, Outcome.continues] at hres
      | some h3 =>
        simp only [hcp] at hres
        cases hd : ArrayPtr.destroy (c.p_data_.swap p).2 h3 with
        | none => simp [hd, Outcome.continues] at hres
        | some h4 =>
          simp only [hd, Outcome.continues, id, Option.some.injEq, Prod.mk.injEq] at hres
          obtain ⟨rfl, rfl⟩ := hres
          obtain ⟨hA, hfresh⟩ := realloc_frame hof hcp hd
          exact ⟨⟨hA, Or.inr hfresh⟩, fun _ => by show n ≤ n * 2; omega, Or.inl rfl⟩
  · rw [if_neg hgt] at hres
    simp only [Outcome.continues, id, Option.some.injEq, Prod.mk.injEq] at hres
    obtain ⟨rfl, rfl⟩ := hres
    exact ⟨SimpleVector.FrameOK.same rfl, fun hle => by show n ≤ c.capacity_; omega, Or.inl rfl⟩

theorem SimpleVector.FrameOK.chain {h h1 h2 : Heap T} {c c1 c2 : SimpleVector}
    (h01 : SimpleVector.FrameOK h c h1 c1) (h12 : SimpleVector.FrameOK h1 c1 h2 c2) :
    SimpleVector.FrameOK h c h2 c2 := by
  obtain ⟨hA1, hp1⟩ := h01
  obtain ⟨hA2, hp2⟩ := h12
  constructor
  · intro q b hq hne
    have hq1 := hA1 q b hq hne
    by_cases hqc : q = c1.p_data_.Get
    · rcases hp1 with hsame | hnone | hfresh
      · rw [hsame] at hqc
        exact absurd hqc hne
      · rw [hqc, hnone] at hq ⊢
        rw [Heap.array_none_eq hq]
        rfl
      · rw [← hqc, hq] at hfresh
        cases hfresh
    · exact hA2 q b hq1 hqc
  · rcases hp2 with hsame | hnone | hfresh
    · rw [hsame]
      exact hp1
    · exact Or.inr (Or.inl hnone)
    · by_cases hcp : c2.p_data_ = c.p_data_
      · exact Or.inl hcp
      · cases hh : h.array c2.p_data_.Get with
        | none => exact Or.inr (Or.inr rfl)
        | some b =>
          have hne : ¬ c2.p_data_.Get = c.p_data_.Get := by
            intro hc
            apply hcp
            cases hx : c2.p_data_
            cases hy : c.p_data_
            rw [hx, hy] at hc
            simp only [ArrayPtr.Get] at hc
            rw [hc]
          rw [hA1 _ b hh hne] at hfresh
          cases hfresh

theorem SimpleVector.Reserve_inv {al : Allocator T} {h h1 : Heap T} {c c1 : SimpleVector}
    {n : Nat} (hres : (SimpleVector.Reserve al h c n).continues id = some (h1, c1)) :
    SimpleVector.FrameOK h c h1 c1 ∧ (c.size_ ≤ c.capacity_ → c1.size_ ≤ c1.capacity_) := by
  unfold SimpleVector.Reserve at hres
  by_cases hgt : n > c.capacity_
  · rw [if_pos hgt] at hres
    cases hof : ArrayPtr.ofSize al h n with
    | none =>
      simp only [hof, Outcome.continues, Option.some.injEq, Prod.mk.injEq] at hres
      obtain ⟨rfl, rfl⟩ := hres
      exact ⟨SimpleVector.FrameOK.same rfl, id⟩
    | some r =>
      obtain ⟨h2, p⟩ := r
      simp only [hof] at hres
      cases hcp : std_copy h2 c.begin_.1 c.begin_.2 c.end_.2 p.Get 0 with
      | none => simp [hcp, Outcome.continues] at hres
      | some h3 =>
        simp only [hcp] at hres
        cases hd : ArrayPtr.destroy (c.p_data_.swap p).2 h3 with
        | none => simp [hd, Outcome.continues] at hres
        | some h4 =>
          simp only [hd, Outcome.continues, id, Option.some.injEq, Prod.mk.injEq] at hres
          obtain ⟨rfl, rfl⟩ := hres
          obtain ⟨hA, hfresh⟩ := realloc_frame hof hcp hd
          exact ⟨⟨hA, Or.inr hfresh⟩, fun hle => by show c.size_ ≤ n; omega⟩
  · rw [if_neg hgt] at hres
    simp only [Outcome.continues, id, Option.some.injEq, Prod.mk.injEq] at hres
    obtain ⟨rfl, rfl⟩ := hres
    exact ⟨SimpleVector.FrameOK.same rfl, id⟩

theorem SimpleVector.PushBack_inv {al : Allocator T} {h h1 : Heap T} {c c1 : SimpleVector}
    {item : T} (hres : (SimpleVector.PushBack al h c item).continues id = some (h1, c1)) :
    SimpleVector.FrameOK h c h1 c1 ∧ (c.size_ ≤ c.capacity_ → c1.size_ ≤ c1.capacity_) := by
  unfold SimpleVector.PushBack at hres
  by_cases hlt : c.size_ < c.capacity_
  · rw [if_pos hlt] at hres
    simp only [SimpleVector.At, ge_iff_le, show ¬ (c.size_ + 1 ≤ c.size_) by omega, if_false,
      ArrayPtr.index] at hres
    cases hst : h.store c.p_data_.raw_ptr_ c.size_ item with
    | none => simp [hst, Outcome.continues] at hres
    | some h2 =>
      simp only [hst, Outcome.continues, id, Option.some.injEq, Prod.mk.injEq] at hres
      obtain ⟨rfl, rfl⟩ := hres
      exact ⟨⟨Heap.store_frame hst, Or.inl rfl⟩, fun _ => by show c.size_ + 1 ≤ c.capacity_; omega⟩
  · rw [if_neg hlt] at hres
    cases hr : SimpleVector.Resize al h c (c.size_ + 1) with
    | ok r =>
      obtain ⟨h2, s2⟩ := r
      have hinv := SimpleVector.Resize_inv (show (SimpleVector.Resize al h c (c.size_ + 1)).continues
        id = some (h2, s2) by rw [hr]; rfl)
      simp only [hr] at hres
      cases hat : s2.At (size_t_dec s2.size_) with
      | error e =>
        simp only [hat, Outcome.continues, Option.some.injEq, Prod.mk.injEq] at hres
        obtain ⟨rfl, rfl⟩ := hres
        exact ⟨hinv.1, hinv.2.1⟩
      | ok r =>
        simp only [hat] at hres
        have hr1 : r.1 = s2.p_data_.Get := by
          unfold SimpleVector.At at hat
          split at hat
          · cases hat
          · cases hat
            rfl
        cases hst : h2.store r.1 r.2 item with
        | none => simp [hst, Outcome.continues] at hres
        | some h3 =>
          simp only [hst, Outcome.continues, id, Option.some.injEq, Prod.mk.injEq] at hres
          obtain ⟨rfl, rfl⟩ := hres
          rw [hr1] at hst
          exact ⟨hinv.1.chain ⟨Heap.store_frame hst, Or.inl rfl⟩, hinv.2.1⟩
    | threw e st =>
      obtain ⟨h2, s2⟩ := st
      have hinv := SimpleVector.Resize_inv (show (SimpleVector.Resize al h c (c.size_ + 1)).continues
        id = some (h2, s2) by rw [hr]; rfl)
      simp only [hr, Outcome.continues, Option.some.injEq, Prod.mk.injEq] at hres
      obtain ⟨rfl, rfl⟩ := hres
      exact ⟨hinv.1, hinv.2.1⟩
    | abort => simp [hr, Outcome.continues] at hres
    | undefined => simp [hr, Outcome.continues] at hres

theorem std_copy_some_le {h h1 : Heap T} {src dst : RawPtr} {first last d : Nat}
    (hc : std_copy h src first last dst d = some h1) : first ≤ last := by
  unfold std_copy at hc
  by_cases hlt : last < first
  · rw [if_pos hlt] at hc
    cases hc
  · omega

theorem SimpleVector.Erase_inv {ndebug : Bool} {h h1 : Heap T} {c c1 : SimpleVector}
    {pos : Nat} (hres : (SimpleVector.Erase ndebug h c pos).continues Prod.fst = some (h1, c1)) :
    SimpleVector.FrameOK h c h1 c1 ∧ (c.size_ ≤ c.capacity_ → c1.size_ ≤ c1.capacity_) := by
  unfold SimpleVector.Erase at hres
  split at hres
  · simp [Outcome.continues] at hres
  · cases hcp : std_copy h c.begin_.1 (pos + 1) c.end_.2 c.begin_.1 pos with
    | none => simp [hcp, Outcome.continues] at hres
    | some h2 =>
      simp only [hcp, Outcome.continues, Option.some.injEq, Prod.mk.injEq] at hres
      obtain ⟨rfl, rfl⟩ := hres
      have hle := std_copy_some_le hcp
      refine ⟨⟨std_copy_frame hcp, Or.inl rfl⟩, fun hcap => ?_⟩
      have hpos : pos + 1 ≤ c.size_ := hle
      show size_t_dec c.size_ ≤ c.capacity_
      unfold size_t_dec
      rw [if_neg (show ¬ c.size_ = 0 by omega)]
      omega

theorem SimpleVector.Insert_inv {al : Allocator T} {ndebug : Bool} {h h1 : Heap T}
    {c c1 : SimpleVector} {pos : Nat} {value : T}
    (hres : (SimpleVector.Insert al ndebug h c pos value).continues Prod.fst = some (h1, c1)) :
    SimpleVector.FrameOK h c h1 c1 ∧ (c.size_ ≤ c.capacity_ → c1.size_ ≤ c1.capacity_) := by
  unfold SimpleVector.Insert at hres
  split at hres
  · simp [Outcome.continues] at hres
  · by_cases hge : c.size_ ≥ c.capacity_
    · rw [if_pos hge] at hres
      cases hof : ArrayPtr.ofSize al h (max (c.size_ * 2) 1) with
      | none =>
        simp only [hof, Outcome.continues, Option.some.injEq, Prod.mk.injEq] at hres
        obtain ⟨rfl, rfl⟩ := hres
        exact ⟨SimpleVector.FrameOK.same rfl,
          fun _ => by show c.size_ ≤ max (c.size_ * 2) 1; omega⟩
      | some r =>
        obtain ⟨h2, p⟩ := r
        simp only [hof] at hres
        cases hcp : std_copy h2 c.p_data_.Get 0 pos p.Get 0 with
        | none => simp [SimpleVector.begin_, hcp, Outcome.continues] at hres
        | some h3 =>
          simp only [SimpleVector.begin_, hcp] at hres
          cases hst : h3.store p.Get pos value with
          | none => simp [hst, Outcome.continues] at hres
          | some h4 =>
            simp only [hst] at hres
            cases hcp2 : std_copy h4 c.p_data_.Get pos c.size_ p.Get (pos + 1) with
            | none => simp [SimpleVector.end_, hcp2, Outcome.continues] at hres
            | some h5 =>
              simp only [SimpleVector.end_, hcp2] at hres
              cases hd : ArrayPtr.destroy (c.p_data_.swap p).2 h5 with
              | none => simp [hd, Outcome.continues] at hres
              | some h6 =>
                simp only [hd, Outcome.continues, Option.some.injEq, Prod.mk.injEq] at hres
                obtain ⟨rfl, rfl⟩ := hres
                obtain ⟨hA1, hfresh⟩ := ArrayPtr.ofSize_frame hof
                have hB1 : Heap.Agree h h2 (fun q => q = c.p_data_.Get ∨ q = p.Get) :=
                  hA1.mono (fun _ hf => hf.elim)
                have hB2 : Heap.Agree h2 h3 (fun q => q = c.p_data_.Get ∨ q = p.Get) :=
                  (std_copy_frame hcp).mono (fun _ hq => Or.inr hq)
                have hB3 : Heap.Agree h3 h4 (fun q => q = c.p_data_.Get ∨ q = p.Get) :=
                  (Heap.store_frame hst).mono (fun _ hq => Or.inr hq)
                have hB4 : Heap.Agree h4 h5 (fun q => q = c.p_data_.Get ∨ q = p.Get) :=
                  (std_copy_frame hcp2).mono (fun _ hq => Or.inr hq)
                have hB5 : Heap.Agree h5 _ (fun q => q = c.p_data_.Get ∨ q = p.Get) :=
                  (Heap.delete_frame hd).mono (fun _ hq => Or.inl hq)
                exact ⟨⟨((((hB1.trans hB2).trans hB3).trans hB4).trans hB5).drop_fresh hfresh,
                  Or.inr hfresh⟩, fun _ => by show c.size_ + 1 ≤ max (c.size_ * 2) 1; omega⟩
    · rw [if_neg hge] at hres
      simp only [SimpleVector.begin_, SimpleVector.end_, Nat.add_sub_cancel] at hres
      cases hcp : std_copy_backward h c.p_data_.Get pos c.size_ c.p_data_.Get
          (c.size_ + 1) with
      | none => simp [hcp, Outcome.continues] at hres
      | some h2 =>
        simp only [hcp] at hres
        cases hst : h2.store c.p_data_.Get pos value with
        | none => simp [hst, Outcome.continues] at hres
        | some h3 =>
          simp only [hst, Outcome.continues, Option.some.injEq, Prod.mk.injEq] at hres
          obtain ⟨rfl, rfl⟩ := hres
          exact ⟨⟨(std_copy_backward_frame hcp).trans (Heap.store_frame hst), Or.inl rfl⟩,
            fun _ => by show c.size_ + 1 ≤ c.capacity_; omega⟩

/-- Every member call on `c` that lets the program go on leaves all other live
arrays alone; called within its precondition on a vector with
`size <= capacity`, it yields a vector with `size <= capacity`. -/
theorem SimpleVector.mutate_inv {h h1 : Heap T} {c c1 : SimpleVector} {m : Mutation T}
    (hres : c.mutate h m = some (h1, c1)) :
    SimpleVector.FrameOK h c h1 c1 ∧
      (c.size_ ≤ c.capacity_ → m.pre c = true → c1.size_ ≤ c1.capacity_) := by
  cases m with
  | assign_index index value =>
    simp only [SimpleVector.mutate, SimpleVector.assign_index, SimpleVector.index,
      ArrayPtr.index] at hres
    cases hst : h.store c.p_data_.raw_ptr_ index value with
    | none => simp [hst] at hres
    | some h2 =>
      simp only [hst, Option.map_some', Option.some.injEq, Prod.mk.injEq] at hres
      obtain ⟨rfl, rfl⟩ := hres
      exact ⟨⟨Heap.store_frame hst, Or.inl rfl⟩, fun hle _ => hle⟩
  | PushBack al item =>
    obtain ⟨hf, hle⟩ := SimpleVector.PushBack_inv hres
    exact ⟨hf, fun hc _ => hle hc⟩
  | Insert al ndebug pos value =>
    obtain ⟨hf, hle⟩ := SimpleVector.Insert_inv hres
    exact ⟨hf, fun hc _ => hle hc⟩
  | Erase ndebug pos =>
    obtain ⟨hf, hle⟩ := SimpleVector.Erase_inv hres
    exact ⟨hf, fun hc _ => hle hc⟩
  | PopBack ndebug =>
    simp only [SimpleVector.mutate, SimpleVector.PopBack] at hres
    split at hres
    · simp [Outcome.continues] at hres
    · simp only [Outcome.continues, id, Option.map_some', Option.some.injEq,
        Prod.mk.injEq] at hres
      obtain ⟨rfl, rfl⟩ := hres
      refine ⟨SimpleVector.FrameOK.same rfl, fun hle hpre => ?_⟩
      simp only [Mutation.pre, decide_eq_true_eq] at hpre
      show size_t_dec c.size_ ≤ c.capacity_
      unfold size_t_dec
      rw [if_neg hpre]
      omega
  | Resize al new_size =>
    obtain ⟨hf, hle, _⟩ := SimpleVector.Resize_inv hres
    exact ⟨hf, fun hc _ => hle hc⟩
  | Reserve al new_capacity =>
    obtain ⟨hf, hle⟩ := SimpleVector.Reserve_inv hres
    exact ⟨hf, fun hc _ => hle hc⟩
  | Clear =>
    simp only [SimpleVector.mutate, Option.some.injEq, Prod.mk.injEq] at hres
    obtain ⟨rfl, rfl⟩ := hres
    exact ⟨SimpleVector.FrameOK.same rfl, fun _ _ => Nat.zero_le _⟩

theorem SimpleVector.mutate_all_frame (ms : List (Mutation T)) :
    ∀ (h h1 : Heap T) (c c1 : SimpleVector), SimpleVector.mutate_all h c ms = some (h1, c1) →
      SimpleVector.FrameOK h c h1 c1 := by
  induction ms with
  | nil =>
    intro h h1 c c1 hres
    simp only [SimpleVector.mutate_all, Option.some.injEq, Prod.mk.injEq] at hres
    obtain ⟨rfl, rfl⟩ := hres
    exact SimpleVector.FrameOK.same rfl
  | cons m ms ih =>
    intro h h1 c c1 hres
    unfold SimpleVector.mutate_all at hres
    cases hm : c.mutate h m with
    | none => simp [hm] at hres
    | some r =>
      obtain ⟨h2, c2⟩ := r
      simp only [hm] at hres
      exact (SimpleVector.mutate_inv hm).1.chain (ih _ _ _ _ hres)

end Frames

/-! ## Constructors, assignment and copies -/

section Construction

variable {T : Type}

theorem SimpleVector.ofSizeValue_inv {al : Allocator T} {h : Heap T} {size : Nat} {value : T} :
    (∀ h1 s1, SimpleVector.ofSizeValue al h size value = .ok (h1, s1) →
      Heap.Agree h h1 (fun _ => False) ∧
      (s1.p_data_.Get = none ∨ h.array s1.p_data_.Get = none) ∧
      s1.size_ = size ∧ s1.capacity_ = size) ∧
    (∀ e h1, SimpleVector.ofSizeValue al h size value = .threw e h1 → h1 = h) := by
  unfold SimpleVector.ofSizeValue
  cases hof : ArrayPtr.ofSize al h size with
  | none =>
    constructor
    · intro h1 s1 hres
      cases hres
    · intro e h1 hres
      cases hres
      rfl
  | some r =>
    obtain ⟨h2, p⟩ := r
    obtain ⟨hA, hfresh⟩ := ArrayPtr.ofSize_frame hof
    cases hfill : std_fill h2 p.Get 0 size value with
    | none =>
      simp only [SimpleVector.begin_, SimpleVector.end_, hfill]
      exact ⟨fun _ _ hres => (by cases hres), fun _ _ hres => (by cases hres)⟩
    | some h3 =>
      simp only [SimpleVector.begin_, SimpleVector.end_, hfill]
      constructor
      · intro h1 s1 hres
        cases hres
        refine ⟨?_, hfresh, rfl, rfl⟩
        apply Heap.Agree.drop_fresh _ hfresh
        exact (hA.mono (fun _ hf => Or.inl hf)).trans
          ((std_fill_frame hfill).mono (fun _ hq => Or.inr hq))
      · intro e h1 hres
        cases hres

/-- The constructor `SimpleVector(size, value)`, when the allocation succeeds:
`size` elements, all `value`, capacity `size`, in an array that was not live
before. -/
theorem SimpleVector.ofSizeValue_spec (al : Allocator T) (h : Heap T) (size : Nat) (value : T)
    (hal : al.fails size = false) :
    ∃ h1 s1, SimpleVector.ofSizeValue al h size value = .ok (h1, s1) ∧ s1.size_ = size ∧
      s1.capacity_ = size ∧ SimpleVector.WF h1 s1 ∧
      SimpleVector.elems h1 s1 = List.replicate size value ∧
      Heap.Agree h h1 (fun _ => False) ∧ (size ≠ 0 → h.array s1.p_data_.Get = none) := by
  obtain ⟨h1, p, hof, hp, _, hnew, _⟩ := ArrayPtr.ofSize_spec al h size hal
  obtain ⟨h2, b2, hrun, hb2, hlen2, hget2, _, _⟩ :=
    std_fill_loop_spec value size 0 h1 _ hp (by simp)
  have hok : SimpleVector.ofSizeValue al h size value = .ok (h2, SimpleVector.mk p size size) := by
    simp only [ArrayPtr.Get] at hrun
    simp only [SimpleVector.ofSizeValue, hof, SimpleVector.begin_, SimpleVector.end_, std_fill,
      Nat.not_lt_zero, if_false, Nat.sub_zero, ArrayPtr.Get, hrun]
  have hlen : b2.length = size := by
    rw [hlen2]
    simp
  refine ⟨h2, SimpleVector.mk p size size, hok, rfl, rfl,
    SimpleVector.WF.pack ⟨Nat.le_refl _, b2, hb2, hlen⟩, ?_,
    (SimpleVector.ofSizeValue_inv.1 _ _ hok).1, hnew⟩
  apply List.ext_getElem?
  intro j
  rw [SimpleVector.elems_getElem?, SimpleVector.buffer_of_array (SimpleVector.mk p size size) hb2,
    hget2 j, List.getElem?_replicate]
  show (if j < size then _ else _) = _
  by_cases hj : j < size
  · rw [if_pos hj, if_pos (show 0 ≤ j ∧ j < 0 + size by omega), if_pos hj]
  · rw [if_neg hj, if_neg hj]

theorem SimpleVector.copy_construct_inv [Inhabited T] {al : Allocator T} {h : Heap T}
    {other : SimpleVector} :
    (∀ h1 c, SimpleVector.copy_construct al h other = .ok (h1, c) →
      Heap.Agree h h1 (fun _ => False) ∧
      (c.p_data_.Get = none ∨ h.array c.p_data_.Get = none) ∧
      c.size_ = other.size_ ∧ c.capacity_ = other.size_) ∧
    (∀ e h1, SimpleVector.copy_construct al h other = .threw e h1 → h1 = h) := by
  unfold SimpleVector.copy_construct SimpleVector.ofSize
  cases hctor : SimpleVector.ofSizeValue al h other.size_ default with
  | ok r =>
    obtain ⟨h2, t⟩ := r
    obtain ⟨hA, hfresh, hsz, hcap⟩ := SimpleVector.ofSizeValue_inv.1 _ _ hctor
    simp only []
    cases hcp : std_copy h2 other.begin_.1 other.begin_.2 other.end_.2 t.begin_.1 t.begin_.2 with
    | none =>
      simp only [hcp]
      exact ⟨fun _ _ hres => (by cases hres), fun _ _ hres => (by cases hres)⟩
    | some h3 =>
      simp only [hcp]
      cases hd : SimpleVector.destroy
          ((SimpleVector.swap ({} : SimpleVector) t).2) h3 with
      | none =>
        simp only [hd]
        exact ⟨fun _ _ hres => (by cases hres), fun _ _ hres => (by cases hres)⟩
      | some h4 =>
        simp only [hd]
        constructor
        · intro h1 c hres
          cases hres
          refine ⟨?_, hfresh, hsz, hcap⟩
          apply Heap.Agree.drop_fresh _ hfresh
          have hB1 : Heap.Agree h h2 (fun q => False ∨ q = t.p_data_.Get) :=
            hA.mono (fun _ hf => Or.inl hf)
          have hB2 : Heap.Agree h2 h3 (fun q => False ∨ q = t.p_data_.Get) :=
            (std_copy_frame hcp).mono (fun _ hq => Or.inr hq)
          have hd0 : h3.delete_array none = some h4 := hd
          cases hd0
          exact hB1.trans hB2
        · intro e h1 hres
          cases hres
  | threw e st =>
    simp only []
    constructor
    · intro h1 c hres
      cases hres
    · intro e1 h1 hres
      cases hres
      exact SimpleVector.ofSizeValue_inv.2 _ _ hctor
  | abort =>
    simp only []
    exact ⟨fun _ _ hres => (by cases hres), fun _ _ hres => (by cases hres)⟩
  | undefined =>
    simp only []
    exact ⟨fun _ _ hres => (by cases hres), fun _ _ hres => (by cases hres)⟩

/-- The copy constructor on a well-formed source, when the allocation succeeds:
the copy has the size and the elements of the source, capacity equal to that size,
and lives in an array that was not live before; no live array is changed. -/
theorem SimpleVector.copy_construct_spec [Inhabited T] (al : Allocator T) {h : Heap T}
    {s : SimpleVector} (hwf : SimpleVector.WF h s) (hal : al.fails s.size_ = false) :
    ∃ h1 c, SimpleVector.copy_construct al h s = .ok (h1, c) ∧ c.size_ = s.size_ ∧
      c.capacity_ = s.size_ ∧ SimpleVector.WF h1 c ∧
      SimpleVector.elems h1 c = SimpleVector.elems h s ∧ Heap.Agree h h1 (fun _ => False) ∧
      (c.p_data_.Get = none ∨ h.array c.p_data_.Get = none) := by
  obtain ⟨h1, t, hctor, hsz, hcap, hwft, _, hA1, hnew⟩ :=
    SimpleVector.ofSizeValue_spec al h s.size_ default hal
  obtain ⟨hle, b, hb, hlen⟩ := SimpleVector.WF.unpack hwf
  obtain ⟨_, bt, hbt, hlent⟩ := SimpleVector.WF.unpack hwft
  have hb1 : h1.array s.p_data_.Get = some b := hA1 _ b hb (fun hf => hf)
  have hcopy : ∃ h2 bd, std_copy h1 s.p_data_.Get 0 s.size_ t.p_data_.Get 0 = some h2 ∧
      h2.array t.p_data_.Get = some bd ∧ bd.length = s.size_ ∧
      (∀ j, j < s.size_ → bd[j]? = b[j]?) := by
    by_cases hs0 : s.size_ = 0
    · refine ⟨h1, bt, ?_, hbt, by omega, fun j hj => by omega⟩
      rw [hs0]
      exact std_copy_empty h1 _ _ 0 0
    · have hne : s.p_data_.Get ≠ t.p_data_.Get := by
        intro hc
        rw [← hc, hb] at hnew
        exact absurd (hnew hs0) (by simp)
      obtain ⟨h2, bd, hcp, hbd, hlbd, hget, _, _⟩ :=
        std_copy_spec hne hb1 hbt 0 s.size_ 0 (Nat.zero_le _) (by omega) (by omega)
      refine ⟨h2, bd, hcp, hbd, by omega, fun j hj => ?_⟩
      rw [hget j, if_pos (show 0 ≤ j ∧ j < 0 + (s.size_ - 0) by omega),
        show 0 + (j - 0) = j by omega]
  obtain ⟨h2, bd, hcp, hbd, hlbd, hget⟩ := hcopy
  have hok : SimpleVector.copy_construct al h s =
      .ok (h2, SimpleVector.mk (ArrayPtr.mk t.p_data_.raw_ptr_) t.size_ t.capacity_) := by
    simp only [ArrayPtr.Get] at hcp
    simp only [SimpleVector.copy_construct, SimpleVector.ofSize, hctor, SimpleVector.begin_,
      SimpleVector.end_, ArrayPtr.Get, hcp, SimpleVector.swap, ArrayPtr.swap,
      SimpleVector.destroy, ArrayPtr.destroy, Heap.delete_array]
  refine ⟨h2, _, hok, hsz, hcap, SimpleVector.WF.pack ⟨by show t.size_ ≤ t.capacity_; omega,
    bd, hbd, by show bd.length = t.capacity_; omega⟩, ?_, (SimpleVector.copy_construct_inv.1 _ _ hok).1,
    (SimpleVector.copy_construct_inv.1 _ _ hok).2.1⟩
  apply List.ext_getElem?
  intro j
  rw [SimpleVector.elems_getElem?, SimpleVector.elems_getElem?,
    SimpleVector.buffer_of_array
      (SimpleVector.mk (ArrayPtr.mk t.p_data_.raw_ptr_) t.size_ t.capacity_) hbd,
    SimpleVector.buffer_of_array s hb]
  show (if j < t.size_ then _ else _) = _
  rw [hsz]
  by_cases hj : j < s.size_
  · rw [if_pos hj, if_pos hj, hget j hj]
  · rw [if_neg hj, if_neg hj]

/-- If the array a vector owns is the same in two free stores, the vector stands
for the same sequence in both and is well-formed in both. -/
theorem SimpleVector.same_array {h h1 : Heap T} {s : SimpleVector} {b : List T}
    (hb : h.array s.p_data_.Get = some b) (hb1 : h1.array s.p_data_.Get = some b) :
    SimpleVector.buffer h1 s = SimpleVector.buffer h s ∧
    SimpleVector.elems h1 s = SimpleVector.elems h s ∧
    (SimpleVector.WF h s → SimpleVector.WF h1 s) := by
  have hbuf : SimpleVector.buffer h1 s = SimpleVector.buffer h s := by
    rw [SimpleVector.buffer_of_array s hb, SimpleVector.buffer_of_array s hb1]
  refine ⟨hbuf, ?_, ?_⟩
  · unfold SimpleVector.elems
    rw [hbuf]
  · intro hwf
    obtain ⟨hle, b0, hb0, hlen⟩ := SimpleVector.WF.unpack hwf
    rw [hb] at hb0
    cases hb0
    exact SimpleVector.WF.pack ⟨hle, b, hb1, hlen⟩

/-- C8. Copy construction from a well-formed `s` returns a vector `c` with the
size of `s` and the same element at every index below it, so `c == s`; the copy
itself leaves `s` as it was, and so does every later series of member calls on
`c` (element writes, `PushBack`, `Insert`, `Erase`, `PopBack`, `Resize`,
`Reserve`, `Clear`, with any arguments and any allocator behaviour): the array of
`s`, hence its elements, is unchanged, and the counters of `s` are not reachable
from a call on `c`.  The allocation of the copy is assumed to succeed. -/
theorem copy_construct_independent {T : Type} [Inhabited T] [DecidableEq T] (al : Allocator T)
    (hal : ∀ n, al.fails n = false) (h : Heap T) (s : SimpleVector)
    (hwf : SimpleVector.WF h s) :
    ∃ h1 c, SimpleVector.copy_construct al h s = .ok (h1, c) ∧ c.GetSize = s.GetSize ∧
      (∀ i, i < s.GetSize → SimpleVector.read h1 c i = SimpleVector.read h s i) ∧
      SimpleVector.elems h1 c = SimpleVector.elems h s ∧
      SimpleVector.eq h1 c s = some true ∧
      SimpleVector.WF h1 s ∧ SimpleVector.elems h1 s = SimpleVector.elems h s ∧
      (∀ ms h2 c2, SimpleVector.mutate_all h1 c ms = some (h2, c2) →
        SimpleVector.WF h2 s ∧ SimpleVector.elems h2 s = SimpleVector.elems h s ∧
        SimpleVector.buffer h2 s = SimpleVector.buffer h s) := by
  obtain ⟨h1, c, hok, hsz, _, hwfc, hel, hA, hfresh⟩ :=
    SimpleVector.copy_construct_spec al hwf (hal _)
  obtain ⟨_, b, hb, _⟩ := SimpleVector.WF.unpack hwf
  have hb1 : h1.array s.p_data_.Get = some b := hA _ b hb (fun hf => hf)
  obtain ⟨hbuf1, hel1, hwf1⟩ := SimpleVector.same_array hb hb1
  refine ⟨h1, c, hok, hsz, ?_, hel, ?_, hwf1 hwf, hel1, ?_⟩
  · intro i hi
    have hi0 : i < s.size_ := hi
    rw [SimpleVector.read_eq_elems hwfc (show i < c.size_ by omega),
      SimpleVector.read_eq_elems hwf hi0, hel]
  · rw [SimpleVector.eq_spec hwfc (hwf1 hwf), hel, hel1]
    simp
  · intro ms h2 c2 hrun
    obtain ⟨hA2, _⟩ := SimpleVector.mutate_all_frame ms _ _ _ _ hrun
    have hb2 : h2.array s.p_data_.Get = some b := by
      by_cases hsc : s.p_data_.Get = c.p_data_.Get
      · rcases hfresh with hnone | hfr
        · rw [hsc, hnone] at hb ⊢
          rw [Heap.array_none_eq hb]
          rfl
        · rw [← hsc, hb] at hfr
          cases hfr
      · exact hA2 _ b hb1 hsc
    obtain ⟨hbuf2, hel2, hwf2⟩ := SimpleVector.same_array hb hb2
    exact ⟨hwf2 hwf, hel2, hbuf2⟩

/-- C8, at a concrete input: `[1, 2, 3]` is copied, then the copy is overwritten,
grown and cleared; the original still reads `[1, 2, 3]`. -/
theorem copy_construct_independent_witness :
    SimpleVector.WF ([some [1, 2, 3]] : Heap Int) (SimpleVector.mk (ArrayPtr.mk (some 0)) 3 3) ∧
    (∃ h1 c h2 c2, SimpleVector.copy_construct (Allocator.ofDefault (0 : Int)) [some [1, 2, 3]]
        (SimpleVector.mk (ArrayPtr.mk (some 0)) 3 3) = .ok (h1, c) ∧
      SimpleVector.elems h1 c = [1, 2, 3] ∧
      SimpleVector.mutate_all h1 c
        [.assign_index 0 9, .PushBack (Allocator.ofDefault 0) 4, .Erase false 1, .Clear]
        = some (h2, c2) ∧
      SimpleVector.elems h2 (SimpleVector.mk (ArrayPtr.mk (some 0)) 3 3) = [1, 2, 3]) := by
  have hwf : SimpleVector.WF ([some [1, 2, 3]] : Heap Int)
      (SimpleVector.mk (ArrayPtr.mk (some 0)) 3 3) := by decide
  obtain ⟨h1, c, hok, _, _, hel, _, _, _, hind⟩ :=
    copy_construct_independent (Allocator.ofDefault (0 : Int)) (fun _ => rfl) [some [1, 2, 3]]
      (SimpleVector.mk (ArrayPtr.mk (some 0)) 3 3) hwf
  have hval : SimpleVector.copy_construct (Allocator.ofDefault (0 : Int)) [some [1, 2, 3]]
      (SimpleVector.mk (ArrayPtr.mk (some 0)) 3 3) =
      .ok ([some [1, 2, 3], some [1, 2, 3]], SimpleVector.mk (ArrayPtr.mk (some 1)) 3 3) := rfl
  rw [hval] at hok
  cases hok
  have hrun : SimpleVector.mutate_all ([some [1, 2, 3], some [1, 2, 3]] : Heap Int)
      (SimpleVector.mk (ArrayPtr.mk (some 1)) 3 3)
      [.assign_index 0 9, .PushBack (Allocator.ofDefault 0) 4, .Erase false 1, .Clear]
      = some ([some [1, 2, 3], none, some [9, 3, 4, 4, 0, 0, 0, 0]],
          SimpleVector.mk (ArrayPtr.mk (some 2)) 0 8) := rfl
  exact ⟨hwf, _, _, _, _, rfl, hel, hrun, (hind _ _ _ hrun).2.1⟩

end Construction

/-! ## The invariant `size <= capacity` -/

section Invariant

variable {T : Type}

theorem SimpleVector.copy_assign_le [Inhabited T] {al : Allocator T} {h h1 : Heap T}
    {same : Bool} {self rhs a1 : SimpleVector}
    (hres : (SimpleVector.copy_assign al h same self rhs).continues id = some (h1, a1))
    (hself : self.size_ ≤ self.capacity_) : a1.size_ ≤ a1.capacity_ := by
  unfold SimpleVector.copy_assign at hres
  cases same with
  | true =>
    simp only [if_true, Outcome.continues, id, Option.some.injEq, Prod.mk.injEq] at hres
    obtain ⟨_, rfl⟩ := hres
    exact hself
  | false =>
    simp only [Bool.false_eq_true, if_false] at hres
    cases hcc : SimpleVector.copy_construct al h rhs with
    | ok r =>
      obtain ⟨h2, t⟩ := r
      obtain ⟨_, _, hsz, hcap⟩ := SimpleVector.copy_construct_inv.1 _ _ hcc
      simp only [hcc] at hres
      cases hd : ArrayPtr.destroy (self.swap t).2.p_data_ h2 with
      | none => simp [SimpleVector.destroy, hd, Outcome.continues] at hres
      | some h3 =>
        simp only [SimpleVector.destroy, hd, Outcome.continues, id, Option.some.injEq,
          Prod.mk.injEq] at hres
        obtain ⟨_, rfl⟩ := hres
        show t.size_ ≤ t.capacity_
        omega
    | threw e st =>
      simp only [hcc, Outcome.continues, Option.some.injEq, Prod.mk.injEq] at hres
      obtain ⟨_, rfl⟩ := hres
      exact hself
    | abort => simp [hcc, Outcome.continues] at hres
    | undefined => simp [hcc, Outcome.continues] at hres

theorem SimpleVector.move_assign_le [Inhabited T] {al : Allocator T} {h h1 : Heap T}
    {same : Bool} {self other a1 b1 : SimpleVector}
    (hres : (SimpleVector.move_assign al h same self other).continues id = some (h1, a1, b1))
    (hself : self.size_ ≤ self.capacity_) (hother : other.size_ ≤ other.capacity_) :
    a1.size_ ≤ a1.capacity_ ∧ b1.size_ ≤ b1.capacity_ := by
  unfold SimpleVector.move_assign at hres
  cases same with
  | true =>
    simp only [if_true, Outcome.continues, id, Option.some.injEq, Prod.mk.injEq] at hres
    obtain ⟨_, rfl, rfl⟩ := hres
    exact ⟨hself, hself⟩
  | false =>
    simp only [Bool.false_eq_true, if_false] at hres
    cases hcc : SimpleVector.copy_construct al h other with
    | ok r =>
      obtain ⟨h2, t⟩ := r
      simp only [hcc] at hres
      cases hd : SimpleVector.destroy t h2 with
      | none => simp [hd, Outcome.continues] at hres
      | some h3 =>
        simp only [hd, Outcome.continues, id, Option.some.injEq, Prod.mk.injEq] at hres
        obtain ⟨_, rfl, rfl⟩ := hres
        exact ⟨hother, hself⟩
    | threw e st =>
      simp only [hcc, Outcome.continues, Option.some.injEq, Prod.mk.injEq] at hres
      obtain ⟨_, rfl, rfl⟩ := hres
      exact ⟨hself, hother⟩
    | abort => simp [hcc, Outcome.continues] at hres
    | undefined => simp [hcc, Outcome.continues] at hres

theorem mem_append_singleton_le {vars : List SimpleVector} {s1 : SimpleVector}
    (hinv : ∀ s ∈ vars, s.size_ ≤ s.capacity_) (h1 : s1.size_ ≤ s1.capacity_) :
    ∀ s ∈ vars ++ [s1], s.size_ ≤ s.capacity_ := by
  intro s hs
  rw [List.mem_append, List.mem_singleton] at hs
  cases hs with
  | inl hm => exact hinv s hm
  | inr he =>
    rw [he]
    exact h1

theorem mem_set_le {vars : List SimpleVector} {s1 : SimpleVector} (i : Nat)
    (hinv : ∀ s ∈ vars, s.size_ ≤ s.capacity_) (h1 : s1.size_ ≤ s1.capacity_) :
    ∀ s ∈ vars.set i s1, s.size_ ≤ s.capacity_ := by
  intro s hs
  cases List.mem_or_eq_of_mem_set hs with
  | inl hm => exact hinv s hm
  | inr he =>
    rw [he]
    exact h1

/-- In exact arithmetic one step of a client program keeps `size <= capacity` for
every object. -/
theorem World.step_le [Inhabited T] {w w1 : World T} {c : Call T}
    (hinv : ∀ s ∈ w.vars, s.size_ ≤ s.capacity_) (hstep : w.step c = some w1) :
    ∀ s ∈ w1.vars, s.size_ ≤ s.capacity_ := by
  cases c with
  | construct_default =>
    simp only [World.step, Option.some.injEq] at hstep
    subst hstep
    exact mem_append_singleton_le hinv (Nat.le_refl 0)
  | construct_size_value al size value =>
    simp only [World.step] at hstep
    cases hc : SimpleVector.ofSizeValue al w.heap size value with
    | ok r =>
      obtain ⟨h1, s1⟩ := r
      obtain ⟨_, _, hsz, hcap⟩ := SimpleVector.ofSizeValue_inv.1 _ _ hc
      simp only [hc, Option.some.injEq] at hstep
      subst hstep
      exact mem_append_singleton_le hinv (by omega)
    | threw e st =>
      simp only [hc, Option.some.injEq] at hstep
      subst hstep
      exact hinv
    | abort => simp [hc] at hstep
    | undefined => simp [hc] at hstep
  | construct_size al size =>
    simp only [World.step, SimpleVector.ofSize] at hstep
    cases hc : SimpleVector.ofSizeValue al w.heap size default with
    | ok r =>
      obtain ⟨h1, s1⟩ := r
      obtain ⟨_, _, hsz, hcap⟩ := SimpleVector.ofSizeValue_inv.1 _ _ hc
      simp only [hc, Option.some.injEq] at hstep
      subst hstep
      exact mem_append_singleton_le hinv (by omega)
    | threw e st =>
      simp only [hc, Option.some.injEq] at hstep
      subst hstep
      exact hinv
    | abort => simp [hc] at hstep
    | undefined => simp [hc] at hstep
  | construct_reserve al capacity_to_reserve =>
    simp only [World.step, SimpleVector.ofReserve, SimpleVector.ofSize] at hstep
    cases hc : SimpleVector.ofSizeValue al w.heap (Reserve capacity_to_reserve).GetCapacity
        default with
    | ok r =>
      obtain ⟨h1, s1⟩ := r
      simp only [hc, Option.some.injEq] at hstep
      subst hstep
      exact mem_append_singleton_le hinv (Nat.zero_le _)
    | threw e st =>
      simp only [hc, Option.some.injEq] at hstep
      subst hstep
      exact hinv
    | abort => simp [hc] at hstep
    | undefined => simp [hc] at hstep
  | construct_copy al other =>
    simp only [World.step] at hstep
    cases ho : w.vars[other]? with
    | none => simp [ho] at hstep
    | some o =>
      simp only [ho] at hstep
      cases hc : SimpleVector.copy_construct al w.heap o with
      | ok r =>
        obtain ⟨h1, s1⟩ := r
        obtain ⟨_, _, hsz, hcap⟩ := SimpleVector.copy_construct_inv.1 _ _ hc
        simp only [hc, Option.some.injEq] at hstep
        subst hstep
        exact mem_append_singleton_le hinv (by omega)
      | threw e st =>
        simp only [hc, Option.some.injEq] at hstep
        subst hstep
        exact hinv
      | abort => simp [hc] at hstep
      | undefined => simp [hc] at hstep
  | construct_move other =>
    simp only [World.step] at hstep
    cases ho : w.vars[other]? with
    | none => simp [ho] at hstep
    | some o =>
      simp only [ho, Option.some.injEq] at hstep
      subst hstep
      exact mem_append_singleton_le (mem_set_le other hinv (Nat.le_refl 0))
        (hinv o (List.getElem?_mem ho))
  | assign_copy al self rhs =>
    simp only [World.step] at hstep
    cases ha : w.vars[self]? with
    | none => simp [ha] at hstep
    | some a =>
      cases hb : w.vars[rhs]? with
      | none => simp [ha, hb] at hstep
      | some b =>
        simp only [ha, hb] at hstep
        have hale := hinv a (List.getElem?_mem ha)
        cases hc : SimpleVector.copy_assign al w.heap (self == rhs) a b with
        | ok r =>
          obtain ⟨h1, a1⟩ := r
          have hle := SimpleVector.copy_assign_le
            (show (SimpleVector.copy_assign al w.heap (self == rhs) a b).continues id
              = some (h1, a1) by rw [hc]; rfl) hale
          simp only [hc, Option.some.injEq] at hstep
          subst hstep
          exact mem_set_le self hinv hle
        | threw e st =>
          obtain ⟨h1, a1⟩ := st
          have hle := SimpleVector.copy_assign_le
            (show (SimpleVector.copy_assign al w.heap (self == rhs) a b).continues id
              = some (h1, a1) by rw [hc]; rfl) hale
          simp only [hc, Option.some.injEq] at hstep
          subst hstep
          exact mem_set_le self hinv hle
        | abort => simp [hc] at hstep
        | undefined => simp [hc] at hstep
  | assign_move al self other =>
    simp only [World.step] at hstep
    cases ha : w.vars[self]? with
    | none => simp [ha] at hstep
    | some a =>
      cases hb : w.vars[other]? with
      | none => simp [ha, hb] at hstep
      | some b =>
        simp only [ha, hb] at hstep
        have hale := hinv a (List.getElem?_mem ha)
        have hble := hinv b (List.getElem?_mem hb)
        cases hc : SimpleVector.move_assign al w.heap (self == other) a b with
        | ok r =>
          obtain ⟨h1, a1, b1⟩ := r
          have hle := SimpleVector.move_assign_le
            (show (SimpleVector.move_assign al w.heap (self == other) a b).continues id
              = some (h1, a1, b1) by rw [hc]; rfl) hale hble
          simp only [hc, Option.some.injEq] at hstep
          subst hstep
          exact mem_set_le self (mem_set_le other hinv hle.2) hle.1
        | threw e st =>
          obtain ⟨h1, a1, b1⟩ := st
          have hle := SimpleVector.move_assign_le
            (show (SimpleVector.move_assign al w.heap (self == other) a b).continues id
              = some (h1, a1, b1) by rw [hc]; rfl) hale hble
          simp only [hc, Option.some.injEq] at hstep
          subst hstep
          exact mem_set_le self (mem_set_le other hinv hle.2) hle.1
        | abort => simp [hc] at hstep
        | undefined => simp [hc] at hstep
  | swap self other =>
    simp only [World.step] at hstep
    cases ha : w.vars[self]? with
    | none => simp [ha] at hstep
    | some a =>
      cases hb : w.vars[other]? with
      | none => simp [ha, hb] at hstep
      | some b =>
        simp only [ha, hb] at hstep
        have hale := hinv a (List.getElem?_mem ha)
        have hble := hinv b (List.getElem?_mem hb)
        by_cases hso : self = other
        · rw [if_pos hso] at hstep
          cases hstep
          exact hinv
        · rw [if_neg hso] at hstep
          cases hstep
          exact mem_set_le self (mem_set_le other hinv hale) hble
  | member self m =>
    simp only [World.step] at hstep
    cases hc : w.vars[self]? with
    | none => simp [hc] at hstep
    | some c =>
      simp only [hc] at hstep
      by_cases hpre : m.pre c = true
      · rw [if_pos hpre] at hstep
        cases hm : c.mutate w.heap m with
        | none => simp [hm] at hstep
        | some r =>
          obtain ⟨h1, c1⟩ := r
          simp only [hm, Option.some.injEq] at hstep
          subst hstep
          exact mem_set_le self hinv
            ((SimpleVector.mutate_inv hm).2 (hinv c (List.getElem?_mem hc)) hpre)
      · rw [if_neg hpre] at hstep
        cases hstep

/-- In exact arithmetic a client program keeps `size <= capacity` for every object:
constructor calls, copy and move construction and assignment, `swap`, and the
members `PushBack`, `Insert`, `Erase`, `PopBack`, `Resize`, `Reserve`, `Clear` and
element writes, each within its precondition, with any allocator behaviour and
with exceptions caught. -/
theorem World.run_le [Inhabited T] (calls : List (Call T)) :
    ∀ (w w1 : World T), (∀ s ∈ w.vars, s.size_ ≤ s.capacity_) → World.run w calls = some w1 →
      ∀ s ∈ w1.vars, s.size_ ≤ s.capacity_ := by
  induction calls with
  | nil =>
    intro w w1 hinv hrun
    cases hrun
    exact hinv
  | cons c cs ih =>
    intro w w1 hinv hrun
    unfold World.run at hrun
    cases hs : w.step c with
    | none => simp [hs] at hrun
    | some w2 =>
      simp only [hs] at hrun
      exact ih w2 w1 (World.step_le hinv hs) hrun

end Invariant

/-! ## Ordering -/

section Ordering

variable {T : Type}

/-- The loop of `std::lexicographical_compare` on two live arrays computes `lex_lt`
of the two ranges. -/
theorem std_lexicographical_compare_loop_spec [LT T] [∀ a b : T, Decidable (a < b)]
    {h : Heap T} {p1 p2 : RawPtr} {b1 b2 : List T}
    (h1 : h.array p1 = some b1) (h2 : h.array p2 = some b2) (n1 : Nat) :
    ∀ n2 i j, i + n1 ≤ b1.length → j + n2 ≤ b2.length →
      std_lexicographical_compare_loop h p1 p2 n1 n2 i j =
        some (lex_lt ((b1.drop i).take n1) ((b2.drop j).take n2)) := by
  induction n1 with
  | zero =>
    intro n2 i j _ hj
    cases n2 with
    | zero => simp [std_lexicographical_compare_loop, lex_lt]
    | succ m =>
      have hj1 : j < b2.length := by omega
      rw [List.drop_eq_getElem_cons hj1, List.take_succ_cons]
      simp [std_lexicographical_compare_loop, lex_lt]
  | succ n ih =>
    intro n2 i j hi hj
    have hi1 : i < b1.length := by omega
    cases n2 with
    | zero =>
      rw [List.drop_eq_getElem_cons hi1, List.take_succ_cons]
      simp [std_lexicographical_compare_loop, lex_lt]
    | succ m =>
      have hj1 : j < b2.length := by omega
      have hl1 : h.load p1 i = some b1[i] := by
        rw [Heap.load_of_array h1, List.getElem?_eq_getElem hi1]
      have hl2 : h.load p2 j = some b2[j] := by
        rw [Heap.load_of_array h2, List.getElem?_eq_getElem hj1]
      simp only [std_lexicographical_compare_loop, hl1, hl2]
      rw [List.drop_eq_getElem_cons hi1, List.drop_eq_getElem_cons hj1, List.take_succ_cons,
        List.take_succ_cons]
      simp only [lex_lt]
      by_cases hxy : b1[i] < b2[j]
      · rw [if_pos hxy, if_pos hxy]
      · rw [if_neg hxy, if_neg hxy]
        by_cases hyx : b2[j] < b1[i]
        · rw [if_pos hyx, if_pos hyx]
        · rw [if_neg hyx, if_neg hyx]
          exact ih m (i + 1) (j + 1) (by omega) (by omega)

/-- The operator `<` on well-formed vectors is `lex_lt` of the two sequences. -/
theorem SimpleVector.lt_spec [LT T] [∀ a b : T, Decidable (a < b)] {h : Heap T}
    {a b : SimpleVector} (hwa : SimpleVector.WF h a) (hwb : SimpleVector.WF h b) :
    SimpleVector.lt h a b = some (lex_lt (SimpleVector.elems h a) (SimpleVector.elems h b)) := by
  obtain ⟨hlea, ba, hba, hlena⟩ := SimpleVector.WF.unpack hwa
  obtain ⟨hleb, bb, hbb, hlenb⟩ := SimpleVector.WF.unpack hwb
  unfold SimpleVector.lt std_lexicographical_compare
  simp only [SimpleVector.begin_, SimpleVector.end_, Nat.not_lt_zero, or_self, if_false,
    Nat.sub_zero]
  rw [std_lexicographical_compare_loop_spec hba hbb a.size_ b.size_ 0 0 (by omega) (by omega)]
  simp only [SimpleVector.elems, SimpleVector.buffer_of_array a hba,
    SimpleVector.buffer_of_array b hbb, List.drop_zero]

/-- Over a strict total order, `lex_lt l1 l2` holds exactly when `l1` is smaller at
the first index where the lists differ, or `l1` is a proper prefix of `l2`. -/
theorem lex_lt_iff [LinearOrder T] (l1 : List T) :
    ∀ l2 : List T, lex_lt l1 l2 = true ↔
      ((∃ (k : Nat) (x y : T), (∀ i, i < k → l1[i]? = l2[i]?) ∧ l1[k]? = some x ∧
          l2[k]? = some y ∧ x < y) ∨
       (l1.length < l2.length ∧ ∀ i, i < l1.length → l1[i]? = l2[i]?)) := by
  induction l1 with
  | nil =>
    intro l2
    cases l2 with
    | nil =>
      simp only [lex_lt, Bool.false_eq_true, false_iff]
      rintro (⟨k, x, y, _, hx, _⟩ | ⟨hlen, _⟩)
      · simp at hx
      · simp at hlen
    | cons y ys =>
      simp only [lex_lt, true_iff]
      exact Or.inr ⟨by simp, fun i hi => by simp at hi⟩
  | cons x xs ih =>
    intro l2
    cases l2 with
    | nil =>
      simp only [lex_lt, Bool.false_eq_true, false_iff]
      rintro (⟨k, x1, y1, _, _, hy, _⟩ | ⟨hlen, _⟩)
      · simp at hy
      · simp at hlen
    | cons y ys =>
      simp only [lex_lt]
      by_cases hxy : x < y
      · rw [if_pos hxy]
        simp only [true_iff]
        exact Or.inl ⟨0, x, y, fun i hi => by omega, List.getElem?_cons_zero,
          List.getElem?_cons_zero, hxy⟩
      · rw [if_neg hxy]
        by_cases hyx : y < x
        · rw [if_pos hyx]
          simp only [Bool.false_eq_true, false_iff]
          rintro (⟨k, x1, y1, hpre, hx1, hy1, hlt⟩ | ⟨_, hpre⟩)
          · cases k with
            | zero =>
              simp only [List.getElem?_cons_zero, Option.some.injEq] at hx1 hy1
              rw [← hx1, ← hy1] at hlt
              exact hxy hlt
            | succ k =>
              have h0 := hpre 0 (by omega)
              simp only [List.getElem?_cons_zero, Option.some.injEq] at h0
              rw [h0] at hyx
              exact lt_irrefl _ hyx
          · have h0 := hpre 0 (by simp)
            simp only [List.getElem?_cons_zero, Option.some.injEq] at h0
            rw [h0] at hyx
            exact lt_irrefl _ hyx
        · rw [if_neg hyx, ih ys]
          have hEq : x = y := le_antisymm (not_lt.mp hyx) (not_lt.mp hxy)
          constructor
          · rintro (⟨k, x1, y1, hpre, hx1, hy1, hlt⟩ | ⟨hlen, hpre⟩)
            · refine Or.inl ⟨k + 1, x1, y1, ?_, ?_, ?_, hlt⟩
              · intro i hi
                cases i with
                | zero => simp [hEq]
                | succ i =>
                  simp only [List.getElem?_cons_succ]
                  exact hpre i (by omega)
              · simpa using hx1
              · simpa using hy1
            · refine Or.inr ⟨by simpa using hlen, ?_⟩
              intro i hi
              cases i with
              | zero => simp [hEq]
              | succ i =>
                simp only [List.getElem?_cons_succ]
                exact hpre i (by simp at hi; omega)
          · rintro (⟨k, x1, y1, hpre, hx1, hy1, hlt⟩ | ⟨hlen, hpre⟩)
            · cases k with
              | zero =>
                simp only [List.getElem?_cons_zero, Option.some.injEq] at hx1 hy1
                rw [← hx1, ← hy1] at hlt
                exact absurd hlt hxy
              | succ k =>
                refine Or.inl ⟨k, x1, y1, ?_, by simpa using hx1, by simpa using hy1, hlt⟩
                intro i hi
                have := hpre (i + 1) (by omega)
                simpa using this
            · refine Or.inr ⟨by simpa using hlen, ?_⟩
              intro i hi
              have := hpre (i + 1) (by simp; omega)
              simpa using this

/-- Over a strict total order, `!(l2 < l1)` is `l1 < l2 || l1 == l2`. -/
theorem lex_lt_not_flip [LinearOrder T] (l1 : List T) :
    ∀ l2 : List T, (!lex_lt l2 l1) = (lex_lt l1 l2 || decide (l1 = l2)) := by
  induction l1 with
  | nil =>
    intro l2
    cases l2 with
    | nil => simp [lex_lt]
    | cons y ys => simp [lex_lt]
  | cons x xs ih =>
    intro l2
    cases l2 with
    | nil => simp [lex_lt]
    | cons y ys =>
      simp only [lex_lt]
      by_cases hxy : x < y
      · have hyx : ¬ y < x := lt_asymm hxy
        simp [hxy, hyx]
      · by_cases hyx : y < x
        · have hne : ¬ x = y := fun hc => by
            rw [hc] at hyx
            exact lt_irrefl _ hyx
          simp [hxy, hyx, hne]
        · have hEq : x = y := le_antisymm (not_lt.mp hyx) (not_lt.mp hxy)
          subst hEq
          simp only [lt_irrefl, if_false, ih ys, List.cons.injEq, true_and]

/-- C11. Over a strict total order, on well-formed vectors all four ordering
operators return, and `a < b` is the lexicographic comparison of the sequences
`a[0..size(a))` and `b[0..size(b))`: it is true exactly when `a`'s element is the
smaller one at the first index where the two differ, or `a` is a proper prefix of
`b`.  Further `a <= b` is `a < b || a == b`, `a > b` is `b < a`, and `a >= b` is
`!(a < b)`. -/
theorem lt_is_lexicographic {T : Type} [LinearOrder T] (h : Heap T) (a b : SimpleVector)
    (hwa : SimpleVector.WF h a) (hwb : SimpleVector.WF h b) :
    ∃ lt_ab lt_ba eq_ab, SimpleVector.lt h a b = some lt_ab ∧
      SimpleVector.lt h b a = some lt_ba ∧ SimpleVector.eq h a b = some eq_ab ∧
      (lt_ab = true ↔
        ((∃ (k : Nat) (x y : T), k < a.GetSize ∧ k < b.GetSize ∧
            (∀ i, i < k → SimpleVector.read h a i = SimpleVector.read h b i) ∧
            SimpleVector.read h a k = some x ∧ SimpleVector.read h b k = some y ∧ x < y) ∨
         (a.GetSize < b.GetSize ∧
            ∀ i, i < a.GetSize → SimpleVector.read h a i = SimpleVector.read h b i))) ∧
      lt_ab = lex_lt (SimpleVector.elems h a) (SimpleVector.elems h b) ∧
      SimpleVector.le h a b = some (lt_ab || eq_ab) ∧
      SimpleVector.gt h a b = some lt_ba ∧
      SimpleVector.ge h a b = some (!lt_ab) := by
  have hla := SimpleVector.elems_length hwa
  have hlb := SimpleVector.elems_length hwb
  refine ⟨_, _, _, SimpleVector.lt_spec hwa hwb, SimpleVector.lt_spec hwb hwa,
    SimpleVector.eq_spec hwa hwb, ?_, rfl, ?_, ?_, ?_⟩
  · rw [lex_lt_iff]
    constructor
    · rintro (⟨k, x, y, hpre, hx, hy, hlt⟩ | ⟨hlen, hpre⟩)
      · have hka : k < a.size_ := by
          have := (List.getElem?_eq_some.mp hx).1
          omega
        have hkb : k < b.size_ := by
          have := (List.getElem?_eq_some.mp hy).1
          omega
        refine Or.inl ⟨k, x, y, hka, hkb, ?_, ?_, ?_, hlt⟩
        · intro i hi
          rw [SimpleVector.read_eq_elems hwa (show i < a.size_ by omega),
            SimpleVector.read_eq_elems hwb (show i < b.size_ by omega)]
          exact hpre i hi
        · rw [SimpleVector.read_eq_elems hwa hka]
          exact hx
        · rw [SimpleVector.read_eq_elems hwb hkb]
          exact hy
      · refine Or.inr ⟨by show a.size_ < b.size_; omega, ?_⟩
        intro i hi
        have hi0 : i < a.size_ := hi
        rw [SimpleVector.read_eq_elems hwa hi0,
          SimpleVector.read_eq_elems hwb (show i < b.size_ by omega)]
        exact hpre i (by omega)
    · rintro (⟨k, x, y, hka, hkb, hpre, hx, hy, hlt⟩ | ⟨hlen, hpre⟩)
      · have hka0 : k < a.size_ := hka
        have hkb0 : k < b.size_ := hkb
        refine Or.inl ⟨k, x, y, ?_, ?_, ?_, hlt⟩
        · intro i hi
          rw [← SimpleVector.read_eq_elems hwa (show i < a.size_ by omega),
            ← SimpleVector.read_eq_elems hwb (show i < b.size_ by omega)]
          exact hpre i hi
        · rw [← SimpleVector.read_eq_elems hwa hka0]
          exact hx
        · rw [← SimpleVector.read_eq_elems hwb hkb0]
          exact hy
      · have hlen0 : a.size_ < b.size_ := hlen
        refine Or.inr ⟨by omega, ?_⟩
        intro i hi
        rw [← SimpleVector.read_eq_elems hwa (show i < a.size_ by omega),
          ← SimpleVector.read_eq_elems hwb (show i < b.size_ by omega)]
        exact hpre i (by show i < a.size_; omega)
  · unfold SimpleVector.le
    rw [SimpleVector.lt_spec hwb hwa, Option.map_some', lex_lt_not_flip]
  · exact SimpleVector.lt_spec hwb hwa
  · unfold SimpleVector.ge
    rw [SimpleVector.lt_spec hwa hwb]
    rfl

/-- C11, at a concrete input: `[1, 2] < [1, 2, 3]`, and `[1, 2] <= [1, 2, 3]`. -/
theorem lt_is_lexicographic_witness :
    SimpleVector.WF ([some [1, 2], some [1, 2, 3]] : Heap Int)
      (SimpleVector.mk (ArrayPtr.mk (some 0)) 2 2) ∧
    SimpleVector.WF ([some [1, 2], some [1, 2, 3]] : Heap Int)
      (SimpleVector.mk (ArrayPtr.mk (some 1)) 3 3) ∧
    SimpleVector.lt ([some [1, 2], some [1, 2, 3]] : Heap Int)
      (SimpleVector.mk (ArrayPtr.mk (some 0)) 2 2) (SimpleVector.mk (ArrayPtr.mk (some 1)) 3 3)
      = some true ∧
    SimpleVector.le ([some [1, 2], some [1, 2, 3]] : Heap Int)
      (SimpleVector.mk (ArrayPtr.mk (some 0)) 2 2) (SimpleVector.mk (ArrayPtr.mk (some 1)) 3 3)
      = some true := by
  have hwa : SimpleVector.WF ([some [1, 2], some [1, 2, 3]] : Heap Int)
      (SimpleVector.mk (ArrayPtr.mk (some 0)) 2 2) := by decide
  have hwb : SimpleVector.WF ([some [1, 2], some [1, 2, 3]] : Heap Int)
      (SimpleVector.mk (ArrayPtr.mk (some 1)) 3 3) := by decide
  obtain ⟨lt_ab, lt_ba, eq_ab, hlt, _, _, _, hval, hle, _, _⟩ :=
    lt_is_lexicographic _ _ _ hwa hwb
  have htrue : lt_ab = true := by
    rw [hval]
    decide
  refine ⟨hwa, hwb, ?_, ?_⟩
  · rw [hlt, htrue]
  · rw [hle, htrue]
    rfl

end Ordering

/-! ## Capacity growth -/

section CapacityGrowth

variable {T : Type}

/-- The capacity after `PushBack` on a well-formed vector, when the allocation it
may need succeeds: unchanged when there was room, and `(size + 1) * 2` (what
`Resize(size_ + 1)` allocates) when the vector was full. -/
theorem SimpleVector.PushBack_capacity (al : Allocator T) {h : Heap T} {s : SimpleVector}
    (hwf : SimpleVector.WF h s) (item : T)
    (hal : s.size_ < s.capacity_ ∨ al.fails ((s.size_ + 1) * 2) = false) :
    ∃ h1 s1, SimpleVector.PushBack al h s item = .ok (h1, s1) ∧
      s1.capacity_ = (if s.size_ < s.capacity_ then s.capacity_ else (s.size_ + 1) * 2) := by
  by_cases hlt : s.size_ < s.capacity_
  · obtain ⟨hle, b, hb, hlen⟩ := SimpleVector.WF.unpack hwf
    obtain ⟨h1, hst, _, _, _⟩ := Heap.store_spec hb (show s.size_ < b.length by omega) item
    refine ⟨h1, { s with size_ := s.size_ + 1 }, ?_, ?_⟩
    · simp only [ArrayPtr.Get] at hst
      simp only [SimpleVector.PushBack, hlt, if_true, SimpleVector.At, ArrayPtr.index, ge_iff_le,
        show ¬ (s.size_ + 1 ≤ s.size_) by omega, if_false, hst]
    · show s.capacity_ = _
      rw [if_pos hlt]
  · have hfail : al.fails ((s.size_ + 1) * 2) = false := by
      cases hal with
      | inl hc => exact absurd hc hlt
      | inr hc => exact hc
    obtain ⟨h1, s1, hrs, hsz1, hcap1, hwf1, _, _, _⟩ :=
      SimpleVector.Resize_grow_spec al hwf (show s.size_ + 1 > s.size_ by omega) hfail
    obtain ⟨_, b1, hb1, hlen1⟩ := SimpleVector.WF.unpack hwf1
    obtain ⟨h2, hst, _, _, _⟩ :=
      Heap.store_spec hb1 (show s.size_ < b1.length by omega) item
    refine ⟨h2, s1, ?_, ?_⟩
    · simp only [ArrayPtr.Get] at hst
      simp only [SimpleVector.PushBack, hlt, if_false, hrs, SimpleVector.At, ArrayPtr.index,
        ge_iff_le, hsz1, size_t_dec, Nat.add_sub_cancel,
        show ¬ (s.size_ + 1 = 0) by omega,
        show ¬ (s.size_ + 1 ≤ s.size_) by omega, hst]
    · rw [hcap1, if_neg hlt]

/-- C12, on the code: `PushBack` keeps the capacity when `size < capacity`, but on a
full vector the capacity becomes `2 * (size + 1)`, which is never
`max(2 * size, 1)`: an empty vector of capacity 0 gets capacity 2, not 1, and a full
vector of size 2 gets capacity 6, not 4.  Allocation is assumed to succeed. -/
theorem PushBack_full_capacity {T : Type} (al : Allocator T) (hal : ∀ n, al.fails n = false)
    (h : Heap T) (s : SimpleVector) (v : T) (hwf : SimpleVector.WF h s) :
    ∃ h1 s1, SimpleVector.PushBack al h s v = .ok (h1, s1) ∧
      (s.GetSize < s.GetCapacity → s1.GetCapacity = s.GetCapacity) ∧
      (s.GetSize = s.GetCapacity →
        s1.GetCapacity = 2 * (s.GetSize + 1) ∧ s1.GetCapacity ≠ max (2 * s.GetSize) 1) := by
  obtain ⟨h1, s1, hpb, hcap⟩ := SimpleVector.PushBack_capacity al hwf v (Or.inr (hal _))
  refine ⟨h1, s1, hpb, ?_, ?_⟩
  · intro hlt
    have hlt0 : s.size_ < s.capacity_ := hlt
    rw [if_pos hlt0] at hcap
    exact hcap
  · intro hfull
    have hfull0 : s.size_ = s.capacity_ := hfull
    rw [if_neg (show ¬ s.size_ < s.capacity_ by omega)] at hcap
    constructor
    · show s1.capacity_ = 2 * (s.size_ + 1)
      omega
    · show s1.capacity_ ≠ max (2 * s.size_) 1
      omega

/-- C12, at two concrete inputs: `PushBack` on a default-constructed vector gives
capacity 2, and on the full vector `[1, 2]` it gives capacity 6. -/
theorem PushBack_full_capacity_witness :
    SimpleVector.WF ([] : Heap Int) {} ∧
    SimpleVector.WF ([some [1, 2]] : Heap Int) (SimpleVector.mk (ArrayPtr.mk (some 0)) 2 2) ∧
    (∃ h1 s1, SimpleVector.PushBack (Allocator.ofDefault (0 : Int)) [] {} 7 = .ok (h1, s1) ∧
      s1.GetCapacity = 2 ∧ s1.GetCapacity ≠ max (2 * 0) 1) ∧
    (∃ h1 s1, SimpleVector.PushBack (Allocator.ofDefault (0 : Int)) [some [1, 2]]
        (SimpleVector.mk (ArrayPtr.mk (some 0)) 2 2) 3 = .ok (h1, s1) ∧
      s1.GetCapacity = 6 ∧ s1.GetCapacity ≠ max (2 * 2) 1) := by
  have hw0 : SimpleVector.WF ([] : Heap Int) {} := by decide
  have hw2 : SimpleVector.WF ([some [1, 2]] : Heap Int)
      (SimpleVector.mk (ArrayPtr.mk (some 0)) 2 2) := by decide
  obtain ⟨h1, s1, hpb1, _, hfull1⟩ :=
    PushBack_full_capacity (Allocator.ofDefault (0 : Int)) (fun _ => rfl) [] {} 7 hw0
  obtain ⟨h2, s2, hpb2, _, hfull2⟩ :=
    PushBack_full_capacity (Allocator.ofDefault (0 : Int)) (fun _ => rfl) [some [1, 2]]
      (SimpleVector.mk (ArrayPtr.mk (some 0)) 2 2) 3 hw2
  exact ⟨hw0, hw2, ⟨h1, s1, hpb1, (hfull1 rfl).1, (hfull1 rfl).2⟩,
    ⟨h2, s2, hpb2, (hfull2 rfl).1, (hfull2 rfl).2⟩⟩

/-- C13. `Insert` at a valid position returns with the value inserted; the vector
it leaves owns an array of exactly `capacity` slots.  When `size < capacity` the
capacity is unchanged and the array is the one owned before; on a full vector the
resulting capacity is exactly `max(2 * size, 1)` (doubled, or 1 for a vector of
capacity 0) and the array is one that was not live before the call.  Allocation is
assumed to succeed. -/
theorem Insert_capacity {T : Type} (al : Allocator T) (hal : ∀ n, al.fails n = false)
    (ndebug : Bool) (h : Heap T) (s : SimpleVector) (pos : Nat) (v : T)
    (hwf : SimpleVector.WF h s) (hpos : pos ≤ s.GetSize) :
    ∃ h1 s1, SimpleVector.Insert al ndebug h s pos v = .ok ((h1, s1), s1.index pos) ∧
      (s.GetSize < s.GetCapacity → s1.GetCapacity = s.GetCapacity) ∧
      (s.GetSize = s.GetCapacity → s1.GetCapacity = max (2 * s.GetSize) 1) ∧
      (s.GetCapacity = 0 → s1.GetCapacity = 1) ∧
      SimpleVector.WF h1 s1 ∧
      (Heap.array h1 s1.p_data_.Get).map List.length = some s1.GetCapacity ∧
      s1.GetSize = s.GetSize + 1 ∧
      SimpleVector.elems h1 s1 =
        (SimpleVector.elems h s).take pos ++ [v] ++ (SimpleVector.elems h s).drop pos ∧
      (s.GetSize < s.GetCapacity → s1.p_data_ = s.p_data_) ∧
      (s.GetSize = s.GetCapacity → h.array s1.p_data_.Get = none) := by
  obtain ⟨h1, s1, hins, hsz, hcap, hel, hwf1, _, hsame, hnew⟩ :=
    SimpleVector.Insert_spec al ndebug hwf hpos v (Or.inr (hal _))
  have hle : s.size_ ≤ s.capacity_ := (SimpleVector.WF.unpack hwf).1
  refine ⟨h1, s1, hins, ?_, ?_, ?_, hwf1, hwf1.2, hsz, hel, fun hlt => hsame hlt, ?_⟩
  · intro hlt
    have hlt0 : s.size_ < s.capacity_ := hlt
    rw [if_pos hlt0] at hcap
    exact hcap
  · intro hfull
    have hfull0 : s.size_ = s.capacity_ := hfull
    rw [if_neg (show ¬ s.size_ < s.capacity_ by omega)] at hcap
    show s1.capacity_ = max (2 * s.size_) 1
    omega
  · intro hzero
    have hzero0 : s.capacity_ = 0 := hzero
    rw [if_neg (show ¬ s.size_ < s.capacity_ by omega)] at hcap
    show s1.capacity_ = 1
    omega
  · intro hfull
    have hfull0 : s.size_ = s.capacity_ := hfull
    exact hnew (by omega)

/-- C13, at two concrete inputs: inserting into a default-constructed vector gives
capacity 1 and the one-slot array `[7]`; inserting into the full vector `[2, 3]`
gives capacity 4, a new four-slot array and the sequence `[1, 2, 3]`. -/
theorem Insert_capacity_witness :
    SimpleVector.WF ([] : Heap Int) {} ∧
    SimpleVector.WF ([some [2, 3]] : Heap Int) (SimpleVector.mk (ArrayPtr.mk (some 0)) 2 2) ∧
    (∃ h1 s1, SimpleVector.Insert (Allocator.ofDefault (0 : Int)) false [] {} 0 7
        = .ok ((h1, s1), s1.index 0) ∧ s1.GetCapacity = 1 ∧ SimpleVector.WF h1 s1 ∧
      (Heap.array h1 s1.p_data_.Get).map List.length = some 1 ∧
      SimpleVector.elems h1 s1 = [7]) ∧
    (∃ h1 s1, SimpleVector.Insert (Allocator.ofDefault (0 : Int)) false [some [2, 3]]
        (SimpleVector.mk (ArrayPtr.mk (some 0)) 2 2) 0 1 = .ok ((h1, s1), s1.index 0) ∧
      s1.GetCapacity = 4 ∧ SimpleVector.WF h1 s1 ∧
      (Heap.array h1 s1.p_data_.Get).map List.length = some 4 ∧
      SimpleVector.elems h1 s1 = [1, 2, 3] ∧
      Heap.array ([some [2, 3]] : Heap Int) s1.p_data_.Get = none) := by
  have hw0 : SimpleVector.WF ([] : Heap Int) {} := by decide
  have hw2 : SimpleVector.WF ([some [2, 3]] : Heap Int)
      (SimpleVector.mk (ArrayPtr.mk (some 0)) 2 2) := by decide
  obtain ⟨h1, s1, hi1, _, _, hz1, hwf1, hlen1, _, hel1, _, _⟩ :=
    Insert_capacity (Allocator.ofDefault (0 : Int)) (fun _ => rfl) false [] {} 0 7 hw0
      (Nat.le_refl 0)
  obtain ⟨h2, s2, hi2, _, hf2, _, hwf2, hlen2, _, hel2, _, hnew2⟩ :=
    Insert_capacity (Allocator.ofDefault (0 : Int)) (fun _ => rfl) false [some [2, 3]]
      (SimpleVector.mk (ArrayPtr.mk (some 0)) 2 2) 0 1 hw2 (by decide)
  refine ⟨hw0, hw2, ⟨h1, s1, hi1, hz1 rfl, hwf1, ?_, hel1⟩,
    ⟨h2, s2, hi2, hf2 rfl, hwf2, ?_, hel2, hnew2 rfl⟩⟩
  · rw [hlen1, hz1 rfl]
  · rw [hlen2, hf2 rfl]
    rfl

end CapacityGrowth

/-! ## Allocation failure during growth -/

section AllocationFailure

variable {T : Type}

theorem ArrayPtr.ofSize_fails {al : Allocator T} (h : Heap T) {n : Nat} (hn : n ≠ 0)
    (hf : al.fails n = true) : ArrayPtr.ofSize al h n = none := by
  simp [ArrayPtr.ofSize, Heap.new_array, hn, hf]

/-- C14, on the code: when the allocation of the new array throws, `Resize`,
`Reserve` and `PushBack` let `std::bad_alloc` out and leave the vector and the free
store exactly as they were; `Insert` on a full vector also lets it out and leaves
size and array alone, but it has already overwritten `capacity_` with
`max(size * 2, 1)`, so the capacity is not what it was before the call. -/
theorem growth_alloc_failure {T : Type} (al : Allocator T) (h : Heap T) (s : SimpleVector) :
    (∀ new_size, new_size > s.GetSize → al.fails (new_size * 2) = true →
      SimpleVector.Resize al h s new_size = .threw .bad_alloc (h, s)) ∧
    (∀ new_capacity, new_capacity > s.GetCapacity → al.fails new_capacity = true →
      SimpleVector.Reserve al h s new_capacity = .threw .bad_alloc (h, s)) ∧
    (∀ v, s.GetSize ≥ s.GetCapacity → al.fails ((s.GetSize + 1) * 2) = true →
      SimpleVector.PushBack al h s v = .threw .bad_alloc (h, s)) ∧
    (∀ ndebug pos v, pos ≤ s.GetSize → s.GetSize = s.GetCapacity →
      al.fails (max (s.GetSize * 2) 1) = true →
      ∃ s1, SimpleVector.Insert al ndebug h s pos v = .threw .bad_alloc (h, s1) ∧
        s1.GetSize = s.GetSize ∧ s1.p_data_ = s.p_data_ ∧
        s1.GetCapacity = max (s.GetSize * 2) 1 ∧ s1.GetCapacity ≠ s.GetCapacity) := by
  refine ⟨?_, ?_, ?_, ?_⟩
  · intro new_size hgt hf
    have hgt0 : new_size > s.size_ := hgt
    simp only [SimpleVector.Resize, hgt0, if_true,
      ArrayPtr.ofSize_fails h (show new_size * 2 ≠ 0 by omega) hf]
  · intro new_capacity hgt hf
    have hgt0 : new_capacity > s.capacity_ := hgt
    simp only [SimpleVector.Reserve, hgt0, if_true,
      ArrayPtr.ofSize_fails h (show new_capacity ≠ 0 by omega) hf]
  · intro v hge hf
    have hge0 : ¬ s.size_ < s.capacity_ := Nat.not_lt.mpr hge
    have hf0 : al.fails ((s.size_ + 1) * 2) = true := hf
    simp only [SimpleVector.PushBack, hge0, if_false, SimpleVector.Resize,
      show s.size_ + 1 > s.size_ by omega, if_true,
      ArrayPtr.ofSize_fails h (show (s.size_ + 1) * 2 ≠ 0 by omega) hf0]
  · intro ndebug pos v hpos hfull hf
    have hpos0 : pos ≤ s.size_ := hpos
    have hfull0 : s.size_ = s.capacity_ := hfull
    have hf0 : al.fails (max (s.size_ * 2) 1) = true := hf
    refine ⟨{ s with capacity_ := max (s.size_ * 2) 1 }, ?_, rfl, rfl, rfl, ?_⟩
    · simp only [SimpleVector.Insert, hpos0, decide_True, Bool.not_true, Bool.and_false,
        Bool.false_eq_true, if_false, ge_iff_le, show s.capacity_ ≤ s.size_ by omega, if_true,
        ArrayPtr.ofSize_fails h (show max (s.size_ * 2) 1 ≠ 0 by omega) hf0]
    · show max (s.size_ * 2) 1 ≠ s.capacity_
      omega

/-- C14, at a concrete input: with no memory left, `Insert` at `begin()` of a
default-constructed vector throws and leaves size 0 with capacity 1 and a null
array; the next `PushBack` then takes the in-place branch and writes through the
null pointer. -/
theorem growth_alloc_failure_witness :
    ∃ s1, SimpleVector.Insert (Allocator.exhausted (0 : Int)) false [] {} 0 7
        = .threw .bad_alloc ([], s1) ∧
      s1.GetSize = 0 ∧ s1.GetCapacity = 1 ∧ s1.p_data_.Get = none ∧
      s1.GetCapacity ≠ ({} : SimpleVector).GetCapacity ∧
      SimpleVector.PushBack (Allocator.ofDefault (0 : Int)) [] s1 7 = .undefined := by
  obtain ⟨s1, hins, hsz, hp, hcap, hne⟩ :=
    (growth_alloc_failure (Allocator.exhausted (0 : Int)) [] {}).2.2.2 false 0 7
      (Nat.le_refl 0) rfl rfl
  have hval : SimpleVector.Insert (Allocator.exhausted (0 : Int)) false [] {} 0 7
      = .threw .bad_alloc ([], SimpleVector.mk {} 0 1) := rfl
  rw [hval] at hins
  cases hins
  exact ⟨_, rfl, rfl, rfl, rfl, hne, rfl⟩

end AllocationFailure

/-! ## Moves of `ArrayPtr` and of `SimpleVector` -/

section Moves

variable {T : Type}

/-- C15, as the code has it: move assignment of `ArrayPtr` is a `swap`, so `a` ends
up owning what `b` owned and `b` ends up owning what `a` owned; `b` is empty
afterwards (false boolean conversion, null `Get()`) exactly when `a` was empty
before.  Move construction starts the new object from `nullptr` and swaps, so it
takes over `b`'s array and leaves `b` empty. -/
theorem ArrayPtr_move_exchanges (a b : ArrayPtr) :
    (ArrayPtr.move_assign a b).1.Get = b.Get ∧
    (ArrayPtr.move_assign a b).2.Get = a.Get ∧
    (ArrayPtr.move_assign a b).2.toBool = a.toBool ∧
    ((ArrayPtr.move_assign a b).2.Get = none ↔ a.Get = none) ∧
    (ArrayPtr.move_construct b).1.Get = b.Get ∧
    (ArrayPtr.move_construct b).2.Get = none ∧
    (ArrayPtr.move_construct b).2.toBool = false :=
  ⟨rfl, rfl, rfl, Iff.rfl, rfl, rfl, rfl⟩

/-- C15 fails as stated: when `a` owns the array at address 0 and `b` the array at
address 1, after move-assigning `b` into `a` the source `b` is not empty, it owns
the array at address 0. -/
theorem ArrayPtr_move_assign_source_not_empty :
    (ArrayPtr.move_assign (ArrayPtr.mk (some 0)) (ArrayPtr.mk (some 1))).1.Get = some 1 ∧
    (ArrayPtr.move_assign (ArrayPtr.mk (some 0)) (ArrayPtr.mk (some 1))).2.Get = some 0 ∧
    (ArrayPtr.move_assign (ArrayPtr.mk (some 0)) (ArrayPtr.mk (some 1))).2.Get ≠ none ∧
    (ArrayPtr.move_assign (ArrayPtr.mk (some 0)) (ArrayPtr.mk (some 1))).2.toBool = true :=
  ⟨rfl, rfl, by decide, rfl⟩

/-- Move assignment between two distinct well-formed vectors, when the allocation
of the temporary copy succeeds: the two objects exchange array, size and capacity,
and both arrays are left as they were. -/
theorem SimpleVector.move_assign_spec [Inhabited T] (al : Allocator T) {h : Heap T}
    {a b : SimpleVector} (hwa : SimpleVector.WF h a) (hwb : SimpleVector.WF h b)
    (hal : al.fails b.size_ = false) :
    ∃ h2, SimpleVector.move_assign al h false a b =
        .ok (h2, SimpleVector.mk (ArrayPtr.mk b.p_data_.raw_ptr_) b.size_ b.capacity_,
          SimpleVector.mk (ArrayPtr.mk a.p_data_.raw_ptr_) a.size_ a.capacity_) ∧
      h2.array a.p_data_.Get = h.array a.p_data_.Get ∧
      h2.array b.p_data_.Get = h.array b.p_data_.Get := by
  obtain ⟨h1, t, hok, _, _, hwft, _, hA, hfresh⟩ := SimpleVector.copy_construct_spec al hwb hal
  obtain ⟨_, bt, hbt, _⟩ := SimpleVector.WF.unpack hwft
  obtain ⟨h2, hdel, hfr, _⟩ := Heap.delete_spec hbt
  obtain ⟨_, ba, hba, _⟩ := SimpleVector.WF.unpack hwa
  obtain ⟨_, bb, hbb, _⟩ := SimpleVector.WF.unpack hwb
  have keep : ∀ (q : RawPtr) (c : List T), h.array q = some c → h2.array q = h.array q := by
    intro q c hq
    by_cases hqt : q = t.p_data_.Get
    · rcases hfresh with hnone | hfr0
      · rw [hqt, hnone]
        rfl
      · rw [← hqt, hq] at hfr0
        cases hfr0
    · rw [hfr q hqt, hA q c hq (fun hf => hf), hq]
  refine ⟨h2, ?_, keep _ ba hba, keep _ bb hbb⟩
  simp only [SimpleVector.move_assign, Bool.false_eq_true, if_false, hok, SimpleVector.destroy,
    ArrayPtr.destroy, SimpleVector.swap, ArrayPtr.swap]
  simp only [ArrayPtr.Get] at hdel
  rw [hdel]

/-- C19. Move-assigning `b` into a distinct `a` (both well-formed) returns and
exchanges their states: afterwards `a` has the size, capacity and elements `b` had
and `b` has the size, capacity and elements `a` had, so `b` is left empty only
when `a` was empty; move-assigning a vector to itself changes nothing.  The
allocation of the temporary copy the operator makes is assumed to succeed. -/
theorem move_assign_exchanges {T : Type} [Inhabited T] (al : Allocator T)
    (hal : ∀ n, al.fails n = false) (h : Heap T) (a b : SimpleVector)
    (hwa : SimpleVector.WF h a) (hwb : SimpleVector.WF h b) :
    (∃ h2 a2 b2, SimpleVector.move_assign al h false a b = .ok (h2, a2, b2) ∧
      a2.GetSize = b.GetSize ∧ a2.GetCapacity = b.GetCapacity ∧
      SimpleVector.elems h2 a2 = SimpleVector.elems h b ∧
      b2.GetSize = a.GetSize ∧ b2.GetCapacity = a.GetCapacity ∧
      SimpleVector.elems h2 b2 = SimpleVector.elems h a ∧
      (b2.IsEmpty = true ↔ a.IsEmpty = true) ∧
      SimpleVector.WF h2 a2 ∧ SimpleVector.WF h2 b2) ∧
    SimpleVector.move_assign al h true a a = .ok (h, a, a) := by
  constructor
  · obtain ⟨h2, hok, hka, hkb⟩ := SimpleVector.move_assign_spec al hwa hwb (hal _)
    obtain ⟨_, ba, hba, _⟩ := SimpleVector.WF.unpack hwa
    obtain ⟨_, bb, hbb, _⟩ := SimpleVector.WF.unpack hwb
    rw [hba] at hka
    rw [hbb] at hkb
    obtain ⟨_, hela, hwfa⟩ := SimpleVector.same_array hba hka
    obtain ⟨_, helb, hwfb⟩ := SimpleVector.same_array hbb hkb
    exact ⟨h2, _, _, hok, rfl, rfl, helb, rfl, rfl, hela, Iff.rfl, hwfb hwb, hwfa hwa⟩
  · rfl

/-- C19, at a concrete input: `a = [1, 2, 3]` and `b = [9]` with capacity 4; after
`a = std::move(b)` the vector `a` reads `[9]` with capacity 4 and `b` reads
`[1, 2, 3]`, so `b` is not left empty. -/
theorem move_assign_exchanges_witness :
    SimpleVector.WF ([some [1, 2, 3], some [9, 0, 0, 0]] : Heap Int)
      (SimpleVector.mk (ArrayPtr.mk (some 0)) 3 3) ∧
    SimpleVector.WF ([some [1, 2, 3], some [9, 0, 0, 0]] : Heap Int)
      (SimpleVector.mk (ArrayPtr.mk (some 1)) 1 4) ∧
    (∃ h2 a2 b2, SimpleVector.move_assign (Allocator.ofDefault (0 : Int))
        [some [1, 2, 3], some [9, 0, 0, 0]] false
        (SimpleVector.mk (ArrayPtr.mk (some 0)) 3 3) (SimpleVector.mk (ArrayPtr.mk (some 1)) 1 4)
        = .ok (h2, a2, b2) ∧
      SimpleVector.elems h2 a2 = [9] ∧ a2.GetCapacity = 4 ∧
      SimpleVector.elems h2 b2 = [1, 2, 3] ∧ b2.IsEmpty = false) := by
  have hwa : SimpleVector.WF ([some [1, 2, 3], some [9, 0, 0, 0]] : Heap Int)
      (SimpleVector.mk (ArrayPtr.mk (some 0)) 3 3) := by decide
  have hwb : SimpleVector.WF ([some [1, 2, 3], some [9, 0, 0, 0]] : Heap Int)
      (SimpleVector.mk (ArrayPtr.mk (some 1)) 1 4) := by decide
  obtain ⟨⟨h2, a2, b2, hok, _, hcap, hela, hszb, _, helb, _, _, _⟩, _⟩ :=
    move_assign_exchanges (Allocator.ofDefault (0 : Int)) (fun _ => rfl) _ _ _ hwa hwb
  refine ⟨hwa, hwb, h2, a2, b2, hok, hela, hcap, helb, ?_⟩
  have hsz : b2.size_ = 3 := hszb
  simp [SimpleVector.IsEmpty, hsz]

end Moves

/-! ## Shrinking -/

section Shrinking

variable {T : Type}

/-- C16, on the code: with `assert` active, `PopBack` evaluates `IsEmpty()`, so the
assertion holds exactly for an empty vector (whose size then wraps around to
`SIZE_MAX`) and fails for every non-empty vector, which is aborted instead of
being shortened. -/
theorem PopBack_assert_inverted (s : SimpleVector) :
    SimpleVector.PopBack false s =
      (if s.IsEmpty then .ok { s with size_ := SIZE_MAX } else .abort) ∧
    SimpleVector.PopBack false (SimpleVector.mk (ArrayPtr.mk (some 0)) 1 1) = .abort ∧
    SimpleVector.PopBack false {} = .ok (SimpleVector.mk {} SIZE_MAX 0) := by
  refine ⟨?_, rfl, rfl⟩
  by_cases he : s.size_ = 0
  · simp [SimpleVector.PopBack, SimpleVector.IsEmpty, size_t_dec, he]
  · simp [SimpleVector.PopBack, SimpleVector.IsEmpty, he]

theorem SimpleVector.elems_shrink (h : Heap T) (s : SimpleVector) {n : Nat} (hn : n ≤ s.size_) :
    SimpleVector.elems h { s with size_ := n } = (SimpleVector.elems h s).take n := by
  unfold SimpleVector.elems SimpleVector.buffer
  rw [List.take_take, Nat.min_eq_left hn]

/-- C17, on the code: `Clear` and a `Resize` that does not grow return with the new
size, the old capacity, the same array and the surviving elements unchanged, and so
does `PopBack` on a non-empty vector when `assert` is compiled out; with `assert`
active `PopBack` on a non-empty vector aborts and yields nothing. -/
theorem shrinking_keeps_capacity {T : Type} (al : Allocator T) (h : Heap T) (s : SimpleVector) :
    (s.Clear.GetSize = 0 ∧ s.Clear.GetCapacity = s.GetCapacity ∧ s.Clear.p_data_ = s.p_data_) ∧
    (∀ n, n ≤ s.GetSize →
      SimpleVector.Resize al h s n = .ok (h, { s with size_ := n }) ∧
      SimpleVector.elems h { s with size_ := n } = (SimpleVector.elems h s).take n) ∧
    (s.GetSize ≠ 0 →
      SimpleVector.PopBack true s = .ok { s with size_ := s.size_ - 1 } ∧
      SimpleVector.elems h { s with size_ := s.size_ - 1 } =
        (SimpleVector.elems h s).take (s.size_ - 1) ∧
      SimpleVector.PopBack false s = .abort) := by
  refine ⟨⟨rfl, rfl, rfl⟩, ?_, ?_⟩
  · intro n hn
    have hn0 : n ≤ s.size_ := hn
    refine ⟨?_, SimpleVector.elems_shrink h s hn0⟩
    simp only [SimpleVector.Resize, show ¬ n > s.size_ by omega, if_false]
  · intro hne
    have hne0 : s.size_ ≠ 0 := hne
    refine ⟨?_, SimpleVector.elems_shrink h s (Nat.sub_le _ _), ?_⟩
    · simp [SimpleVector.PopBack, size_t_dec, hne0]
    · simp [SimpleVector.PopBack, SimpleVector.IsEmpty, hne0]

/-- C17, at a concrete input: on `[1, 2, 3]` with capacity 3, `Resize(2)` gives
`[1, 2]` with capacity 3; `PopBack` gives the same when `assert` is compiled out and
aborts when it is active. -/
theorem shrinking_keeps_capacity_witness :
    SimpleVector.Resize (Allocator.ofDefault (0 : Int)) [some [1, 2, 3]]
        (SimpleVector.mk (ArrayPtr.mk (some 0)) 3 3) 2
      = .ok ([some [1, 2, 3]], SimpleVector.mk (ArrayPtr.mk (some 0)) 2 3) ∧
    SimpleVector.elems ([some [1, 2, 3]] : Heap Int) (SimpleVector.mk (ArrayPtr.mk (some 0)) 2 3)
      = [1, 2] ∧
    SimpleVector.PopBack true (SimpleVector.mk (ArrayPtr.mk (some 0)) 3 3)
      = .ok (SimpleVector.mk (ArrayPtr.mk (some 0)) 2 3) ∧
    SimpleVector.PopBack false (SimpleVector.mk (ArrayPtr.mk (some 0)) 3 3) = .abort := by
  have hall := shrinking_keeps_capacity (Allocator.ofDefault (0 : Int)) [some [1, 2, 3]]
    (SimpleVector.mk (ArrayPtr.mk (some 0)) 3 3)
  have hr := hall.2.1 2 (by decide)
  have hp := hall.2.2 (by decide)
  exact ⟨hr.1, hr.2, hp.1, hp.2.2⟩

end Shrinking

/-! ## 64-bit arithmetic -/

section MachineArithmetic

variable {T : Type}

/-- As long as `new_size * 2` fits in 64 bits, the machine computes what the exact
model computes. -/
theorem SimpleVector.Resize_u64_eq (al : Allocator T) (h : Heap T) (s : SimpleVector)
    {new_size : Nat} (hfit : new_size * 2 < 2 ^ 64) :
    SimpleVector.Resize_u64 al h s new_size = SimpleVector.Resize al h s new_size := by
  unfold SimpleVector.Resize_u64 SimpleVector.Resize size_t_mul
  rw [Nat.mod_eq_of_lt hfit]

/-- A `size_t` sum that fits in 64 bits is the exact sum. -/
theorem size_t_add_eq {a b : Nat} (hfit : a + b < 2 ^ 64) : size_t_add a b = a + b := by
  unfold size_t_add
  exact Nat.mod_eq_of_lt hfit

/-- A `size_t` product that fits in 64 bits is the exact product. -/
theorem size_t_mul_eq {a b : Nat} (hfit : a * b < 2 ^ 64) : size_t_mul a b = a * b := by
  unfold size_t_mul
  exact Nat.mod_eq_of_lt hfit

/-- On a vector with `size + 1 < 2 ^ 63` the machine's `PushBack` is the exact one. -/
theorem SimpleVector.PushBack_u64_eq (al : Allocator T) (h : Heap T) (s : SimpleVector)
    (item : T) (hfit : (s.size_ + 1) * 2 < 2 ^ 64) :
    SimpleVector.PushBack_u64 al h s item = SimpleVector.PushBack al h s item := by
  unfold SimpleVector.PushBack_u64 SimpleVector.PushBack
  rw [size_t_add_eq (show s.size_ + 1 < 2 ^ 64 by omega), SimpleVector.Resize_u64_eq al h s hfit]

/-- At `size_ = SIZE_MAX`, the state an empty vector is in after `PopBack` with the
`assert` compiled out, the machine's `PushBack` computes `size_ + 1 = 0`: `Resize(0)`
sets the size to 0 and allocates nothing, and `At(size_ - 1)` throws
`std::out_of_range`. -/
theorem SimpleVector.PushBack_u64_at_SIZE_MAX (al : Allocator T) (item : T) :
    SimpleVector.PopBack true {} = .ok (SimpleVector.mk {} SIZE_MAX 0) ∧
    SimpleVector.PushBack_u64 al [] (SimpleVector.mk {} SIZE_MAX 0) item
      = .threw .out_of_range ([], SimpleVector.mk {} 0 0) :=
  ⟨rfl, rfl⟩

/-- On a vector with `size + 1 < 2 ^ 63` the machine's `Insert` is the exact one. -/
theorem SimpleVector.Insert_u64_eq (al : Allocator T) (ndebug : Bool) (h : Heap T)
    (s : SimpleVector) (pos : Nat) (value : T) (hfit : (s.size_ + 1) * 2 < 2 ^ 64) :
    SimpleVector.Insert_u64 al ndebug h s pos value = SimpleVector.Insert al ndebug h s pos value := by
  unfold SimpleVector.Insert_u64 SimpleVector.Insert
  dsimp only
  rw [size_t_add_eq (show s.size_ + 1 < 2 ^ 64 by omega),
    size_t_mul_eq (show s.size_ * 2 < 2 ^ 64 by omega)]

/-- A member call that asks for fewer than `2 ^ 63` elements runs on the machine as
in exact arithmetic. -/
theorem SimpleVector.mutate_u64_eq (h : Heap T) (c : SimpleVector) (m : Mutation T)
    (hfit : m.fits c = true) : c.mutate_u64 h m = c.mutate h m := by
  cases m with
  | PushBack al item =>
    simp only [Mutation.fits, decide_eq_true_eq] at hfit
    simp only [SimpleVector.mutate_u64, SimpleVector.mutate,
      SimpleVector.PushBack_u64_eq al h c item hfit]
  | Insert al ndebug pos value =>
    simp only [Mutation.fits, decide_eq_true_eq] at hfit
    simp only [SimpleVector.mutate_u64, SimpleVector.mutate,
      SimpleVector.Insert_u64_eq al ndebug h c pos value hfit]
  | Resize al new_size =>
    simp only [Mutation.fits, decide_eq_true_eq] at hfit
    simp only [SimpleVector.mutate_u64, SimpleVector.mutate,
      SimpleVector.Resize_u64_eq al h c hfit]
  | assign_index index value => rfl
  | Erase ndebug pos => rfl
  | PopBack ndebug => rfl
  | Reserve al new_capacity => rfl
  | Clear => rfl

/-- A step that asks for fewer than `2 ^ 63` elements runs on the machine as in exact
arithmetic. -/
theorem World.step_u64_eq [Inhabited T] (w : World T) (c : Call T) (hfit : c.fits w = true) :
    w.step_u64 c = w.step c := by
  cases c with
  | member self m =>
    simp only [World.step_u64, World.step]
    cases hc : w.vars[self]? with
    | none => rfl
    | some v =>
      simp only [Call.fits, hc] at hfit
      simp only [SimpleVector.mutate_u64_eq w.heap v m hfit]
  | construct_default => rfl
  | construct_size_value al size value => rfl
  | construct_size al size => rfl
  | construct_reserve al capacity_to_reserve => rfl
  | construct_copy al other => rfl
  | construct_move other => rfl
  | assign_copy al self rhs => rfl
  | assign_move al self other => rfl
  | swap self other => rfl

/-- A program all of whose steps ask for fewer than `2 ^ 63` elements runs on the
machine as in exact arithmetic. -/
theorem World.run_u64_eq [Inhabited T] (calls : List (Call T)) :
    ∀ w : World T, World.run_fits w calls = true → World.run_u64 w calls = World.run w calls := by
  induction calls with
  | nil =>
    intro w _
    rfl
  | cons c cs ih =>
    intro w hfit
    simp only [World.run_fits, Bool.and_eq_true] at hfit
    obtain ⟨hc, hrest⟩ := hfit
    unfold World.run_u64 World.run
    rw [← World.step_u64_eq w c hc]
    cases hs : w.step_u64 c with
    | none => rfl
    | some w1 =>
      simp only [hs] at hrest
      exact ih w1 hrest

/-- C1, on the code, with `size_t` arithmetic as the 64-bit machine does it.  Start
with no objects and run any finite client program made of constructor calls, copy
and move construction and assignment, `swap`, and the members `PushBack`, `Insert`,
`Erase`, `PopBack`, `Resize`, `Reserve`, `Clear` and element writes, each within its
precondition, with any allocator behaviour and with exceptions caught.  As long as
every growing call asks for fewer than `2 ^ 63` elements, every vector has
`size <= capacity` in every state reached.  Without that bound the invariant is
lost: `Resize(2 ^ 63)` has no precondition, and on a default-constructed vector it
computes `new_size * 2 = 0`, allocates nothing and returns with size `2 ^ 63` and
capacity 0, whatever the allocator does. -/
theorem size_le_capacity_u64 (T : Type) [Inhabited T] :
    (∀ (calls : List (Call T)) (w : World T), World.run_fits World.initial calls = true →
      World.run_u64 World.initial calls = some w →
      ∀ s ∈ w.vars, s.GetSize ≤ s.GetCapacity) ∧
    (∀ al : Allocator T,
      Mutation.pre ({} : SimpleVector) (Mutation.Resize al (2 ^ 63)) = true ∧
      ∃ w : World T,
        World.run_u64 World.initial [.construct_default, .member 0 (.Resize al (2 ^ 63))]
          = some w ∧
        w.heap = [] ∧ w.vars = [SimpleVector.mk {} (2 ^ 63) 0] ∧
        ¬ ∀ s ∈ w.vars, s.GetSize ≤ s.GetCapacity) := by
  constructor
  · intro calls w hfit hrun
    rw [World.run_u64_eq calls World.initial hfit] at hrun
    exact World.run_le calls World.initial w (fun _ hs => by cases hs) hrun
  · intro al
    refine ⟨rfl, _, rfl, rfl, rfl, fun hall => ?_⟩
    exact absurd (hall (SimpleVector.mk {} (2 ^ 63) 0) (List.mem_singleton.2 rfl)) (by decide)

/-- C1, at a concrete input: every step of `sample_program` asks for fewer than
`2 ^ 63` elements, the 64-bit machine runs it to the end, and in the state it
reaches the five vectors have sizes 3, 5, 1, 0, 0 and capacities 3, 10, 10, 3, 4. -/
theorem size_le_capacity_u64_witness :
    World.run_fits World.initial sample_program = true ∧
    ∃ w, World.run_u64 World.initial sample_program = some w ∧
      w.vars.map (fun s => (s.GetSize, s.GetCapacity)) = [(3, 3), (5, 10), (1, 10), (0, 3), (0, 4)] ∧
      ∀ s ∈ w.vars, s.GetSize ≤ s.GetCapacity :=
  ⟨rfl, _, rfl, rfl, (size_le_capacity_u64 Int).1 sample_program _ rfl rfl⟩

/-- C20, on the code: with `new_size * 2` computed modulo `2 ^ 64`, `Resize(2 ^ 63)`
on a default-constructed vector asks `ArrayPtr` for 0 elements, allocates nothing,
and returns with size `2 ^ 63`, capacity 0 and a null array: the capacity is not
`>= new_size`.  `Resize(2 ^ 63 + 1)` likewise returns with capacity 2. -/
theorem Resize_u64_wraps :
    SimpleVector.Resize_u64 (Allocator.ofDefault (0 : Int)) [] {} (2 ^ 63)
      = .ok ([], SimpleVector.mk {} (2 ^ 63) 0) ∧
    ¬ ((SimpleVector.mk {} (2 ^ 63) 0).GetCapacity ≥ 2 ^ 63) ∧
    (∃ h1 s1, SimpleVector.Resize_u64 (Allocator.ofDefault (0 : Int)) [] {} (2 ^ 63 + 1)
        = .ok (h1, s1) ∧ s1.GetSize = 2 ^ 63 + 1 ∧ s1.GetCapacity = 2 ∧
        ¬ (s1.GetCapacity ≥ 2 ^ 63 + 1)) := by
  refine ⟨rfl, by decide, ⟨_, _, rfl, rfl, rfl, by decide⟩⟩

end MachineArithmetic

end CppSimpleVector
